import Mathlib

/-! 1-Wire bus driver (mgos_onewire.c): embedding and verified properties.

The C functions of `src/src/mgos_onewire.c` are embedded as pure functions that
thread the platform state explicitly.  The platform primitives the driver calls
(`mgos_gpio_*`, `mgos_usleep`, `mgos_ints_*`) live outside the repository and
are taken as a parameter `Hal σ`.  Machine integers are `Nat`/`Int`, with
`% 256` wherever a `uint8_t` may wrap.
-/

namespace Onewire

/-! ## Platform primitives -/

/-- Platform primitives used by the driver, over a platform state `σ`.
Levels are booleans: `true` is `HIGH` (0x1) and `false` is `LOW` (0x0). -/
structure Hal (σ : Type) where
  /-- Digital read of a pin. -/
  mgos_gpio_read : Int → σ → Bool × σ
  /-- Digital write of a level to a pin. -/
  mgos_gpio_write : Int → Bool → σ → σ
  /-- Configure a pin as input with pull-up (`MGOS_GPIO_PULL_UP`). -/
  mgos_gpio_setup_input : Int → σ → σ
  /-- Switch a pin to output mode (`MGOS_GPIO_MODE_OUTPUT`). -/
  mgos_gpio_set_mode : Int → σ → σ
  /-- Busy-wait for the given number of microseconds. -/
  mgos_usleep : Nat → σ → σ
  /-- Mask interrupts. -/
  mgos_ints_disable : σ → σ
  /-- Unmask interrupts. -/
  mgos_ints_enable : σ → σ

/-! ## Data model -/

/-- The C struct `mgos_onewire_search_state`. -/
structure mgos_onewire_search_state where
  search_mode : Int
  last_device : Int
  last_discrepancy : Int
  last_family_discrepancy : Int
  rom : List Nat
  crc8 : Nat
deriving DecidableEq, Repr

/-- The C struct `mgos_onewire`.  The pointer field `res_rom` is represented by
passing the pointed-to caller buffer explicitly to the search. -/
structure mgos_onewire where
  pin_in : Int
  pin_out : Int
  sst : mgos_onewire_search_state
deriving DecidableEq, Repr

/-- The value `memset(&ow->sst, 0, sizeof(ow->sst))` leaves behind. -/
def sst_zero : mgos_onewire_search_state :=
  { search_mode := 0, last_device := 0, last_discrepancy := 0,
    last_family_discrepancy := 0, rom := [0, 0, 0, 0, 0, 0, 0, 0], crc8 := 0 }

/-! ## CRC8 -/

/-- The lookup table `crc_table`. -/
def crc_table : List Nat :=
  [0,   94,  188, 226, 97,  63,  221, 131, 194, 156, 126, 32,  163, 253, 31,
   65,  157, 195, 33,  127, 252, 162, 64,  30,  95,  1,   227, 189, 62,  96,
   130, 220, 35,  125, 159, 193, 66,  28,  254, 160, 225, 191, 93,  3,   128,
   222, 60,  98,  190, 224, 2,   92,  223, 129, 99,  61,  124, 34,  192, 158,
   29,  67,  161, 255, 70,  24,  250, 164, 39,  121, 155, 197, 132, 218, 56,
   102, 229, 187, 89,  7,   219, 133, 103, 57,  186, 228, 6,   88,  25,  71,
   165, 251, 120, 38,  196, 154, 101, 59,  217, 135, 4,   90,  184, 230, 167,
   249, 27,  69,  198, 152, 122, 36,  248, 166, 68,  26,  153, 199, 37,  123,
   58,  100, 134, 216, 91,  5,   231, 185, 140, 210, 48,  110, 237, 179, 81,
   15,  78,  16,  242, 172, 47,  113, 147, 205, 17,  79,  173, 243, 112, 46,
   204, 146, 211, 141, 111, 49,  178, 236, 14,  80,  175, 241, 19,  77,  206,
   144, 114, 44,  109, 51,  209, 143, 12,  82,  176, 238, 50,  108, 142, 208,
   83,  13,  239, 177, 240, 174, 76,  18,  145, 207, 45,  115, 202, 148, 118,
   40,  171, 245, 23,  73,  8,   86,  180, 234, 105, 55,  213, 139, 87,  9,
   235, 181, 54,  104, 138, 212, 149, 203, 41,  119, 244, 170, 72,  22,  233,
   183, 85,  11,  136, 214, 52,  106, 43,  117, 151, 201, 74,  20,  246, 168,
   116, 42,  200, 150, 21,  75,  169, 247, 182, 232, 10,  84,  215, 137, 107,
   53]

/-- The loop `while (len-- > 0) res = crc_table[res ^ *rom++];` with `len`
iterations left, `rom` the bytes from the current pointer on. -/
def crc8_loop : List Nat → Nat → Nat → Nat
  | _, 0, res => res
  | [], _ + 1, res => res
  | b :: rom, len + 1, res => crc8_loop rom len (crc_table.getD (res ^^^ b) 0)

/-- The function `mgos_onewire_crc8(rom, len)`; a `len <= 0` runs no iteration. -/
def mgos_onewire_crc8 (rom : List Nat) (len : Int) : Nat :=
  crc8_loop rom len.toNat 0

/-- One shift of the bit-serial CRC8 register, as the specification words it:
shift right by one bit and XOR in 0x8C when the bit shifted out was 1. -/
def spec_crc8_shift (reg : Nat) : Nat :=
  if reg % 2 = 1 then (reg / 2) ^^^ 0x8C else reg / 2

/-- Bit-by-bit 1-Wire CRC8 as the specification words it: register starts at 0,
each byte is XOR-ed in and followed by eight shifts. -/
def spec_crc8_bitwise (bytes : List Nat) : Nat :=
  bytes.foldl (fun reg b => spec_crc8_shift^[8] (reg ^^^ b)) 0

/-! ## Bit and byte transport -/

variable {σ : Type}

/-- The static function `onewire_wait(ow, n)`: the do-while loop polling the
input pin, by recursion on the counter `n`. -/
def onewire_wait (H : Hal σ) (ow : mgos_onewire) : Nat → σ → Bool × σ
  | 0, s => (false, s)
  | n + 1, s =>
    let s1 := H.mgos_usleep 2 s
    let r := H.mgos_gpio_read ow.pin_in s1
    if r.1 = false then onewire_wait H ow n r.2 else (decide (n ≠ 0), r.2)

/-- The static function `onewire_prepare_input`. -/
def onewire_prepare_input (H : Hal σ) (ow : mgos_onewire) (s : σ) : σ :=
  if ow.pin_in = ow.pin_out then H.mgos_gpio_setup_input ow.pin_in s
  else H.mgos_gpio_write ow.pin_out true s

/-- The static function `onewire_prepare_output`. -/
def onewire_prepare_output (H : Hal σ) (ow : mgos_onewire) (s : σ) : σ :=
  if ow.pin_in = ow.pin_out then H.mgos_gpio_set_mode ow.pin_out s else s

/-- The function `mgos_onewire_reset`; `none` is the NULL handle. -/
def mgos_onewire_reset (H : Hal σ) (ow : Option mgos_onewire) (s : σ) : Bool × σ :=
  match ow with
  | none => (false, s)
  | some ow =>
    let s := onewire_prepare_input H ow s
    let w := onewire_wait H ow 125 s
    if w.1 = false then (false, w.2)
    else
      let s := H.mgos_ints_disable w.2
      let s := onewire_prepare_output H ow s
      let s := H.mgos_gpio_write ow.pin_out false s
      let s := H.mgos_ints_enable s
      let s := H.mgos_usleep 480 s
      let s := H.mgos_ints_disable s
      let s := onewire_prepare_input H ow s
      let s := H.mgos_usleep 70 s
      let r := H.mgos_gpio_read ow.pin_in s
      let s := H.mgos_ints_enable r.2
      let s := H.mgos_usleep 410 s
      (!r.1, s)

/-- The function `mgos_onewire_read_bit`. -/
def mgos_onewire_read_bit (H : Hal σ) (ow : Option mgos_onewire) (s : σ) : Bool × σ :=
  match ow with
  | none => (false, s)
  | some ow =>
    let s := H.mgos_ints_disable s
    let s := onewire_prepare_output H ow s
    let s := H.mgos_gpio_write ow.pin_out false s
    let s := H.mgos_usleep 3 s
    let s := onewire_prepare_input H ow s
    let s := H.mgos_usleep 10 s
    let r := H.mgos_gpio_read ow.pin_in s
    let s := H.mgos_ints_enable r.2
    let s := H.mgos_usleep 52 s
    (r.1, s)

/-- The function `mgos_onewire_write_bit`; `bit` is the C `int` argument. -/
def mgos_onewire_write_bit (H : Hal σ) (ow : Option mgos_onewire) (bit : Int) (s : σ) : σ :=
  match ow with
  | none => s
  | some ow =>
    let s := H.mgos_ints_disable s
    let s := onewire_prepare_output H ow s
    let s := H.mgos_gpio_write ow.pin_out false s
    let s := H.mgos_usleep (if bit ≠ 0 then 10 else 65) s
    let s := H.mgos_gpio_write ow.pin_out true s
    let s := H.mgos_ints_enable s
    H.mgos_usleep (if bit ≠ 0 then 55 else 5) s

/-- The loop of `mgos_onewire_read`: `for (mask = 0x01; mask; mask <<= 1)` over
a `uint8_t` mask, with a bound on the number of iterations. -/
def read_loop (H : Hal σ) (ow : Option mgos_onewire) : Nat → Nat → Nat → σ → Nat × σ
  | fuel, mask, res, s =>
    if mask = 0 then (res, s)
    else match fuel with
      | 0 => (res, s)
      | fuel + 1 =>
        let r := mgos_onewire_read_bit H ow s
        read_loop H ow fuel ((mask <<< 1) % 256) (if r.1 then res ||| mask else res) r.2

/-- The function `mgos_onewire_read`. -/
def mgos_onewire_read (H : Hal σ) (ow : Option mgos_onewire) (s : σ) : Nat × σ :=
  read_loop H ow 8 0x01 0x00 s

/-- The loop of `mgos_onewire_read_bytes`, `n` iterations left from index `i`. -/
def read_bytes_loop (H : Hal σ) (ow : Option mgos_onewire) :
    Nat → Nat → List Nat → σ → List Nat × σ
  | 0, _, buf, s => (buf, s)
  | n + 1, i, buf, s =>
    let r := mgos_onewire_read H ow s
    read_bytes_loop H ow n (i + 1) (buf.set i r.1) r.2

/-- The function `mgos_onewire_read_bytes`. -/
def mgos_onewire_read_bytes (H : Hal σ) (ow : Option mgos_onewire) (buf : List Nat)
    (len : Int) (s : σ) : List Nat × σ :=
  read_bytes_loop H ow len.toNat 0 buf s

/-- The loop of `mgos_onewire_write`: `for (mask = 0x01; mask; mask <<= 1)` over
a `uint8_t` mask, with a bound on the number of iterations. -/
def write_loop (H : Hal σ) (ow : Option mgos_onewire) (data : Nat) : Nat → Nat → σ → σ
  | fuel, mask, s =>
    if mask = 0 then s
    else match fuel with
      | 0 => s
      | fuel + 1 =>
        write_loop H ow data fuel ((mask <<< 1) % 256)
          (mgos_onewire_write_bit H ow (if mask &&& data ≠ 0 then 1 else 0) s)

/-- The function `mgos_onewire_write`. -/
def mgos_onewire_write (H : Hal σ) (ow : Option mgos_onewire) (data : Nat) (s : σ) : σ :=
  write_loop H ow data 8 0x01 s

/-- The loop of `mgos_onewire_write_bytes`, `n` iterations left from index `i`. -/
def write_bytes_loop (H : Hal σ) (ow : Option mgos_onewire) (buf : List Nat) :
    Nat → Nat → σ → σ
  | 0, _, s => s
  | n + 1, i, s => write_bytes_loop H ow buf n (i + 1) (mgos_onewire_write H ow (buf.getD i 0) s)

/-- The function `mgos_onewire_write_bytes`. -/
def mgos_onewire_write_bytes (H : Hal σ) (ow : Option mgos_onewire) (buf : List Nat)
    (len : Int) (s : σ) : σ :=
  write_bytes_loop H ow buf len.toNat 0 s

/-- The function `mgos_onewire_select`. -/
def mgos_onewire_select (H : Hal σ) (ow : Option mgos_onewire) (rom : List Nat) (s : σ) : σ :=
  match ow with
  | none => s
  | some o => write_bytes_loop H (some o) rom 8 0 (mgos_onewire_write H (some o) 0x55 s)

/-- The function `mgos_onewire_skip`. -/
def mgos_onewire_skip (H : Hal σ) (ow : Option mgos_onewire) (s : σ) : σ :=
  match ow with
  | none => s
  | some o => mgos_onewire_write H (some o) 0xCC s

/-! ## Search state machine -/

/-- The function `mgos_onewire_target_setup`. -/
def mgos_onewire_target_setup (ow : Option mgos_onewire) (family_code : Nat) :
    Option mgos_onewire :=
  match ow with
  | none => none
  | some o =>
    some { o with sst := { sst_zero with rom := sst_zero.rom.set 0 family_code,
                                         last_discrepancy := 64 } }

/-- The function `mgos_onewire_search_clean`. -/
def mgos_onewire_search_clean (ow : Option mgos_onewire) : Option mgos_onewire :=
  match ow with
  | none => none
  | some o => some { o with sst := sst_zero }

/-- Local variables of `onewire_search` that live across loop iterations. -/
structure search_vars where
  id_bit_number : Nat
  last_zero : Nat
  rom_byte_number : Nat
  rom_byte_mask : Nat
deriving DecidableEq, Repr

/-- The direction chosen in the loop body of `onewire_search` (lines 183-190)
from the two bits read: the bit itself when they differ, else the stored bit
below `last_discrepancy`, else whether the position equals it. -/
def search_dir (ow : mgos_onewire) (v : search_vars) (id_bit cmp_id_bit : Bool) : Bool :=
  if id_bit ≠ cmp_id_bit then id_bit
  else if (v.id_bit_number : Int) < ow.sst.last_discrepancy then
    decide (ow.sst.rom.getD v.rom_byte_number 0 &&& v.rom_byte_mask > 0)
  else decide ((v.id_bit_number : Int) = ow.sst.last_discrepancy)

/-- Whether the loop body executes `last_zero = id_bit_number` (line 192): the
two bits were equal and the direction chosen is 0. -/
def search_zero (ow : mgos_onewire) (v : search_vars) (id_bit cmp_id_bit : Bool) : Bool :=
  decide (id_bit = cmp_id_bit) && !search_dir ow v id_bit cmp_id_bit

/-- Update of the cursor by the loop body (lines 191-203): the family
discrepancy, and the address bit set with `|= mask` or cleared with `&= ~mask`. -/
def search_store (ow : mgos_onewire) (v : search_vars) (id_bit cmp_id_bit : Bool) :
    mgos_onewire :=
  let rom_byte := ow.sst.rom.getD v.rom_byte_number 0
  { ow with sst := { ow.sst with
      rom :=
        if search_dir ow v id_bit cmp_id_bit then
          ow.sst.rom.set v.rom_byte_number (rom_byte ||| v.rom_byte_mask)
        else ow.sst.rom.set v.rom_byte_number (rom_byte &&& (255 ^^^ v.rom_byte_mask)),
      last_family_discrepancy :=
        if search_zero ow v id_bit cmp_id_bit = true ∧ v.id_bit_number < 9 then
          (v.id_bit_number : Int)
        else ow.sst.last_family_discrepancy } }

/-- Update of the local variables by the loop body (lines 192, 207-213), all of
them `uint8_t`. -/
def search_advance (ow : mgos_onewire) (v : search_vars) (id_bit cmp_id_bit : Bool) :
    search_vars :=
  { id_bit_number := (v.id_bit_number + 1) % 256,
    last_zero := if search_zero ow v id_bit cmp_id_bit then v.id_bit_number else v.last_zero,
    rom_byte_number :=
      if (v.rom_byte_mask <<< 1) % 256 = 0 then (v.rom_byte_number + 1) % 256
      else v.rom_byte_number,
    rom_byte_mask :=
      if (v.rom_byte_mask <<< 1) % 256 = 0 then 1 else (v.rom_byte_mask <<< 1) % 256 }

/-- Outcome of one pass through the body of the do-while loop of
`onewire_search`: `none` when the body hit `break`. -/
def search_body (H : Hal σ) (ow : mgos_onewire) (v : search_vars) (s : σ) :
    Option (mgos_onewire × search_vars) × σ :=
  let r1 := mgos_onewire_read_bit H (some ow) s
  let r2 := mgos_onewire_read_bit H (some ow) r1.2
  if r1.1 = true ∧ r2.1 = true then (none, r2.2)
  else
    (some (search_store ow v r1.1 r2.1, search_advance ow v r1.1 r2.1),
      mgos_onewire_write_bit H (some ow) (if search_dir ow v r1.1 r2.1 then 1 else 0) r2.2)

/-- The do-while loop of `onewire_search`, with a bound on the iterations. -/
def search_loop (H : Hal σ) : Nat → mgos_onewire → search_vars → σ →
    mgos_onewire × search_vars × σ
  | 0, ow, v, s => (ow, v, s)
  | fuel + 1, ow, v, s =>
    match search_body H ow v s with
    | (none, s1) => (ow, v, s1)
    | (some (ow1, v1), s1) =>
      if v1.rom_byte_number < 8 then search_loop H fuel ow1 v1 s1 else (ow1, v1, s1)

/-- The validation gate of `onewire_search`:
`ow->sst.rom[0] && (ow->sst.rom[7] == mgos_onewire_crc8(ow->sst.rom, 7))`. -/
def rom_check (rom : List Nat) : Bool :=
  decide (rom.getD 0 0 ≠ 0) && decide (rom.getD 7 0 = mgos_onewire_crc8 rom 7)

/-- The copy loop `for (int i = 0; i < 8; i++) ow->res_rom[i] = ow->sst.rom[i];`. -/
def copy_rom (src dst : List Nat) : List Nat :=
  (List.range 8).foldl (fun d i => d.set i (src.getD i 0)) dst

/-- Clearing of the cursor on failure: `last_device`, `last_discrepancy` and
`last_family_discrepancy` are set to 0. -/
def clear_flags (ow : mgos_onewire) : mgos_onewire :=
  { ow with sst := { ow.sst with last_device := 0, last_discrepancy := 0,
                                 last_family_discrepancy := 0 } }

/-- The tail of `onewire_search` from line 226 on: validate and publish, or clear. -/
def search_finish (ow : mgos_onewire) (res : Bool) (res_rom : List Nat) :
    Bool × mgos_onewire × List Nat :=
  if res && rom_check ow.sst.rom then (true, ow, copy_rom ow.sst.rom res_rom)
  else (false, clear_flags ow, res_rom)

/-- The search command byte written after the reset (lines 168-174): 0xF0 for
a normal search, 0xEC for a conditional search. -/
def search_command (ow : mgos_onewire) : Nat :=
  if ow.sst.search_mode = 0 then 0xF0 else 0xEC

/-- Initial values of the local variables of `onewire_search` (line 157). -/
def search_init : search_vars :=
  { id_bit_number := 1, last_zero := 0, rom_byte_number := 0, rom_byte_mask := 1 }

/-- Lines 168-215 of `onewire_search`: the command byte and the do-while loop. -/
def search_walk (H : Hal σ) (ow : mgos_onewire) (s : σ) : mgos_onewire × search_vars × σ :=
  search_loop H 64 ow search_init (mgos_onewire_write H (some ow) (search_command ow) s)

/-- Lines 218-221 of `onewire_search`, run when all 64 bits were walked:
`last_discrepancy = last_zero`, and `last_device = 1` when that is 0. -/
def search_commit (ow : mgos_onewire) (v : search_vars) : mgos_onewire :=
  { ow with sst := { ow.sst with
      last_discrepancy := (v.last_zero : Int),
      last_device := if v.last_zero = 0 then 1 else ow.sst.last_device } }

/-- The static function `onewire_search`; `res_rom` is the caller buffer the
handle's `res_rom` pointer refers to. -/
def onewire_search (H : Hal σ) (ow : mgos_onewire) (res_rom : List Nat) (s : σ) :
    Bool × mgos_onewire × List Nat × σ :=
  if ow.sst.last_device = 0 then
    let r := mgos_onewire_reset H (some ow) s
    if r.1 = false then (false, clear_flags ow, res_rom, r.2)
    else
      let l := search_walk H ow r.2
      let f :=
        if l.2.1.id_bit_number < 65 then search_finish l.1 false res_rom
        else search_finish (search_commit l.1 l.2.1) true res_rom
      (f.1, f.2.1, f.2.2, l.2.2)
  else
    let f := search_finish ow false res_rom
    (f.1, f.2.1, f.2.2, s)

/-- The function `mgos_onewire_next`. -/
def mgos_onewire_next (H : Hal σ) (ow : Option mgos_onewire) (rom : List Nat) (mode : Int)
    (s : σ) : Bool × Option mgos_onewire × List Nat × σ :=
  match ow with
  | none => (false, none, rom, s)
  | some o =>
    let r := onewire_search H { o with sst := { o.sst with search_mode := mode } } rom s
    (r.1, some r.2.1, r.2.2.1, r.2.2.2)

/-! ## A recording platform -/

/-- One platform primitive call, with the level read or written. -/
inductive Op where
  | gpio_read (pin : Int) (level : Bool)
  | gpio_write (pin : Int) (level : Bool)
  | gpio_setup_input (pin : Int)
  | gpio_set_mode (pin : Int)
  | usleep (us : Nat)
  | ints_disable
  | ints_enable
deriving DecidableEq, Repr

/-- State of the recording platform: the calls made so far, most recent first,
and the level the input pin shows as a function of that history. -/
structure Line where
  trace : List Op
  level : List Op → Bool

/-- The recording platform: every primitive appends itself to the trace; a
read returns the level the line shows after the history so far. -/
def traceHal : Hal Line where
  mgos_gpio_read := fun pin l => (l.level l.trace, { l with trace := Op.gpio_read pin (l.level l.trace) :: l.trace })
  mgos_gpio_write := fun pin v l => { l with trace := Op.gpio_write pin v :: l.trace }
  mgos_gpio_setup_input := fun pin l => { l with trace := Op.gpio_setup_input pin :: l.trace }
  mgos_gpio_set_mode := fun pin l => { l with trace := Op.gpio_set_mode pin :: l.trace }
  mgos_usleep := fun us l => { l with trace := Op.usleep us :: l.trace }
  mgos_ints_disable := fun l => { l with trace := Op.ints_disable :: l.trace }
  mgos_ints_enable := fun l => { l with trace := Op.ints_enable :: l.trace }

/-! ## Concrete handles and lines used to instantiate the theorems -/

/-- A handle on pin 4 for input and pin 5 for output, with a zeroed cursor. -/
def demo_handle : mgos_onewire :=
  { pin_in := 4, pin_out := 5, sst := sst_zero }

/-- A handle whose cursor has the exhausted flag set. -/
def demo_exhausted : mgos_onewire :=
  { pin_in := 4, pin_out := 5, sst := { sst_zero with last_device := 1 } }

/-- A recorded line that always reads high: idle, and no device ever answers. -/
def idle_line : Line :=
  { trace := [], level := fun _ => true }

/-- A recorded line that always reads low: stuck, so the idle wait times out. -/
def stuck_line : Line :=
  { trace := [], level := fun _ => false }

/-- The ROM code with bit `k` flipped, bits counted from bit 0 of byte 0. -/
def flip_bit (rom : List Nat) (k : Nat) : List Nat :=
  rom.set (k / 8) (rom.getD (k / 8) 0 ^^^ 2 ^ (k % 8))

/-! ## Addresses as bit sequences, and the simulated wired-AND bus -/

/-- Address bit `k` (0..63) of a ROM code in the order the search probes the
bits: bit `k % 8` of byte `k / 8`. -/
def rom_bit (rom : List Nat) (k : Nat) : Bool :=
  (rom.getD (k / 8) 0).testBit (k % 8)

/-- Two ROM codes carry the same address bits at all positions below `k`. -/
def agree_below (a b : List Nat) (k : Nat) : Prop :=
  ∀ j, j < k → rom_bit a j = rom_bit b j

/-- Some device follows the path `r` on the positions below `j` and leaves it at
position `j`: a discrepancy of the bus on the path `r` at position `j`. -/
def Fork (devs : List (List Nat)) (r : List Nat) (j : Nat) : Prop :=
  ∃ d, d ∈ devs ∧ agree_below d r j ∧ rom_bit d j ≠ rom_bit r j

/-- Order of the addresses as 64-bit sequences in probe order: at the first
position where they differ, `a` has 0 and `b` has 1. -/
def probe_lt (a b : List Nat) : Prop :=
  ∃ k, k < 64 ∧ agree_below a b k ∧ rom_bit a k = false ∧ rom_bit b k = true

/-- A well-formed ROM code: eight bytes. -/
def rom_wf (rom : List Nat) : Prop :=
  rom.length = 8 ∧ ∀ b ∈ rom, b < 256

/-- A ROM code a device may carry: eight bytes, a non-zero family byte and
byte 7 the CRC8 of bytes 0..6. -/
def rom_valid (rom : List Nat) : Prop :=
  rom_wf rom ∧ rom.getD 0 0 ≠ 0 ∧ rom.getD 7 0 = mgos_onewire_crc8 rom 7

/-- State of the devices on a simulated bus: the devices still taking part in
the arbitration, the number of command bits they still expect after a reset,
the address position under arbitration and the number of reads made at it. -/
structure SimBus where
  alive : List (List Nat)
  cmd : Nat
  pos : Nat
  phase : Nat
deriving DecidableEq, Repr

/-- After a reset all devices take part and expect the eight command bits. -/
def SimBus.reset (devs : List (List Nat)) : SimBus :=
  { alive := devs, cmd := 8, pos := 0, phase := 0 }

/-- A read slot: the first read at a position shows the AND of the address bits
of the surviving devices, the second the AND of their complements. -/
def SimBus.read (b : SimBus) : Bool × SimBus :=
  if b.phase = 0 then (b.alive.all (fun d => rom_bit d b.pos), { b with phase := 1 })
  else (b.alive.all (fun d => !rom_bit d b.pos), { b with phase := 2 })

/-- A write slot: a command bit is consumed, or the devices whose address bit
differs from the direction written drop out and the position advances. -/
def SimBus.write (dir : Bool) (b : SimBus) : SimBus :=
  if b.cmd ≠ 0 then { b with cmd := b.cmd - 1 }
  else { alive := b.alive.filter (fun d => rom_bit d b.pos == dir), cmd := 0,
         pos := b.pos + 1, phase := 0 }

/-- The platform behaves, through the transport functions of the handle `ow`,
as a wired-AND bus carrying the devices `devs`: `view` reads the state of the
devices off the platform state. -/
structure WiredAnd (H : Hal σ) (ow : mgos_onewire) (devs : List (List Nat))
    (view : σ → SimBus) : Prop where
  reset_presence : ∀ s, (mgos_onewire_reset H (some ow) s).1 = true ∧
    view (mgos_onewire_reset H (some ow) s).2 = SimBus.reset devs
  read_and : ∀ s, (mgos_onewire_read_bit H (some ow) s).1 = (SimBus.read (view s)).1 ∧
    view (mgos_onewire_read_bit H (some ow) s).2 = (SimBus.read (view s)).2
  write_drop : ∀ s bit, view (mgos_onewire_write_bit H (some ow) bit s) =
    SimBus.write (decide (bit ≠ 0)) (view s)

/-- The value `last_discrepancy` must have for the search to resume after the
device `r`: no fork of `r` towards a 1 at or above it, and a fork of `r`
towards a 1 exactly at it unless it is 0. -/
def Resume (devs : List (List Nat)) (r : List Nat) (lz : Nat) : Prop :=
  (∀ j, j < 64 → Fork devs r j → rom_bit r j = false → j + 1 ≤ lz) ∧
    (lz = 0 ∨ (1 ≤ lz ∧ lz ≤ 64 ∧ Fork devs r (lz - 1) ∧ rom_bit r (lz - 1) = false))

/-- What a walk over the positions `k..63` establishes: the address `r` reached
is a device, keeps the bits of the stored address `p` below `k`, takes at every
fork the branch the tie-break rule prescribes, and `lz` is the last position
where it took the 0 branch of a fork (or the value `lz0` it started from). -/
structure WalkPost (devs : List (List Nat)) (p : List Nat) (ld : Int) (k lz0 : Nat)
    (r : List Nat) (lz : Nat) : Prop where
  mem : r ∈ devs
  below : agree_below r p k
  rule : ∀ j, k ≤ j → j < 64 → Fork devs r j →
    rom_bit r j = (if ((j + 1 : Nat) : Int) < ld then rom_bit p j
      else decide (((j + 1 : Nat) : Int) = ld))
  zero_le : ∀ j, k ≤ j → j < 64 → Fork devs r j → rom_bit r j = false → j + 1 ≤ lz
  last : lz = lz0 ∨
    (k + 1 ≤ lz ∧ lz ≤ 64 ∧ Fork devs r (lz - 1) ∧ rom_bit r (lz - 1) = false)
  mono : lz0 ≤ lz

/-- The local variables of the loop at the start of the iteration for address
position `k` (0-based). -/
def at_pos (v : search_vars) (k : Nat) : Prop :=
  v.id_bit_number = k + 1 ∧ v.rom_byte_number = k / 8 ∧ v.rom_byte_mask = 2 ^ (k % 8)

/-- Successive calls of `mgos_onewire_next` on one handle with one caller
buffer (`n` of them): the return value and buffer contents after each call, and
the handle and platform state at the end. -/
def next_calls (H : Hal σ) (mode : Int) :
    Nat → Option mgos_onewire → List Nat → σ →
      List (Bool × List Nat) × Option mgos_onewire × σ
  | 0, ow, _, s => ([], ow, s)
  | n + 1, ow, rom, s =>
    let r := mgos_onewire_next H ow rom mode s
    let t := next_calls H mode n r.2.1 r.2.2.1 r.2.2.2
    ((r.1, r.2.2.1) :: t.1, t.2)

/-! ## A simulated line: devices answering pulses on the pins -/

/-- State of a simulated line: the arbitration state of the devices, for how
long the master has been holding the line low (if it is), and whether the
devices answer the next sample with an address bit or a presence pulse. -/
structure SimLine where
  bus : SimBus
  low : Option Nat
  sample : Bool
  presence : Bool
deriving DecidableEq, Repr

/-- The master releases the line: the devices `devs` classify the low pulse by
its length as a reset pulse, a written 0, a written 1, or the start of a read
slot. -/
def SimLine.release (devs : List (List Nat)) (l : SimLine) : SimLine :=
  match l.low with
  | none => { l with sample := false, presence := false }
  | some t =>
    if 480 ≤ t then
      { bus := SimBus.reset devs, low := none, sample := false, presence := true }
    else if 60 ≤ t then
      { bus := l.bus.write false, low := none, sample := false, presence := false }
    else if 5 ≤ t then
      { bus := l.bus.write true, low := none, sample := false, presence := false }
    else { bus := l.bus, low := none, sample := true, presence := false }

/-- The platform of a simulated line carrying the devices `devs`. -/
def simHal (devs : List (List Nat)) : Hal SimLine where
  mgos_gpio_read := fun _ l =>
    match l.low with
    | some _ => (false, l)
    | none =>
      if l.presence then (false, { l with presence := false })
      else if l.sample then (l.bus.read.1, { l with bus := l.bus.read.2, sample := false })
      else (true, l)
  mgos_gpio_write := fun _ v l => if v then l.release devs else { l with low := some 0 }
  mgos_gpio_setup_input := fun _ l => l.release devs
  mgos_gpio_set_mode := fun _ l => l
  mgos_usleep := fun us l => { l with low := l.low.map (· + us) }
  mgos_ints_disable := fun l => l
  mgos_ints_enable := fun l => l

/-- A simulated line carrying the devices `devs`, idle. -/
def sim_line (devs : List (List Nat)) : SimLine :=
  { bus := SimBus.reset devs, low := none, sample := false, presence := false }

/-- Three device ROM codes with correct CRC bytes. -/
def rom_a : List Nat := [0x28, 1, 0, 0, 0, 0, 0, 41]

/-- Second device ROM code. -/
def rom_b : List Nat := [0x10, 2, 0, 0, 0, 0, 0, 149]

/-- Third device ROM code. -/
def rom_c : List Nat := [0x28, 3, 0, 0, 0, 0, 0, 71]

/-- State of a search call of the handle `ow` after the reset, the command
byte and the first `n` iterations of the loop (fewer if one of them hit
`break`): cursor, local variables and platform state. -/
def search_upto (H : Hal σ) (ow : mgos_onewire) (s : σ) (n : Nat) :
    mgos_onewire × search_vars × σ :=
  search_loop H n ow search_init
    (mgos_onewire_write H (some ow) (search_command ow) (mgos_onewire_reset H (some ow) s).2)

/-- Number of pin reads recorded in a trace. -/
def reads_in (tr : List Op) : Nat :=
  (tr.filter (fun op => match op with
    | Op.gpio_read _ _ => true
    | _ => false)).length

/-- A recorded line that is idle, answers the reset with a presence pulse,
shows the bit pairs (0, 1) and (1, 0) at the first two address positions and
then reads high for good: both bits are 1 at the third position. -/
def glitch_line : Line :=
  { trace := [], level := fun tr => decide (reads_in tr ∉ [1, 2, 5]) }

/-! ## Bit sequences on the bus -/

/-- The call sequence `mgos_onewire_write_bit(ow, b)` for each `b` of `bits`,
in order. -/
def write_bits (H : Hal σ) (ow : Option mgos_onewire) (bits : List Int) (s : σ) : σ :=
  bits.foldl (fun t b => mgos_onewire_write_bit H ow b t) s

/-- The bits of a byte, bit 0 first, as `mgos_onewire_write_bit` arguments. -/
def byte_bits (b : Nat) : List Int :=
  (List.range 8).map (fun i => if b.testBit i then 1 else 0)

/-- Successive calls of `mgos_onewire_read_bit` (`n` of them): the samples in
the order they were taken, and the platform state at the end. -/
def read_bits (H : Hal σ) (ow : Option mgos_onewire) : Nat → σ → List Bool × σ
  | 0, s => ([], s)
  | n + 1, s =>
    let r := mgos_onewire_read_bit H ow s
    let t := read_bits H ow n r.2
    (r.1 :: t.1, t.2)

/-- The sum of `sample_j * 2^(i + j)` over the samples `sample_0, sample_1, ...`
of a list. -/
def bits_sum : Nat → List Bool → Nat
  | _, [] => 0
  | i, b :: bits => (if b then 2 ^ i else 0) + bits_sum (i + 1) bits

/-- The number whose bit `i` is the `i`-th sample: the sum of
`sample_i * 2^i`. -/
def bits_value (bits : List Bool) : Nat :=
  bits_sum 0 bits

/-- A recorded line on which the `i`-th sample ever taken shows bit `i` of the
byte 0xA5. -/
def echo_line : Line :=
  { trace := [], level := fun tr => Nat.testBit 0xA5 (reads_in tr) }

/-- The bits `mgos_onewire_select` puts on the bus: the command 0x55, then the
ROM bytes 0..7, each bit 0 first. -/
def select_bits (rom : List Nat) : List Int :=
  byte_bits 0x55 ++ byte_bits (rom.getD 0 0) ++ byte_bits (rom.getD 1 0) ++
    byte_bits (rom.getD 2 0) ++ byte_bits (rom.getD 3 0) ++ byte_bits (rom.getD 4 0) ++
    byte_bits (rom.getD 5 0) ++ byte_bits (rom.getD 6 0) ++ byte_bits (rom.getD 7 0)

/-! ## Reading recorded traces -/

/-- Total of the microsecond delays recorded in a trace. -/
def slept : List Op → Nat
  | [] => 0
  | Op.usleep us :: tr => us + slept tr
  | _ :: tr => slept tr

/-- The trace after the samples `vs` (in the order taken) of the idle wait on
pin `pin`: each sample is a 2 microsecond delay followed by one read. -/
def poll_trace (pin : Int) : List Bool → List Op → List Op
  | [], tr => tr
  | v :: vs, tr => poll_trace pin vs (Op.gpio_read pin v :: Op.usleep 2 :: tr)

/-- A sequence of calls in the order made keeps interrupt masking scoped:
starting from the masking state `masked`, disable and enable alternate, every
write of the LOW level and every pin read happens while masked, and the
sequence ends unmasked. -/
def ints_scoped : Bool → List Op → Bool
  | masked, [] => !masked
  | masked, Op.ints_disable :: ops => !masked && ints_scoped true ops
  | masked, Op.ints_enable :: ops => masked && ints_scoped false ops
  | masked, Op.gpio_write _ false :: ops => masked && ints_scoped masked ops
  | masked, Op.gpio_read _ _ :: ops => masked && ints_scoped masked ops
  | masked, _ :: ops => ints_scoped masked ops

/-- A sequence of calls that neither masks or unmasks interrupts nor writes the
LOW level: what the idle wait of the reset may do outside a masked section. -/
def idle_poll : List Op → Bool
  | [] => true
  | Op.ints_disable :: _ => false
  | Op.ints_enable :: _ => false
  | Op.gpio_write _ false :: _ => false
  | _ :: ops => idle_poll ops

/-- A recorded line that reads low until the 125th sample ever taken, which
reads high. -/
def late_line : Line :=
  { trace := [], level := fun tr => decide (reads_in tr = 124) }

/-! ## The record of a walk, and the cursor invariant -/

/-- The record of the do-while loop of `onewire_search`, following
`search_loop` step by step: for every iteration that did not hit `break`, the
two bits read and the direction written, in order. -/
def search_trail (H : Hal σ) : Nat → mgos_onewire → search_vars → σ →
    List (Bool × Bool × Bool)
  | 0, _, _, _ => []
  | fuel + 1, ow, v, s =>
    match search_body H ow v s with
    | (none, _) => []
    | (some (ow1, v1), s1) =>
      ((mgos_onewire_read_bit H (some ow) s).1,
        (mgos_onewire_read_bit H (some ow) (mgos_onewire_read_bit H (some ow) s).2).1,
        search_dir ow v (mgos_onewire_read_bit H (some ow) s).1
          (mgos_onewire_read_bit H (some ow) (mgos_onewire_read_bit H (some ow) s).2).1) ::
      (if v1.rom_byte_number < 8 then search_trail H fuel ow1 v1 s1 else [])

/-- The record of the walk of a search call of the handle `ow`: the entry at
index `p - 1` belongs to address position `p`. -/
def walk_trail (H : Hal σ) (ow : mgos_onewire) (s : σ) : List (Bool × Bool × Bool) :=
  search_trail H 64 ow search_init
    (mgos_onewire_write H (some ow) (search_command ow) (mgos_onewire_reset H (some ow) s).2)

/-- The cursor invariant: `last_discrepancy` in 0..64, `last_family_discrepancy`
in 0..8, `last_device` 0 or 1, and `last_device` set only with
`last_discrepancy` 0. -/
def cursor_inv (sst : mgos_onewire_search_state) : Prop :=
  0 ≤ sst.last_discrepancy ∧ sst.last_discrepancy ≤ 64 ∧
    0 ≤ sst.last_family_discrepancy ∧ sst.last_family_discrepancy ≤ 8 ∧
    (sst.last_device = 0 ∨ sst.last_device = 1) ∧
    (sst.last_device ≠ 0 → sst.last_discrepancy = 0)

/-! ## CRC8: table against the bit-serial definition -/

set_option maxRecDepth 100000 in
theorem crc_table_length : crc_table.length = 256 := by decide

set_option maxRecDepth 100000 in
theorem crc_table_bitwise : ∀ i, i < 256 → crc_table.getD i 0 = spec_crc8_shift^[8] i := by
  decide

set_option maxRecDepth 100000 in
theorem crc_table_lt : ∀ i, i < 256 → crc_table.getD i 0 < 256 := by
  decide

theorem crc8_loop_bitwise (bytes : List Nat) :
    ∀ res, res < 256 → (∀ b ∈ bytes, b < 256) →
      crc8_loop bytes bytes.length res =
        bytes.foldl (fun reg b => spec_crc8_shift^[8] (reg ^^^ b)) res := by
  induction bytes with
  | nil => intro res _ _; rfl
  | cons b bs ih =>
    intro res hres hb
    have hb0 : b < 256 := hb b (List.mem_cons_self _ _)
    have hx : res ^^^ b < 256 := Nat.xor_lt_two_pow (n := 8) hres hb0
    simp only [List.length_cons, crc8_loop, List.foldl_cons]
    rw [ih _ (crc_table_lt _ hx) (fun c hc => hb c (List.mem_cons_of_mem _ hc)),
      crc_table_bitwise _ hx]

/-- C1: for every byte sequence, `mgos_onewire_crc8` over the whole sequence
(table-driven, initial value 0) equals the bit-by-bit CRC8 of the specification
(XOR the byte in, then eight right shifts with 0x8C fed back on a shifted-out
1), and any `len <= 0` yields 0. -/
theorem crc8_table_eq_bitwise (bytes : List Nat) (hb : ∀ b ∈ bytes, b < 256) :
    mgos_onewire_crc8 bytes (bytes.length : Int) = spec_crc8_bitwise bytes ∧
      (∀ len : Int, len ≤ 0 → mgos_onewire_crc8 bytes len = 0) ∧
      mgos_onewire_crc8 [] 0 = 0 := by
  refine ⟨?_, ?_, rfl⟩
  · simpa [mgos_onewire_crc8, spec_crc8_bitwise] using
      crc8_loop_bitwise bytes 0 (by decide) hb
  · intro len hlen
    have : len.toNat = 0 := Int.toNat_eq_zero.mpr hlen
    simp [mgos_onewire_crc8, this, crc8_loop]

/-- Witness for C1 on the seven leading bytes of a DS18B20 ROM code. -/
theorem crc8_table_eq_bitwise_witness :
    (∀ b ∈ [0x28, 0xFF, 0x4B, 0x96, 0x74, 0x16, 0x04], b < 256) ∧
      mgos_onewire_crc8 [0x28, 0xFF, 0x4B, 0x96, 0x74, 0x16, 0x04] 7 =
        spec_crc8_bitwise [0x28, 0xFF, 0x4B, 0x96, 0x74, 0x16, 0x04] :=
  ⟨by decide, (crc8_table_eq_bitwise [0x28, 0xFF, 0x4B, 0x96, 0x74, 0x16, 0x04]
    (by decide)).1⟩

/-! ## Structure of a search call -/

theorem length_eq_eight {l : List Nat} (h : l.length = 8) :
    ∃ a0 a1 a2 a3 a4 a5 a6 a7, l = [a0, a1, a2, a3, a4, a5, a6, a7] := by
  match l, h with
  | [a0, a1, a2, a3, a4, a5, a6, a7], _ => exact ⟨a0, a1, a2, a3, a4, a5, a6, a7, rfl⟩

theorem copy_rom_eq {src dst : List Nat} (hs : src.length = 8) (hd : dst.length = 8) :
    copy_rom src dst = src := by
  obtain ⟨a0, a1, a2, a3, a4, a5, a6, a7, rfl⟩ := length_eq_eight hs
  obtain ⟨b0, b1, b2, b3, b4, b5, b6, b7, rfl⟩ := length_eq_eight hd
  rfl

theorem search_finish_cases (ow : mgos_onewire) (res : Bool) (buf : List Nat) :
    (search_finish ow res buf = (true, ow, copy_rom ow.sst.rom buf) ∧ res = true ∧
        rom_check ow.sst.rom = true) ∨
      (search_finish ow res buf = (false, clear_flags ow, buf) ∧
        (res = false ∨ rom_check ow.sst.rom = false)) := by
  unfold search_finish
  cases res <;> cases h : rom_check ow.sst.rom <;> simp

theorem search_store_fields (ow : mgos_onewire) (v : search_vars) (a b : Bool) :
    (search_store ow v a b).sst.rom.length = ow.sst.rom.length ∧
      (search_store ow v a b).pin_in = ow.pin_in ∧
      (search_store ow v a b).pin_out = ow.pin_out ∧
      (search_store ow v a b).sst.last_discrepancy = ow.sst.last_discrepancy ∧
      (search_store ow v a b).sst.last_device = ow.sst.last_device ∧
      (search_store ow v a b).sst.search_mode = ow.sst.search_mode := by
  refine ⟨?_, rfl, rfl, rfl, rfl, rfl⟩
  unfold search_store
  simp only
  split <;> simp

theorem search_body_cases (H : Hal σ) (ow : mgos_onewire) (v : search_vars) (s : σ) :
    let r1 := mgos_onewire_read_bit H (some ow) s
    let r2 := mgos_onewire_read_bit H (some ow) r1.2
    (r1.1 = true ∧ r2.1 = true ∧ search_body H ow v s = (none, r2.2)) ∨
      (¬ (r1.1 = true ∧ r2.1 = true) ∧
        search_body H ow v s =
          (some (search_store ow v r1.1 r2.1, search_advance ow v r1.1 r2.1),
            mgos_onewire_write_bit H (some ow)
              (if search_dir ow v r1.1 r2.1 then 1 else 0) r2.2)) := by
  intro r1 r2
  by_cases h : r1.1 = true ∧ r2.1 = true
  · left; exact ⟨h.1, h.2, by simp only [search_body]; rw [if_pos h]⟩
  · right; exact ⟨h, by simp only [search_body]; rw [if_neg h]⟩

theorem search_body_length (H : Hal σ) (ow : mgos_onewire) (v : search_vars) (s : σ)
    (ow1 : mgos_onewire) (v1 : search_vars) (s1 : σ)
    (h : search_body H ow v s = (some (ow1, v1), s1)) :
    ow1.sst.rom.length = ow.sst.rom.length ∧ ow1.pin_in = ow.pin_in ∧
      ow1.pin_out = ow.pin_out ∧ ow1.sst.last_discrepancy = ow.sst.last_discrepancy ∧
      ow1.sst.last_device = ow.sst.last_device ∧ ow1.sst.search_mode = ow.sst.search_mode := by
  rcases search_body_cases H ow v s with ⟨-, -, hb⟩ | ⟨-, hb⟩
  · rw [hb] at h; simp at h
  · rw [hb] at h
    simp only [Prod.mk.injEq, Option.some.injEq] at h
    obtain ⟨⟨rfl, -⟩, -⟩ := h
    exact search_store_fields ow v _ _

theorem search_loop_length (H : Hal σ) (fuel : Nat) :
    ∀ (ow : mgos_onewire) (v : search_vars) (s : σ),
      (search_loop H fuel ow v s).1.sst.rom.length = ow.sst.rom.length ∧
      (search_loop H fuel ow v s).1.sst.last_device = ow.sst.last_device := by
  induction fuel with
  | zero => intro ow v s; exact ⟨rfl, rfl⟩
  | succ n ih =>
    intro ow v s
    unfold search_loop
    rcases hb : search_body H ow v s with ⟨_ | ⟨ow1, v1⟩, s1⟩
    · exact ⟨rfl, rfl⟩
    · have hl := search_body_length H ow v s ow1 v1 s1 hb
      simp only
      split
      · rw [(ih ow1 v1 s1).1, (ih ow1 v1 s1).2]; exact ⟨hl.1, hl.2.2.2.2.1⟩
      · exact ⟨hl.1, hl.2.2.2.2.1⟩

theorem clear_flags_sst (ow : mgos_onewire) :
    (clear_flags ow).sst.last_device = 0 ∧ (clear_flags ow).sst.last_discrepancy = 0 ∧
      (clear_flags ow).sst.last_family_discrepancy = 0 ∧
      (clear_flags ow).sst.rom = ow.sst.rom := ⟨rfl, rfl, rfl, rfl⟩

theorem search_finish_false (ow : mgos_onewire) (buf : List Nat) :
    search_finish ow false buf = (false, clear_flags ow, buf) := by
  simp [search_finish]

theorem onewire_search_exhausted (H : Hal σ) (ow : mgos_onewire) (buf : List Nat) (s : σ)
    (h : ow.sst.last_device ≠ 0) :
    onewire_search H ow buf s = (false, clear_flags ow, buf, s) := by
  simp [onewire_search, h, search_finish_false]

theorem onewire_search_no_presence (H : Hal σ) (ow : mgos_onewire) (buf : List Nat) (s : σ)
    (h : ow.sst.last_device = 0) (hr : (mgos_onewire_reset H (some ow) s).1 = false) :
    onewire_search H ow buf s =
      (false, clear_flags ow, buf, (mgos_onewire_reset H (some ow) s).2) := by
  simp [onewire_search, h, hr]

theorem onewire_search_walked (H : Hal σ) (ow : mgos_onewire) (buf : List Nat) (s : σ)
    (h : ow.sst.last_device = 0) (hr : (mgos_onewire_reset H (some ow) s).1 = true) :
    onewire_search H ow buf s =
      ((if (search_walk H ow (mgos_onewire_reset H (some ow) s).2).2.1.id_bit_number < 65 then
          search_finish (search_walk H ow (mgos_onewire_reset H (some ow) s).2).1 false buf
        else search_finish
          (search_commit (search_walk H ow (mgos_onewire_reset H (some ow) s).2).1
            (search_walk H ow (mgos_onewire_reset H (some ow) s).2).2.1) true buf).1,
       (if (search_walk H ow (mgos_onewire_reset H (some ow) s).2).2.1.id_bit_number < 65 then
          search_finish (search_walk H ow (mgos_onewire_reset H (some ow) s).2).1 false buf
        else search_finish
          (search_commit (search_walk H ow (mgos_onewire_reset H (some ow) s).2).1
            (search_walk H ow (mgos_onewire_reset H (some ow) s).2).2.1) true buf).2.1,
       (if (search_walk H ow (mgos_onewire_reset H (some ow) s).2).2.1.id_bit_number < 65 then
          search_finish (search_walk H ow (mgos_onewire_reset H (some ow) s).2).1 false buf
        else search_finish
          (search_commit (search_walk H ow (mgos_onewire_reset H (some ow) s).2).1
            (search_walk H ow (mgos_onewire_reset H (some ow) s).2).2.1) true buf).2.2,
       (search_walk H ow (mgos_onewire_reset H (some ow) s).2).2.2) := by
  simp [onewire_search, h, hr]

theorem onewire_search_cases (H : Hal σ) (ow : mgos_onewire) (buf : List Nat) (s : σ) :
    ((onewire_search H ow buf s).1 = true ∧
        rom_check (onewire_search H ow buf s).2.1.sst.rom = true ∧
        (onewire_search H ow buf s).2.2.1 =
          copy_rom (onewire_search H ow buf s).2.1.sst.rom buf ∧
        (onewire_search H ow buf s).2.1.sst.rom.length = ow.sst.rom.length) ∨
      ((onewire_search H ow buf s).1 = false ∧ (onewire_search H ow buf s).2.2.1 = buf ∧
        (onewire_search H ow buf s).2.1.sst.last_device = 0 ∧
        (onewire_search H ow buf s).2.1.sst.last_discrepancy = 0 ∧
        (onewire_search H ow buf s).2.1.sst.last_family_discrepancy = 0) := by
  by_cases h : ow.sst.last_device = 0
  · cases hr : (mgos_onewire_reset H (some ow) s).1
    · rw [onewire_search_no_presence H ow buf s h hr]
      right; exact ⟨rfl, rfl, rfl, rfl, rfl⟩
    · rw [onewire_search_walked H ow buf s h hr]
      split
      · rw [search_finish_false]
        right; exact ⟨rfl, rfl, rfl, rfl, rfl⟩
      · rcases search_finish_cases (search_commit
          (search_walk H ow (mgos_onewire_reset H (some ow) s).2).1
          (search_walk H ow (mgos_onewire_reset H (some ow) s).2).2.1) true buf
          with ⟨hf, -, hc⟩ | ⟨hf, -⟩
        · left; rw [hf]
          exact ⟨rfl, hc, rfl, (search_loop_length H 64 ow _ _).1⟩
        · right; rw [hf]; exact ⟨rfl, rfl, rfl, rfl, rfl⟩
  · rw [onewire_search_exhausted H ow buf s h]
    right; exact ⟨rfl, rfl, rfl, rfl, rfl⟩

/-- C3: for every platform, cursor, mode and caller buffer (both 8 bytes long),
when `mgos_onewire_next` returns true the caller buffer equals the cursor's
address, whose byte 0 is non-zero and whose byte 7 is the CRC8 of bytes 0..6;
when it returns false the caller buffer is unchanged. -/
theorem next_publishes_only_valid (H : Hal σ) (ow : mgos_onewire) (rom : List Nat)
    (mode : Int) (s : σ) (hrom : rom.length = 8) (haddr : ow.sst.rom.length = 8) :
    ((mgos_onewire_next H (some ow) rom mode s).1 = true →
      ∃ ow1, (mgos_onewire_next H (some ow) rom mode s).2.1 = some ow1 ∧
        (mgos_onewire_next H (some ow) rom mode s).2.2.1 = ow1.sst.rom ∧
        ow1.sst.rom.getD 0 0 ≠ 0 ∧
        ow1.sst.rom.getD 7 0 = mgos_onewire_crc8 ow1.sst.rom 7) ∧
    ((mgos_onewire_next H (some ow) rom mode s).1 = false →
      (mgos_onewire_next H (some ow) rom mode s).2.2.1 = rom) := by
  simp only [mgos_onewire_next]
  rcases onewire_search_cases H { ow with sst := { ow.sst with search_mode := mode } } rom s
    with ⟨h1, hc, hb, hl⟩ | ⟨h1, hb, -⟩
  · refine ⟨fun _ => ⟨_, rfl, ?_, ?_⟩, fun h => ?_⟩
    · rw [hb]; exact copy_rom_eq (hl.trans haddr) hrom
    · simpa [rom_check] using hc
    · rw [h1] at h; cases h
  · refine ⟨fun h => ?_, fun _ => hb⟩
    rw [h1] at h; cases h

/-! ## The transport functions use the handle only through its pins -/

theorem onewire_wait_pins (H : Hal σ) (ow ow1 : mgos_onewire) (hi : ow1.pin_in = ow.pin_in)
    (n : Nat) : ∀ s, onewire_wait H ow1 n s = onewire_wait H ow n s := by
  induction n with
  | zero => intro s; rfl
  | succ n ih => intro s; simp only [onewire_wait, hi, ih]

theorem reset_pins (H : Hal σ) (ow ow1 : mgos_onewire) (hi : ow1.pin_in = ow.pin_in)
    (ho : ow1.pin_out = ow.pin_out) (s : σ) :
    mgos_onewire_reset H (some ow1) s = mgos_onewire_reset H (some ow) s := by
  simp only [mgos_onewire_reset, onewire_prepare_input, onewire_prepare_output, hi, ho,
    onewire_wait_pins H ow ow1 hi]

theorem read_bit_pins (H : Hal σ) (ow ow1 : mgos_onewire) (hi : ow1.pin_in = ow.pin_in)
    (ho : ow1.pin_out = ow.pin_out) (s : σ) :
    mgos_onewire_read_bit H (some ow1) s = mgos_onewire_read_bit H (some ow) s := by
  simp only [mgos_onewire_read_bit, onewire_prepare_input, onewire_prepare_output, hi, ho]

theorem write_bit_pins (H : Hal σ) (ow ow1 : mgos_onewire) (hi : ow1.pin_in = ow.pin_in)
    (ho : ow1.pin_out = ow.pin_out) (bit : Int) (s : σ) :
    mgos_onewire_write_bit H (some ow1) bit s = mgos_onewire_write_bit H (some ow) bit s := by
  simp only [mgos_onewire_write_bit, onewire_prepare_input, onewire_prepare_output, hi, ho]

theorem reset_false_of_wait (H : Hal σ) (ow : mgos_onewire) (s : σ)
    (h : (onewire_wait H ow 125 (onewire_prepare_input H ow s)).1 = false) :
    mgos_onewire_reset H (some ow) s =
      (false, (onewire_wait H ow 125 (onewire_prepare_input H ow s)).2) := by
  simp only [mgos_onewire_reset, h, if_true]

/-- C6: with the exhausted flag (`last_device`) set, `mgos_onewire_next` returns
false with the platform state untouched, for every platform: no reset, no
command, no bit read or written; the caller buffer is unchanged.  On the
recording platform the trace is the one it started with. -/
theorem next_exhausted_immediate (H : Hal σ) (ow : mgos_onewire) (rom : List Nat)
    (mode : Int) (s : σ) (l : Line) (h : ow.sst.last_device ≠ 0) :
    (mgos_onewire_next H (some ow) rom mode s).1 = false ∧
      (mgos_onewire_next H (some ow) rom mode s).2.2.1 = rom ∧
      (mgos_onewire_next H (some ow) rom mode s).2.2.2 = s ∧
      (mgos_onewire_next traceHal (some ow) rom mode l).1 = false ∧
      (mgos_onewire_next traceHal (some ow) rom mode l).2.2.1 = rom ∧
      (mgos_onewire_next traceHal (some ow) rom mode l).2.2.2.trace = l.trace := by
  simp only [mgos_onewire_next]
  rw [onewire_search_exhausted H _ rom s (by simpa using h),
    onewire_search_exhausted traceHal _ rom l (by simpa using h)]
  exact ⟨rfl, rfl, rfl, rfl, rfl, rfl⟩

/-- Witness for C6 on a handle whose cursor is exhausted. -/
theorem next_exhausted_immediate_witness :
    demo_exhausted.sst.last_device ≠ 0 ∧
      (mgos_onewire_next traceHal (some demo_exhausted) [1, 2, 3, 4, 5, 6, 7, 8] 0 idle_line).1
        = false ∧
      (mgos_onewire_next traceHal (some demo_exhausted) [1, 2, 3, 4, 5, 6, 7, 8] 0
        idle_line).2.2.1 = [1, 2, 3, 4, 5, 6, 7, 8] ∧
      (mgos_onewire_next traceHal (some demo_exhausted) [1, 2, 3, 4, 5, 6, 7, 8] 0
        idle_line).2.2.2.trace = [] :=
  ⟨by decide,
    (next_exhausted_immediate traceHal demo_exhausted [1, 2, 3, 4, 5, 6, 7, 8] 0 idle_line
      idle_line (by decide)).2.2.2.1,
    (next_exhausted_immediate traceHal demo_exhausted [1, 2, 3, 4, 5, 6, 7, 8] 0 idle_line
      idle_line (by decide)).2.2.2.2.1,
    (next_exhausted_immediate traceHal demo_exhausted [1, 2, 3, 4, 5, 6, 7, 8] 0 idle_line
      idle_line (by decide)).2.2.2.2.2⟩

/-- C7: with the exhausted flag clear, when the reset reports no presence, or
its idle wait times out, `mgos_onewire_next` returns false, the platform state
is exactly the one the reset left (no command byte, no address bit read or
written), the caller buffer is unchanged, and the cursor has `last_device`,
`last_discrepancy` and `last_family_discrepancy` all 0. -/
theorem next_no_presence (H : Hal σ) (ow : mgos_onewire) (rom : List Nat) (mode : Int) (s : σ)
    (h : ow.sst.last_device = 0)
    (hr : (mgos_onewire_reset H (some ow) s).1 = false ∨
      (onewire_wait H ow 125 (onewire_prepare_input H ow s)).1 = false) :
    (mgos_onewire_next H (some ow) rom mode s).1 = false ∧
      (mgos_onewire_next H (some ow) rom mode s).2.2.1 = rom ∧
      (mgos_onewire_next H (some ow) rom mode s).2.2.2 = (mgos_onewire_reset H (some ow) s).2 ∧
      ∃ ow1, (mgos_onewire_next H (some ow) rom mode s).2.1 = some ow1 ∧
        ow1.sst.last_device = 0 ∧ ow1.sst.last_discrepancy = 0 ∧
        ow1.sst.last_family_discrepancy = 0 := by
  have hr1 : (mgos_onewire_reset H (some ow) s).1 = false := by
    rcases hr with hr | hr
    · exact hr
    · rw [reset_false_of_wait H ow s hr]
  have hp := reset_pins H ow { ow with sst := { ow.sst with search_mode := mode } } rfl rfl s
  simp only [mgos_onewire_next]
  rw [onewire_search_no_presence H _ rom s (by simpa using h) (by rw [hp]; exact hr1), hp]
  exact ⟨rfl, rfl, rfl, _, rfl, rfl, rfl, rfl⟩

/-- Witness for C7 on a line that stays high after the reset pulse. -/
theorem next_no_presence_witness :
    demo_handle.sst.last_device = 0 ∧
      (mgos_onewire_reset traceHal (some demo_handle) idle_line).1 = false ∧
      (mgos_onewire_next traceHal (some demo_handle) [1, 2, 3, 4, 5, 6, 7, 8] 0 idle_line).1
        = false ∧
      (mgos_onewire_next traceHal (some demo_handle) [1, 2, 3, 4, 5, 6, 7, 8] 0
        idle_line).2.2.1 = [1, 2, 3, 4, 5, 6, 7, 8] :=
  ⟨rfl, by decide,
    (next_no_presence traceHal demo_handle [1, 2, 3, 4, 5, 6, 7, 8] 0 idle_line rfl
      (Or.inl (by decide))).1,
    (next_no_presence traceHal demo_handle [1, 2, 3, 4, 5, 6, 7, 8] 0 idle_line rfl
      (Or.inl (by decide))).2.1⟩

/-! ## NULL handle -/

theorem read_loop_null (H : Hal σ) (fuel : Nat) :
    ∀ (mask res : Nat) (s : σ), read_loop H none fuel mask res s = (res, s) := by
  induction fuel with
  | zero => intro mask res s; unfold read_loop; split <;> rfl
  | succ n ih =>
    intro mask res s
    unfold read_loop
    split
    · rfl
    · simp only [mgos_onewire_read_bit, ih]
      simp

theorem write_loop_null (H : Hal σ) (data fuel : Nat) :
    ∀ (mask : Nat) (s : σ), write_loop H none data fuel mask s = s := by
  induction fuel with
  | zero => intro mask s; unfold write_loop; split <;> rfl
  | succ n ih =>
    intro mask s
    unfold write_loop
    split
    · rfl
    · simp only [mgos_onewire_write_bit, ih]

theorem write_bytes_loop_null (H : Hal σ) (buf : List Nat) (n : Nat) :
    ∀ (i : Nat) (s : σ), write_bytes_loop H none buf n i s = s := by
  induction n with
  | zero => intro i s; rfl
  | succ n ih =>
    intro i s
    simp only [write_bytes_loop, mgos_onewire_write, write_loop_null, ih]

theorem read_bytes_loop_null (H : Hal σ) (n : Nat) :
    ∀ (i : Nat) (buf : List Nat) (s : σ),
      (read_bytes_loop H none n i buf s).2 = s ∧
      (read_bytes_loop H none n i buf s).1.length = buf.length ∧
      ∀ j, (read_bytes_loop H none n i buf s).1[j]? =
        if i ≤ j ∧ j < i + n then buf[j]?.map (fun _ => 0) else buf[j]? := by
  induction n with
  | zero =>
    intro i buf s
    refine ⟨rfl, rfl, fun j => ?_⟩
    have : ¬ (i ≤ j ∧ j < i + 0) := by omega
    simp only [read_bytes_loop, if_neg this]
  | succ n ih =>
    intro i buf s
    simp only [read_bytes_loop, mgos_onewire_read, read_loop_null]
    obtain ⟨h1, h2, h3⟩ := ih (i + 1) (buf.set i 0) s
    refine ⟨h1, by rw [h2, List.length_set], fun j => ?_⟩
    rw [h3 j, List.getElem?_set]
    by_cases hij : i = j
    · subst hij
      have c1 : ¬ (i + 1 ≤ i ∧ i < i + 1 + n) := by omega
      have c2 : i ≤ i ∧ i < i + (n + 1) := by omega
      rw [if_neg c1, if_pos rfl, if_pos c2]
      by_cases hl : i < buf.length
      · rw [if_pos hl, List.getElem?_eq_getElem hl]; rfl
      · rw [if_neg hl, List.getElem?_eq_none (by omega)]; rfl
    · rw [if_neg hij]
      by_cases c : i + 1 ≤ j ∧ j < i + 1 + n
      · have c2 : i ≤ j ∧ j < i + (n + 1) := by omega
        rw [if_pos c, if_pos c2]
      · have c2 : ¬ (i ≤ j ∧ j < i + (n + 1)) := by omega
        rw [if_neg c, if_neg c2]

/-- C10: with the NULL handle (`none`) every public operation leaves the
platform state untouched, for every platform: reset, next and read_bit return
false (next leaving the caller buffer as it was), read returns 0, read_bytes
stores 0 in each of the first `len` bytes of the buffer and nothing else, and
the write, select, skip, target_setup and search_clean operations do nothing. -/
theorem null_handle_noop (H : Hal σ) (s : σ) (rom buf : List Nat) (mode len bit : Int)
    (data family_code : Nat) :
    mgos_onewire_reset H none s = (false, s) ∧
      mgos_onewire_next H none rom mode s = (false, none, rom, s) ∧
      mgos_onewire_read_bit H none s = (false, s) ∧
      mgos_onewire_read H none s = (0, s) ∧
      ((mgos_onewire_read_bytes H none buf len s).2 = s ∧
        (mgos_onewire_read_bytes H none buf len s).1.length = buf.length ∧
        ∀ j : Nat, (mgos_onewire_read_bytes H none buf len s).1[j]? =
          if (j : Int) < len then buf[j]?.map (fun _ => 0) else buf[j]?) ∧
      mgos_onewire_write_bit H none bit s = s ∧
      mgos_onewire_write H none data s = s ∧
      mgos_onewire_write_bytes H none buf len s = s ∧
      mgos_onewire_select H none rom s = s ∧
      mgos_onewire_skip H none s = s ∧
      mgos_onewire_target_setup none family_code = none ∧
      mgos_onewire_search_clean none = none := by
  refine ⟨rfl, rfl, rfl, read_loop_null H 8 1 0 s, ?_, rfl, write_loop_null H data 8 1 s,
    write_bytes_loop_null H buf _ 0 s, rfl, rfl, rfl, rfl⟩
  obtain ⟨h1, h2, h3⟩ := read_bytes_loop_null H len.toNat 0 buf s
  refine ⟨h1, h2, fun j => ?_⟩
  simp only [mgos_onewire_read_bytes]
  rw [h3 j]
  by_cases c : (j : Int) < len
  · have c2 : 0 ≤ j ∧ j < 0 + len.toNat := by omega
    rw [if_pos c, if_pos c2]
  · have c2 : ¬ (0 ≤ j ∧ j < 0 + len.toNat) := by omega
    rw [if_neg c, if_neg c2]

/-! ## CRC8 detects a change of one byte -/

set_option maxRecDepth 1000000 in
theorem crc_table_nodup : crc_table.Nodup := by decide

theorem crc_table_inj {i j : Nat} (hi : i < 256) (hj : j < 256)
    (h : crc_table.getD i 0 = crc_table.getD j 0) : i = j := by
  have hi1 : i < crc_table.length := by rw [crc_table_length]; exact hi
  have hj1 : j < crc_table.length := by rw [crc_table_length]; exact hj
  rw [List.getD_eq_getElem _ _ hi1, List.getD_eq_getElem _ _ hj1] at h
  exact (crc_table_nodup.getElem_inj_iff).1 h

theorem crc8_loop_inj (bs : List Nat) :
    ∀ (n r1 r2 : Nat), (∀ b ∈ bs, b < 256) → r1 < 256 → r2 < 256 →
      crc8_loop bs n r1 = crc8_loop bs n r2 → r1 = r2 := by
  induction bs with
  | nil => intro n r1 r2 _ _ _ h; cases n <;> simpa [crc8_loop] using h
  | cons b bs ih =>
    intro n r1 r2 hb h1 h2 h
    cases n with
    | zero => simpa [crc8_loop] using h
    | succ n =>
      have hb0 : b < 256 := hb b (List.mem_cons_self _ _)
      have x1 : r1 ^^^ b < 256 := Nat.xor_lt_two_pow (n := 8) h1 hb0
      have x2 : r2 ^^^ b < 256 := Nat.xor_lt_two_pow (n := 8) h2 hb0
      simp only [crc8_loop] at h
      have := ih n _ _ (fun c hc => hb c (List.mem_cons_of_mem _ hc))
        (crc_table_lt _ x1) (crc_table_lt _ x2) h
      exact Nat.xor_left_injective (crc_table_inj x1 x2 this)

theorem crc8_loop_set_ne (bs : List Nat) :
    ∀ (n j r x : Nat), (∀ b ∈ bs, b < 256) → r < 256 → x < 256 → j < n → j < bs.length →
      x ≠ bs.getD j 0 → crc8_loop (bs.set j x) n r ≠ crc8_loop bs n r := by
  induction bs with
  | nil => intro n j r x _ _ _ _ hl; simp at hl
  | cons b bs ih =>
    intro n j r x hb hr hx hjn hjl hne
    have hb0 : b < 256 := hb b (List.mem_cons_self _ _)
    have hbs : ∀ c ∈ bs, c < 256 := fun c hc => hb c (List.mem_cons_of_mem _ hc)
    cases n with
    | zero => omega
    | succ n =>
      cases j with
      | zero =>
        simp only [List.set_cons_zero, crc8_loop]
        intro h
        have x1 : r ^^^ x < 256 := Nat.xor_lt_two_pow (n := 8) hr hx
        have x2 : r ^^^ b < 256 := Nat.xor_lt_two_pow (n := 8) hr hb0
        have := crc_table_inj x1 x2
          (crc8_loop_inj bs n _ _ hbs (crc_table_lt _ x1) (crc_table_lt _ x2) h)
        exact hne (by simpa using Nat.xor_right_injective this)
      | succ j =>
        simp only [List.set_cons_succ, crc8_loop]
        exact ih n j _ x hbs (crc_table_lt _ (Nat.xor_lt_two_pow (n := 8) hr hb0)) hx
          (by omega) (by simpa using hjl) (by simpa using hne)

theorem getD_lt_of_forall {rom : List Nat} (hb : ∀ b ∈ rom, b < 256) (i : Nat) :
    rom.getD i 0 < 256 := by
  by_cases h : i < rom.length
  · rw [List.getD_eq_getElem _ _ h]; exact hb _ (List.getElem_mem _)
  · rw [List.getD_eq_default _ _ (by omega)]; decide

/-- C9: the validation gate of the search accepts every 8-byte ROM code with a
non-zero family byte and byte 7 equal to the CRC8 of bytes 0..6, and rejects the
code obtained by flipping any single one of the 56 bits of bytes 0..6: the CRC8
of the modified seven bytes differs from the original byte 7. -/
theorem rom_check_single_bit (rom : List Nat) (h8 : rom.length = 8)
    (hb : ∀ b ∈ rom, b < 256) (hf : rom.getD 0 0 ≠ 0)
    (hc : rom.getD 7 0 = mgos_onewire_crc8 rom 7) :
    rom_check rom = true ∧
      ∀ k, k < 56 →
        mgos_onewire_crc8 (flip_bit rom k) 7 ≠ rom.getD 7 0 ∧
        (flip_bit rom k).getD 7 0 = rom.getD 7 0 ∧
        rom_check (flip_bit rom k) = false := by
  refine ⟨by simp only [rom_check, Bool.and_eq_true, decide_eq_true_eq]; exact ⟨hf, hc⟩,
    fun k hk => ?_⟩
  have hk8 : k / 8 < 7 := by omega
  have hpow : 2 ^ (k % 8) < 256 :=
    lt_of_lt_of_le (Nat.pow_lt_pow_right (by decide) (Nat.mod_lt k (by decide)))
      (by decide)
  have hx : rom.getD (k / 8) 0 ^^^ 2 ^ (k % 8) < 256 :=
    Nat.xor_lt_two_pow (n := 8) (getD_lt_of_forall hb _) hpow
  have hne : rom.getD (k / 8) 0 ^^^ 2 ^ (k % 8) ≠ rom.getD (k / 8) 0 := by
    intro h
    have h0 : rom.getD (k / 8) 0 ^^^ 2 ^ (k % 8) = rom.getD (k / 8) 0 ^^^ 0 := by
      rw [h, Nat.xor_zero]
    have := Nat.xor_right_injective h0
    exact absurd this (by positivity)
  have hcrc : mgos_onewire_crc8 (flip_bit rom k) 7 ≠ rom.getD 7 0 := by
    rw [hc]
    exact crc8_loop_set_ne rom 7 (k / 8) 0 _ hb (by decide) hx hk8 (by omega) hne
  have h7 : (flip_bit rom k).getD 7 0 = rom.getD 7 0 := by
    simp only [flip_bit, List.getD_eq_getElem?_getD]
    rw [List.getElem?_set_ne (by omega)]
  refine ⟨hcrc, h7, ?_⟩
  simp only [rom_check, h7, Bool.and_eq_false_iff, decide_eq_false_iff_not]
  right
  exact fun h => hcrc h.symm

/-! ## Address bits of a stored ROM code -/

theorem testBit_255 (i : Nat) : Nat.testBit 255 i = decide (i < 8) :=
  Nat.testBit_two_pow_sub_one 8 i

theorem pos_split {j k : Nat} : j = k ↔ j / 8 = k / 8 ∧ j % 8 = k % 8 := by
  constructor
  · rintro rfl; exact ⟨rfl, rfl⟩
  · rintro ⟨h1, h2⟩; omega

theorem rom_bit_set_one (rom : List Nat) (k j : Nat) (hk : k / 8 < rom.length) :
    rom_bit (rom.set (k / 8) (rom.getD (k / 8) 0 ||| 2 ^ (k % 8))) j =
      if j = k then true else rom_bit rom j := by
  unfold rom_bit
  simp only [List.getD_eq_getElem?_getD, List.getElem?_set]
  by_cases h8 : k / 8 = j / 8
  · rw [if_pos h8, if_pos hk, ← h8]
    simp only [Option.getD_some, Nat.testBit_lor, Nat.testBit_two_pow]
    by_cases hm : k % 8 = j % 8
    · have : j = k := pos_split.2 ⟨h8.symm, hm.symm⟩
      simp [hm, this]
    · have : j ≠ k := fun h => hm (by rw [h])
      simp [hm, this]
  · rw [if_neg h8]
    have : j ≠ k := fun h => h8 (by rw [h])
    simp [this]

theorem rom_bit_set_zero (rom : List Nat) (k j : Nat) (hk : k / 8 < rom.length) :
    rom_bit (rom.set (k / 8) (rom.getD (k / 8) 0 &&& (255 ^^^ 2 ^ (k % 8)))) j =
      if j = k then false else rom_bit rom j := by
  unfold rom_bit
  simp only [List.getD_eq_getElem?_getD, List.getElem?_set]
  by_cases h8 : k / 8 = j / 8
  · rw [if_pos h8, if_pos hk, ← h8]
    simp only [Option.getD_some, Nat.testBit_land, Nat.testBit_xor, Nat.testBit_two_pow,
      testBit_255]
    have hj : j % 8 < 8 := Nat.mod_lt _ (by decide)
    by_cases hm : k % 8 = j % 8
    · have : j = k := pos_split.2 ⟨h8.symm, hm.symm⟩
      simp [hm, this, hj]
    · have : j ≠ k := fun h => hm (by rw [h])
      simp [hm, this, hj]
  · rw [if_neg h8]
    have : j ≠ k := fun h => h8 (by rw [h])
    simp [this]

theorem stored_bit (rom : List Nat) (k : Nat) :
    decide (rom.getD (k / 8) 0 &&& 2 ^ (k % 8) > 0) = rom_bit rom k := by
  unfold rom_bit
  rw [Nat.and_two_pow]
  cases h : (rom.getD (k / 8) 0).testBit (k % 8)
  · simp
  · simp [Nat.pos_pow_of_pos]

theorem set_wf_one {rom : List Nat} (h : rom_wf rom) (k : Nat) :
    rom_wf (rom.set (k / 8) (rom.getD (k / 8) 0 ||| 2 ^ (k % 8))) := by
  refine ⟨by rw [List.length_set]; exact h.1, fun b hb => ?_⟩
  rcases List.mem_or_eq_of_mem_set hb with hb | rfl
  · exact h.2 b hb
  · have hpow : 2 ^ (k % 8) < 2 ^ 8 :=
      Nat.pow_lt_pow_right (by decide) (Nat.mod_lt k (by decide))
    exact Nat.or_lt_two_pow (getD_lt_of_forall h.2 _) hpow

theorem set_wf_zero {rom : List Nat} (h : rom_wf rom) (k : Nat) :
    rom_wf (rom.set (k / 8) (rom.getD (k / 8) 0 &&& (255 ^^^ 2 ^ (k % 8)))) := by
  refine ⟨by rw [List.length_set]; exact h.1, fun b hb => ?_⟩
  rcases List.mem_or_eq_of_mem_set hb with hb | rfl
  · exact h.2 b hb
  · exact lt_of_le_of_lt Nat.and_le_left (getD_lt_of_forall h.2 _)

theorem rom_ext {a b : List Nat} (ha : rom_wf a) (hb : rom_wf b)
    (h : agree_below a b 64) : a = b := by
  apply List.ext_getElem (by rw [ha.1, hb.1])
  intro i h1 h2
  have hi : i < 8 := by rw [ha.1] at h1; exact h1
  apply Nat.eq_of_testBit_eq
  intro m
  by_cases hm : m < 8
  · have := h (8 * i + m) (by omega)
    unfold rom_bit at this
    have e1 : (8 * i + m) / 8 = i := by omega
    have e2 : (8 * i + m) % 8 = m := by omega
    rw [e1, e2, List.getD_eq_getElem _ _ h1, List.getD_eq_getElem _ _ h2] at this
    exact this
  · have p : (256 : Nat) ≤ 2 ^ m :=
      le_trans (by decide : (256 : Nat) ≤ 2 ^ 8) (Nat.pow_le_pow_right (by decide) (by omega))
    rw [Nat.testBit_lt_two_pow (lt_of_lt_of_le (ha.2 _ (List.getElem_mem _)) p),
      Nat.testBit_lt_two_pow (lt_of_lt_of_le (hb.2 _ (List.getElem_mem _)) p)]

/-! ## One iteration of the walk on the simulated bus -/

theorem search_advance_pos (ow : mgos_onewire) (v : search_vars) (a b : Bool) (k : Nat)
    (h : at_pos v k) (hk : k < 64) :
    at_pos (search_advance ow v a b) (k + 1) ∧
      ((search_advance ow v a b).rom_byte_number < 8 ↔ k + 1 < 64) ∧
      (search_advance ow v a b).last_zero =
        if search_zero ow v a b then k + 1 else v.last_zero := by
  obtain ⟨h1, h2, h3⟩ := h
  have hm : k % 8 = 0 ∨ k % 8 = 1 ∨ k % 8 = 2 ∨ k % 8 = 3 ∨ k % 8 = 4 ∨ k % 8 = 5 ∨
      k % 8 = 6 ∨ k % 8 = 7 := by omega
  unfold at_pos search_advance
  simp only [h1, h2, h3]
  rcases hm with e | e | e | e | e | e | e | e <;>
    · have e1 : (k + 1) % 8 = (k % 8 + 1) % 8 := by omega
      rw [e1, e]
      norm_num [Nat.shiftLeft_eq]
      omega

theorem search_loop_fields (H : Hal σ) (fuel : Nat) :
    ∀ (ow : mgos_onewire) (v : search_vars) (s : σ),
      (search_loop H fuel ow v s).1.pin_in = ow.pin_in ∧
      (search_loop H fuel ow v s).1.pin_out = ow.pin_out ∧
      (search_loop H fuel ow v s).1.sst.last_discrepancy = ow.sst.last_discrepancy ∧
      (search_loop H fuel ow v s).1.sst.last_device = ow.sst.last_device ∧
      (search_loop H fuel ow v s).1.sst.search_mode = ow.sst.search_mode := by
  induction fuel with
  | zero => intro ow v s; exact ⟨rfl, rfl, rfl, rfl, rfl⟩
  | succ n ih =>
    intro ow v s
    unfold search_loop
    rcases hb : search_body H ow v s with ⟨_ | ⟨ow1, v1⟩, s1⟩
    · exact ⟨rfl, rfl, rfl, rfl, rfl⟩
    · obtain ⟨-, h1, h2, h3, h4, h5⟩ := search_body_length H ow v s ow1 v1 s1 hb
      simp only
      split
      · obtain ⟨g1, g2, g3, g4, g5⟩ := ih ow1 v1 s1
        exact ⟨g1.trans h1, g2.trans h2, g3.trans h3, g4.trans h4, g5.trans h5⟩
      · exact ⟨h1, h2, h3, h4, h5⟩

theorem bus_step (H : Hal σ) (ow : mgos_onewire) (devs : List (List Nat)) (view : σ → SimBus)
    (hbus : WiredAnd H ow devs view) (s : σ) (A : List (List Nat)) (k : Nat)
    (hv : view s = ⟨A, 0, k, 0⟩) :
    (mgos_onewire_read_bit H (some ow) s).1 = A.all (fun d => rom_bit d k) ∧
      (mgos_onewire_read_bit H (some ow) (mgos_onewire_read_bit H (some ow) s).2).1 =
        A.all (fun d => !rom_bit d k) ∧
      ∀ bit, view (mgos_onewire_write_bit H (some ow) bit
          (mgos_onewire_read_bit H (some ow) (mgos_onewire_read_bit H (some ow) s).2).2) =
        ⟨A.filter (fun d => rom_bit d k == decide (bit ≠ 0)), 0, k + 1, 0⟩ := by
  obtain ⟨a1, a2⟩ := hbus.read_and s
  obtain ⟨b1, b2⟩ := hbus.read_and (mgos_onewire_read_bit H (some ow) s).2
  rw [hv] at a1 a2
  simp only [SimBus.read, if_true] at a1 a2
  rw [a2] at b1 b2
  simp only [SimBus.read] at b1 b2
  norm_num at b1 b2
  refine ⟨a1, b1, fun bit => ?_⟩
  rw [hbus.write_drop, b2]
  simp [SimBus.write]

theorem all_cases (A : List (List Nat)) (k : Nat) (hA : ∃ d, d ∈ A) :
    (A.all (fun d => rom_bit d k) = true ∧ A.all (fun d => !rom_bit d k) = false ∧
        ∀ d ∈ A, rom_bit d k = true) ∨
      (A.all (fun d => rom_bit d k) = false ∧ A.all (fun d => !rom_bit d k) = true ∧
        ∀ d ∈ A, rom_bit d k = false) ∨
      (A.all (fun d => rom_bit d k) = false ∧ A.all (fun d => !rom_bit d k) = false ∧
        (∃ d ∈ A, rom_bit d k = false) ∧ ∃ d ∈ A, rom_bit d k = true) := by
  obtain ⟨d0, hd0⟩ := hA
  cases h1 : A.all (fun d => rom_bit d k) <;> cases h2 : A.all (fun d => !rom_bit d k)
  · right; right
    refine ⟨rfl, rfl, ?_, ?_⟩
    · have := h1
      rw [List.all_eq_false] at this
      obtain ⟨d, hd, hb⟩ := this
      exact ⟨d, hd, by simpa using hb⟩
    · have := h2
      rw [List.all_eq_false] at this
      obtain ⟨d, hd, hb⟩ := this
      exact ⟨d, hd, by simpa using hb⟩
  · right; left
    refine ⟨rfl, rfl, fun d hd => ?_⟩
    rw [List.all_eq_true] at h2
    simpa using h2 d hd
  · left
    refine ⟨rfl, rfl, fun d hd => ?_⟩
    rw [List.all_eq_true] at h1
    exact h1 d hd
  · exfalso
    rw [List.all_eq_true] at h1 h2
    have a := h1 d0 hd0
    have b := h2 d0 hd0
    simp [a] at b

theorem search_store_rom (ow : mgos_onewire) (v : search_vars) (a b : Bool) (k : Nat)
    (hpos : at_pos v k) (hk : k < 64) (hwf : rom_wf ow.sst.rom) :
    rom_wf (search_store ow v a b).sst.rom ∧
      ∀ j, rom_bit (search_store ow v a b).sst.rom j =
        if j = k then search_dir ow v a b else rom_bit ow.sst.rom j := by
  obtain ⟨-, h2, h3⟩ := hpos
  have hlen : k / 8 < ow.sst.rom.length := by rw [hwf.1]; omega
  unfold search_store
  simp only [h2, h3]
  cases hd : search_dir ow v a b
  · simp only [Bool.false_eq_true, if_false]
    exact ⟨set_wf_zero hwf k, fun j => rom_bit_set_zero _ k j hlen⟩
  · simp only [if_true]
    exact ⟨set_wf_one hwf k, fun j => rom_bit_set_one _ k j hlen⟩

theorem search_dir_step (ow : mgos_onewire) (v : search_vars) (A : List (List Nat)) (k : Nat)
    (hpos : at_pos v k) (hA : ∃ d, d ∈ A) :
    ¬ (A.all (fun d => rom_bit d k) = true ∧ A.all (fun d => !rom_bit d k) = true) ∧
      (∃ d ∈ A, rom_bit d k =
        search_dir ow v (A.all (fun d => rom_bit d k)) (A.all (fun d => !rom_bit d k))) ∧
      ((∃ d ∈ A, rom_bit d k ≠
          search_dir ow v (A.all (fun d => rom_bit d k)) (A.all (fun d => !rom_bit d k))) →
        search_dir ow v (A.all (fun d => rom_bit d k)) (A.all (fun d => !rom_bit d k)) =
            (if ((k + 1 : Nat) : Int) < ow.sst.last_discrepancy then rom_bit ow.sst.rom k
              else decide (((k + 1 : Nat) : Int) = ow.sst.last_discrepancy)) ∧
          search_zero ow v (A.all (fun d => rom_bit d k)) (A.all (fun d => !rom_bit d k)) =
            !search_dir ow v (A.all (fun d => rom_bit d k))
              (A.all (fun d => !rom_bit d k))) ∧
      (search_zero ow v (A.all (fun d => rom_bit d k)) (A.all (fun d => !rom_bit d k)) = true →
        search_dir ow v (A.all (fun d => rom_bit d k)) (A.all (fun d => !rom_bit d k)) = false ∧
          ∃ d ∈ A, rom_bit d k = true) := by
  obtain ⟨d0, hd0⟩ := hA
  obtain ⟨h1, h2, h3⟩ := hpos
  rcases all_cases A k ⟨d0, hd0⟩ with ⟨ha, hb, hall⟩ | ⟨ha, hb, hall⟩ | ⟨ha, hb, ⟨e0, he0, hz⟩, ⟨e1, he1, ho⟩⟩
  · rw [ha, hb]
    have hdir : search_dir ow v true false = true := by simp [search_dir]
    have hzero : search_zero ow v true false = false := by simp [search_zero]
    rw [hdir, hzero]
    refine ⟨by simp, ⟨d0, hd0, hall d0 hd0⟩, ?_, by simp⟩
    rintro ⟨d, hd, hne⟩
    exact absurd (hall d hd) hne
  · rw [ha, hb]
    have hdir : search_dir ow v false true = false := by simp [search_dir]
    have hzero : search_zero ow v false true = false := by simp [search_zero]
    rw [hdir, hzero]
    refine ⟨by simp, ⟨d0, hd0, hall d0 hd0⟩, ?_, by simp⟩
    rintro ⟨d, hd, hne⟩
    exact absurd (hall d hd) hne
  · rw [ha, hb]
    have hdir : search_dir ow v false false =
        (if ((k + 1 : Nat) : Int) < ow.sst.last_discrepancy then rom_bit ow.sst.rom k
          else decide (((k + 1 : Nat) : Int) = ow.sst.last_discrepancy)) := by
      simp only [search_dir, h1, h2, h3, stored_bit, ne_eq, not_true_eq_false, if_false]
    have hzero : search_zero ow v false false = !search_dir ow v false false := by
      simp [search_zero]
    refine ⟨by simp, ?_, fun _ => ⟨hdir, hzero⟩, fun hz1 => ?_⟩
    · cases hd : search_dir ow v false false
      · exact ⟨e0, he0, hz⟩
      · exact ⟨e1, he1, ho⟩
    · rw [hzero] at hz1
      exact ⟨by simpa using hz1, e1, he1, ho⟩

theorem WiredAnd.of_pins {H : Hal σ} {ow0 ow : mgos_onewire} {devs : List (List Nat)}
    {view : σ → SimBus} (hbus : WiredAnd H ow0 devs view) (hi : ow.pin_in = ow0.pin_in)
    (ho : ow.pin_out = ow0.pin_out) : WiredAnd H ow devs view where
  reset_presence := fun s => by rw [reset_pins H ow0 ow hi ho]; exact hbus.reset_presence s
  read_and := fun s => by rw [read_bit_pins H ow0 ow hi ho]; exact hbus.read_and s
  write_drop := fun s bit => by rw [write_bit_pins H ow0 ow hi ho]; exact hbus.write_drop s bit

theorem agree_below_succ {d rom rom1 : List Nat} {k : Nat} {dir : Bool}
    (h : ∀ j, rom_bit rom1 j = if j = k then dir else rom_bit rom j) :
    agree_below d rom1 (k + 1) ↔ agree_below d rom k ∧ rom_bit d k = dir := by
  constructor
  · intro ha
    refine ⟨fun j hj => ?_, ?_⟩
    · have := ha j (by omega)
      rw [h j, if_neg (by omega)] at this
      exact this
    · have := ha k (by omega)
      rw [h k, if_pos rfl] at this
      exact this
  · rintro ⟨ha, hk⟩ j hj
    rw [h j]
    by_cases hjk : j = k
    · rw [if_pos hjk, hjk]; exact hk
    · rw [if_neg hjk]; exact ha j (by omega)

theorem search_loop_walk (H : Hal σ) (ow0 : mgos_onewire) (devs : List (List Nat))
    (view : σ → SimBus) (hbus : WiredAnd H ow0 devs view) (hdev : ∀ d ∈ devs, rom_wf d) :
    ∀ (n k : Nat) (ow : mgos_onewire) (v : search_vars) (s : σ) (A : List (List Nat)),
      k + n = 64 → at_pos v k → v.last_zero ≤ k →
      ow.pin_in = ow0.pin_in → ow.pin_out = ow0.pin_out → rom_wf ow.sst.rom →
      view s = ⟨A, 0, k, 0⟩ → (∀ d, d ∈ A ↔ d ∈ devs ∧ agree_below d ow.sst.rom k) →
      (∃ d, d ∈ A) →
      (search_loop H n ow v s).2.1.id_bit_number = 65 ∧
      WalkPost devs ow.sst.rom ow.sst.last_discrepancy k v.last_zero
        (search_loop H n ow v s).1.sst.rom (search_loop H n ow v s).2.1.last_zero := by
  intro n
  induction n with
  | zero =>
    intro k ow v s A hkn hpos _ _ _ hwf _ hmem hA
    have hk : k = 64 := by omega
    subst hk
    obtain ⟨d, hd⟩ := hA
    obtain ⟨hd1, hd2⟩ := (hmem d).1 hd
    have hdr : d = ow.sst.rom := rom_ext (hdev d hd1) hwf hd2
    refine ⟨hpos.1, ?_⟩
    exact {
      mem := hdr ▸ hd1
      below := fun _ _ => rfl
      rule := fun j h1 h2 => absurd h1 (by omega)
      zero_le := fun j h1 h2 => absurd h1 (by omega)
      last := Or.inl rfl
      mono := le_refl _ }
  | succ n ih =>
    intro k ow v s A hkn hpos hlz hi ho hwf hv hmem hA
    have hk : k < 64 := by omega
    have hbus1 : WiredAnd H ow devs view := hbus.of_pins hi ho
    obtain ⟨e1, e2, e3⟩ := bus_step H ow devs view hbus1 s A k hv
    obtain ⟨t1, t2, t3, t4⟩ := search_dir_step ow v A k hpos hA
    obtain ⟨a1, a2, a3⟩ := search_advance_pos ow v (A.all (fun d => rom_bit d k))
      (A.all (fun d => !rom_bit d k)) k hpos hk
    obtain ⟨w1, w2⟩ := search_store_rom ow v (A.all (fun d => rom_bit d k))
      (A.all (fun d => !rom_bit d k)) k hpos hk hwf
    obtain ⟨-, f1, f2, f3, -, -⟩ := search_store_fields ow v (A.all (fun d => rom_bit d k))
      (A.all (fun d => !rom_bit d k))
    have hbody := search_body_cases H ow v s
    simp only [e1, e2] at hbody
    rcases hbody with ⟨c1, c2, -⟩ | ⟨-, hbody⟩
    · exact absurd ⟨c1, c2⟩ t1
    generalize hdir : search_dir ow v (A.all (fun d => rom_bit d k))
      (A.all (fun d => !rom_bit d k)) = dir at *
    generalize hzero : search_zero ow v (A.all (fun d => rom_bit d k))
      (A.all (fun d => !rom_bit d k)) = zero at *
    generalize hst : search_store ow v (A.all (fun d => rom_bit d k))
      (A.all (fun d => !rom_bit d k)) = ow1 at *
    generalize hadv : search_advance ow v (A.all (fun d => rom_bit d k))
      (A.all (fun d => !rom_bit d k)) = v1 at *
    generalize hs3 : mgos_onewire_write_bit H (some ow) (if dir = true then 1 else 0)
      (mgos_onewire_read_bit H (some ow) (mgos_onewire_read_bit H (some ow) s).2).2 = s3 at *
    have hloop : search_loop H (n + 1) ow v s = search_loop H n ow1 v1 s3 := by
      rw [search_loop, hbody]
      simp only
      by_cases hlt : k + 1 < 64
      · rw [if_pos (a2.2 hlt)]
      · rw [if_neg (fun h => hlt (a2.1 h))]
        have : n = 0 := by omega
        subst this
        rfl
    have hview : view s3 = ⟨A.filter (fun d => rom_bit d k == dir), 0, k + 1, 0⟩ := by
      have := e3 (if dir = true then 1 else 0)
      rw [hs3] at this
      rw [this]
      cases dir <;> simp
    have hmem1 : ∀ d, d ∈ A.filter (fun d => rom_bit d k == dir) ↔
        d ∈ devs ∧ agree_below d ow1.sst.rom (k + 1) := by
      intro d
      rw [List.mem_filter, hmem d, agree_below_succ w2]
      simp [and_assoc]
    have hA1 : ∃ d, d ∈ A.filter (fun d => rom_bit d k == dir) := by
      obtain ⟨d, hd, hb⟩ := t2
      exact ⟨d, List.mem_filter.2 ⟨hd, by simp [hb]⟩⟩
    have hlz1 : v1.last_zero ≤ k + 1 := by
      rw [a3]; split <;> omega
    obtain ⟨r1, P⟩ := ih (k + 1) ow1 v1 s3 _ (by omega) a1 hlz1 (f1.trans hi) (f2.trans ho)
      w1 hview hmem1 hA1
    rw [hloop]
    refine ⟨r1, ?_⟩
    rw [f3] at P
    generalize (search_loop H n ow1 v1 s3).1.sst.rom = r at *
    generalize (search_loop H n ow1 v1 s3).2.1.last_zero = lz at *
    have hbelow : agree_below r ow.sst.rom k := by
      intro j hj
      have := P.below j (by omega)
      rw [w2 j, if_neg (by omega)] at this
      exact this
    have hrk : rom_bit r k = dir := by
      have := P.below k (by omega)
      rw [w2 k, if_pos rfl] at this
      exact this
    have hfork : Fork devs r k → ∃ d ∈ A, rom_bit d k ≠ dir := by
      rintro ⟨d, hd1, hd2, hd3⟩
      refine ⟨d, (hmem d).2 ⟨hd1, fun j hj => (hd2 j hj).trans (hbelow j hj)⟩, ?_⟩
      rw [← hrk]; exact hd3
    exact {
      mem := P.mem
      below := hbelow
      rule := by
        intro j h1 h2 hf
        by_cases hjk : j = k
        · subst hjk
          rw [hrk]
          exact (t3 (hfork hf)).1
        · have := P.rule j (by omega) h2 hf
          rw [w2 j, if_neg hjk] at this
          exact this
      zero_le := by
        intro j h1 h2 hf hz
        by_cases hjk : j = k
        · subst hjk
          have hz0 : zero = true := by
            rw [(t3 (hfork hf)).2, ← hrk, hz]; rfl
          have := P.mono
          rw [a3, hz0] at this
          simpa using this
        · exact P.zero_le j (by omega) h2 hf hz
      last := by
        rcases P.last with hl | ⟨l1, l2, l3, l4⟩
        · cases hz : zero
          · left
            rw [hl, a3, hz]; rfl
          · right
            have hlk : lz = k + 1 := by rw [hl, a3, hz]; rfl
            obtain ⟨hd0, d, hd, hb⟩ := t4 hz
            obtain ⟨hd1, hd2⟩ := (hmem d).1 hd
            have hlk1 : lz - 1 = k := by omega
            refine ⟨by omega, by omega, ?_, ?_⟩
            · rw [hlk1]
              refine ⟨d, hd1, fun j hj => (hd2 j hj).trans (hbelow j hj).symm, ?_⟩
              rw [hrk, hb, hd0]; decide
            · rw [hlk1, hrk, hd0]
        · right
          exact ⟨by omega, l2, l3, l4⟩
      mono := by
        have := P.mono
        rw [a3] at this
        split at this <;> omega }

/-! ## The walk of one search call on the simulated bus -/

theorem write_byte_bits (H : Hal σ) (ow : Option mgos_onewire) (data : Nat) (s : σ) :
    mgos_onewire_write H ow data s =
      mgos_onewire_write_bit H ow (if 128 &&& data ≠ 0 then 1 else 0)
      (mgos_onewire_write_bit H ow (if 64 &&& data ≠ 0 then 1 else 0)
      (mgos_onewire_write_bit H ow (if 32 &&& data ≠ 0 then 1 else 0)
      (mgos_onewire_write_bit H ow (if 16 &&& data ≠ 0 then 1 else 0)
      (mgos_onewire_write_bit H ow (if 8 &&& data ≠ 0 then 1 else 0)
      (mgos_onewire_write_bit H ow (if 4 &&& data ≠ 0 then 1 else 0)
      (mgos_onewire_write_bit H ow (if 2 &&& data ≠ 0 then 1 else 0)
      (mgos_onewire_write_bit H ow (if 1 &&& data ≠ 0 then 1 else 0) s))))))) := by
  simp [mgos_onewire_write, write_loop, Nat.shiftLeft_eq]

theorem command_consumed (H : Hal σ) (ow : mgos_onewire) (devs : List (List Nat))
    (view : σ → SimBus) (hbus : WiredAnd H ow devs view) (data : Nat) (s : σ)
    (hv : view s = SimBus.reset devs) :
    view (mgos_onewire_write H (some ow) data s) = ⟨devs, 0, 0, 0⟩ := by
  rw [write_byte_bits]
  simp only [hbus.write_drop, hv, SimBus.reset, SimBus.write]
  simp

theorem rom_check_of_valid {r : List Nat} (h : rom_valid r) : rom_check r = true := by
  simp only [rom_check, Bool.and_eq_true, decide_eq_true_eq]
  exact ⟨h.2.1, h.2.2⟩

theorem search_finish_valid (ow : mgos_onewire) (buf : List Nat) (h : rom_valid ow.sst.rom)
    (hbuf : buf.length = 8) : search_finish ow true buf = (true, ow, ow.sst.rom) := by
  simp only [search_finish, rom_check_of_valid h, Bool.and_self, if_true,
    copy_rom_eq h.1.1 hbuf]

theorem search_on_bus (H : Hal σ) (ow0 : mgos_onewire) (devs : List (List Nat))
    (view : σ → SimBus) (hbus : WiredAnd H ow0 devs view) (hne : ∃ d, d ∈ devs)
    (hval : ∀ d ∈ devs, rom_valid d) (ow : mgos_onewire) (hi : ow.pin_in = ow0.pin_in)
    (ho : ow.pin_out = ow0.pin_out) (hld : ow.sst.last_device = 0) (hwf : rom_wf ow.sst.rom)
    (buf : List Nat) (hbuf : buf.length = 8) (s : σ) :
    ∃ (ow1 : mgos_onewire) (lz : Nat), onewire_search H ow buf s =
        (true, ow1, ow1.sst.rom, (onewire_search H ow buf s).2.2.2) ∧
      ow1.pin_in = ow0.pin_in ∧ ow1.pin_out = ow0.pin_out ∧
      ow1.sst.last_discrepancy = (lz : Int) ∧
      ow1.sst.last_device = (if lz = 0 then 1 else 0) ∧
      WalkPost devs ow.sst.rom ow.sst.last_discrepancy 0 0 ow1.sst.rom lz := by
  have hbus1 : WiredAnd H ow devs view := hbus.of_pins hi ho
  obtain ⟨hr, hrv⟩ := hbus1.reset_presence s
  have hcmd := command_consumed H ow devs view hbus1 (search_command ow) _ hrv
  obtain ⟨hid, P⟩ := search_loop_walk H ow0 devs view hbus (fun d hd => (hval d hd).1) 64 0 ow
    search_init _ devs (by omega) (by simp [at_pos, search_init]) (by simp [search_init])
    hi ho hwf hcmd (fun d => by simp [agree_below]) hne
  obtain ⟨g1, g2, g3, g4, g5⟩ := search_loop_fields H 64 ow search_init
    (mgos_onewire_write H (some ow) (search_command ow) (mgos_onewire_reset H (some ow) s).2)
  have hsearch := onewire_search_walked H ow buf s hld hr
  simp only [search_walk] at hsearch
  rw [if_neg (by rw [hid]; decide)] at hsearch
  generalize hl : search_loop H 64 ow search_init
    (mgos_onewire_write H (some ow) (search_command ow)
      (mgos_onewire_reset H (some ow) s).2) = l at *
  have hv : rom_valid (search_commit l.1 l.2.1).sst.rom := hval _ P.mem
  rw [search_finish_valid _ buf hv hbuf] at hsearch
  refine ⟨search_commit l.1 l.2.1, l.2.1.last_zero, ?_, g1.trans hi, g2.trans ho, rfl, ?_, P⟩
  · rw [hsearch]
  · simp only [search_commit, g4, hld]

/-! ## The probe order and the resume point -/

theorem probe_lt_irrefl (a : List Nat) : ¬ probe_lt a a := by
  rintro ⟨k, -, -, h0, h1⟩
  rw [h0] at h1
  cases h1

theorem probe_lt_trans {a b c : List Nat} (h1 : probe_lt a b) (h2 : probe_lt b c) :
    probe_lt a c := by
  obtain ⟨k1, hk1, ag1, a0, b1⟩ := h1
  obtain ⟨k2, hk2, ag2, b0, c1⟩ := h2
  rcases Nat.lt_trichotomy k1 k2 with h | h | h
  · exact ⟨k1, hk1, fun j hj => (ag1 j hj).trans (ag2 j (by omega)), a0,
      (ag2 k1 h).symm.trans b1⟩
  · subst h
    rw [b0] at b1
    cases b1
  · exact ⟨k2, hk2, fun j hj => (ag1 j (by omega)).trans (ag2 j hj), (ag1 k2 h).trans b0, c1⟩

theorem probe_lt_asymm {a b : List Nat} (h1 : probe_lt a b) : ¬ probe_lt b a :=
  fun h2 => probe_lt_irrefl a (probe_lt_trans h1 h2)

theorem probe_lt_or_agree (a b : List Nat) :
    ∀ k, k ≤ 64 → agree_below a b k ∨ probe_lt a b ∨ probe_lt b a := by
  intro k
  induction k with
  | zero => intro _; left; intro j hj; omega
  | succ k ih =>
    intro hk
    rcases ih (by omega) with h | h | h
    · cases ha : rom_bit a k <;> cases hb : rom_bit b k
      · left
        intro j hj
        by_cases hjk : j = k
        · rw [hjk, ha, hb]
        · exact h j (by omega)
      · right; left
        exact ⟨k, by omega, h, ha, hb⟩
      · right; right
        exact ⟨k, by omega, fun j hj => (h j hj).symm, hb, ha⟩
      · left
        intro j hj
        by_cases hjk : j = k
        · rw [hjk, ha, hb]
        · exact h j (by omega)
    · exact Or.inr (Or.inl h)
    · exact Or.inr (Or.inr h)

theorem probe_trichotomy {a b : List Nat} (ha : rom_wf a) (hb : rom_wf b) (h : a ≠ b) :
    probe_lt a b ∨ probe_lt b a := by
  rcases probe_lt_or_agree a b 64 (le_refl _) with hag | hlt
  · exact absurd (rom_ext ha hb hag) h
  · exact hlt

theorem walk_resume {devs : List (List Nat)} {p r : List Nat} {ld : Int} {lz : Nat}
    (P : WalkPost devs p ld 0 0 r lz) : Resume devs r lz := by
  refine ⟨fun j hj hf hz => P.zero_le j (Nat.zero_le _) hj hf hz, ?_⟩
  rcases P.last with h | ⟨h1, h2, h3, h4⟩
  · exact Or.inl h
  · exact Or.inr ⟨by omega, h2, h3, h4⟩

theorem walk_first {devs : List (List Nat)} {p r : List Nat} {lz : Nat}
    (P : WalkPost devs p 0 0 0 r lz) : ∀ d ∈ devs, ¬ probe_lt d r := by
  rintro d hd ⟨q, hq, hag, d0, r1⟩
  have hf : Fork devs r q := ⟨d, hd, hag, by rw [d0, r1]; decide⟩
  have := P.rule q (Nat.zero_le _) hq hf
  rw [r1, if_neg (by omega)] at this
  simp at this
  omega

theorem resume_zero_max {devs : List (List Nat)} {r : List Nat} (R : Resume devs r 0) :
    ∀ d ∈ devs, ¬ probe_lt r d := by
  rintro d hd ⟨q, hq, hag, r0, d1⟩
  have := R.1 q hq ⟨d, hd, fun j hj => (hag j hj).symm, by rw [d1, r0]; decide⟩ r0
  omega

theorem resume_pos_greater {devs : List (List Nat)} {r : List Nat} {lz : Nat}
    (R : Resume devs r lz) (hlz : 1 ≤ lz) : ∃ d ∈ devs, probe_lt r d := by
  rcases R.2 with h | ⟨-, h2, ⟨d, hd, hag, hne⟩, h4⟩
  · omega
  · refine ⟨d, hd, lz - 1, by omega, fun j hj => (hag j hj).symm, h4, ?_⟩
    rw [h4] at hne
    simpa using hne

theorem walk_next {devs : List (List Nat)} {p r : List Nat} {lz0 lz : Nat}
    (hp : p ∈ devs) (R : Resume devs p lz0) (hlz : 1 ≤ lz0)
    (P : WalkPost devs p (lz0 : Int) 0 0 r lz) :
    probe_lt p r ∧ ∀ d ∈ devs, ¬ (probe_lt p d ∧ probe_lt d r) := by
  rcases R.2 with h | ⟨-, hle, ⟨e, he, eag, ene⟩, p0⟩
  · omega
  have e1 : rom_bit e (lz0 - 1) = true := by
    rw [p0] at ene; simpa using ene
  -- the new address follows the previous one below the resume point
  have hag : ∀ j, j ≤ lz0 - 1 → agree_below r p j := by
    intro j
    induction j with
    | zero => intro _ i hi; omega
    | succ j ih =>
      intro hj i hi
      by_cases hij : i = j
      · subst hij
        by_cases hf : Fork devs r i
        · have := P.rule i (Nat.zero_le _) (by omega) hf
          rw [if_pos (by omega)] at this
          exact this
        · by_contra hne
          exact hf ⟨p, hp, fun m hm => (ih (by omega) m hm).symm, fun h => hne h.symm⟩
      · exact ih (by omega) i (by omega)
  have hagp := hag (lz0 - 1) (le_refl _)
  -- and takes the 1 branch at the resume point
  have r1 : rom_bit r (lz0 - 1) = true := by
    by_contra hne
    have r0 : rom_bit r (lz0 - 1) = false := by simpa using hne
    have hf : Fork devs r (lz0 - 1) :=
      ⟨e, he, fun j hj => (eag j hj).trans (hagp j hj).symm, by rw [e1, r0]; decide⟩
    have := P.rule (lz0 - 1) (Nat.zero_le _) (by omega) hf
    rw [r0, if_neg (by omega)] at this
    simp at this
    omega
  refine ⟨⟨lz0 - 1, by omega, fun j hj => (hagp j hj).symm, p0, r1⟩, ?_⟩
  rintro d hd ⟨⟨q, hq, pag, pq0, dq1⟩, ⟨q', hq', dag, dq0, rq1⟩⟩
  have hqle : q + 1 ≤ lz0 :=
    R.1 q hq ⟨d, hd, fun j hj => (pag j hj).symm, by rw [dq1, pq0]; decide⟩ pq0
  rcases Nat.lt_trichotomy q' q with h | h | h
  · have a1 := pag q' h
    have a2 := hagp q' (by omega)
    rw [dq0] at a1
    rw [rq1, a1] at a2
    cases a2
  · subst h
    rw [dq0] at dq1
    cases dq1
  · by_cases hq1 : q + 1 = lz0
    · have hf : Fork devs r q' := ⟨d, hd, dag, by rw [dq0, rq1]; decide⟩
      have := P.rule q' (Nat.zero_le _) hq' hf
      rw [rq1, if_neg (by omega)] at this
      simp at this
      omega
    · have a1 := dag q h
      have a2 := hagp q (by omega)
      rw [dq1, a2, pq0] at a1
      cases a1

/-! ## Enumeration of the devices by successive calls -/

theorem pairwise_probe_nodup {L : List (List Nat)} (h : L.Pairwise probe_lt) : L.Nodup := by
  refine h.imp ?_
  intro a b hab e
  subst e
  exact probe_lt_irrefl _ hab

theorem next_on_bus (H : Hal σ) (ow0 : mgos_onewire) (devs : List (List Nat))
    (view : σ → SimBus) (hbus : WiredAnd H ow0 devs view) (hne : ∃ d, d ∈ devs)
    (hval : ∀ d ∈ devs, rom_valid d) (ow : mgos_onewire) (hi : ow.pin_in = ow0.pin_in)
    (ho : ow.pin_out = ow0.pin_out) (hld : ow.sst.last_device = 0) (hwf : rom_wf ow.sst.rom)
    (buf : List Nat) (hbuf : buf.length = 8) (mode : Int) (s : σ) :
    ∃ (ow1 : mgos_onewire) (lz : Nat) (s1 : σ),
      mgos_onewire_next H (some ow) buf mode s = (true, some ow1, ow1.sst.rom, s1) ∧
      ow1.pin_in = ow0.pin_in ∧ ow1.pin_out = ow0.pin_out ∧
      ow1.sst.last_discrepancy = (lz : Int) ∧
      ow1.sst.last_device = (if lz = 0 then 1 else 0) ∧
      WalkPost devs ow.sst.rom ow.sst.last_discrepancy 0 0 ow1.sst.rom lz := by
  obtain ⟨ow1, lz, h1, h2, h3, h4, h5, P⟩ := search_on_bus H ow0 devs view hbus hne hval
    { ow with sst := { ow.sst with search_mode := mode } } hi ho hld hwf buf hbuf s
  refine ⟨ow1, lz,
    (onewire_search H { ow with sst := { ow.sst with search_mode := mode } } buf s).2.2.2,
    ?_, h2, h3, h4, h5, P⟩
  simp only [mgos_onewire_next]
  rw [h1]

theorem enumerate_rest (H : Hal σ) (ow0 : mgos_onewire) (devs : List (List Nat))
    (view : σ → SimBus) (hbus : WiredAnd H ow0 devs view) (hnd : devs.Nodup)
    (hval : ∀ d ∈ devs, rom_valid d) (mode : Int) :
    ∀ (m : Nat) (L : List (List Nat)) (ow : mgos_onewire) (lz : Nat) (buf : List Nat) (s : σ),
      ow.pin_in = ow0.pin_in → ow.pin_out = ow0.pin_out → ow.sst.rom ∈ devs →
      ow.sst.last_discrepancy = (lz : Int) → ow.sst.last_device = (if lz = 0 then 1 else 0) →
      Resume devs ow.sst.rom lz → buf.length = 8 →
      (∀ d ∈ L, d ∈ devs) → (∀ d ∈ L, d = ow.sst.rom ∨ probe_lt d ow.sst.rom) →
      (∀ d ∈ devs, d ∈ L ∨ probe_lt ow.sst.rom d) → L.Pairwise probe_lt →
      L.length + m = devs.length →
      ((next_calls H mode (m + 1) (some ow) buf s).1.map Prod.fst =
          List.replicate m true ++ [false]) ∧
        (L ++ ((next_calls H mode (m + 1) (some ow) buf s).1.take m).map Prod.snd).Perm devs ∧
        (L ++ ((next_calls H mode (m + 1) (some ow) buf s).1.take m).map
          Prod.snd).Pairwise probe_lt := by
  intro m
  induction m with
  | zero =>
    intro L ow lz buf s hi ho hc hlz hldev R hbuf I1 I2 I3 I4 I5
    have hLnd : L.Nodup := pairwise_probe_nodup I4
    have hperm : L.Perm devs :=
      (List.subperm_of_subset hLnd I1).perm_of_length_le (by omega)
    have hz : lz = 0 := by
      by_contra hne
      obtain ⟨d, hd, hlt⟩ := resume_pos_greater R (by omega)
      rcases I2 d (hperm.mem_iff.2 hd) with h | h
      · exact probe_lt_irrefl _ (h ▸ hlt)
      · exact probe_lt_asymm hlt h
    have hex : ow.sst.last_device ≠ 0 := by rw [hldev, if_pos hz]; decide
    have hnext : (mgos_onewire_next H (some ow) buf mode s).1 = false := by
      simp only [mgos_onewire_next]
      rw [onewire_search_exhausted H _ buf s (by simpa using hex)]
    simp only [next_calls, List.map_cons, List.map_nil, List.take_zero, List.append_nil,
      List.replicate_zero, List.nil_append, hnext]
    exact ⟨trivial, hperm, I4⟩
  | succ m ih =>
    intro L ow lz buf s hi ho hc hlz hldev R hbuf I1 I2 I3 I4 I5
    have hLnd : L.Nodup := pairwise_probe_nodup I4
    have hmiss : ∃ d, d ∈ devs ∧ d ∉ L := by
      by_contra hall
      have hsub : devs ⊆ L := fun d hd => by
        by_contra hn
        exact hall ⟨d, hd, hn⟩
      have := (List.subperm_of_subset hnd hsub).length_le
      omega
    obtain ⟨d0, hd0, hd0L⟩ := hmiss
    have hgt : probe_lt ow.sst.rom d0 := (I3 d0 hd0).resolve_left hd0L
    have hlzpos : 1 ≤ lz := by
      by_contra hne
      have hz : lz = 0 := by omega
      subst hz
      exact resume_zero_max R d0 hd0 hgt
    have hld0 : ow.sst.last_device = 0 := by rw [hldev, if_neg (by omega)]
    obtain ⟨ow1, lz1, s1, hcall, p1, p2, p3, p4, P⟩ := next_on_bus H ow0 devs view hbus
      ⟨d0, hd0⟩ hval ow hi ho hld0 (hval _ hc).1 buf hbuf mode s
    rw [hlz] at P
    obtain ⟨hlt, hbetween⟩ := walk_next hc R hlzpos P
    have J2 : ∀ d ∈ L ++ [ow1.sst.rom], d = ow1.sst.rom ∨ probe_lt d ow1.sst.rom := by
      intro d hd
      rcases List.mem_append.1 hd with h | h
      · rcases I2 d h with e | e
        · right; rw [e]; exact hlt
        · right; exact probe_lt_trans e hlt
      · left; simpa using h
    have J4 : (L ++ [ow1.sst.rom]).Pairwise probe_lt := by
      rw [List.pairwise_append]
      refine ⟨I4, List.pairwise_singleton _ _, fun a ha b hb => ?_⟩
      have hb1 : b = ow1.sst.rom := by simpa using hb
      subst hb1
      rcases I2 a ha with e | e
      · rw [e]; exact hlt
      · exact probe_lt_trans e hlt
    have J3 : ∀ d ∈ devs, d ∈ L ++ [ow1.sst.rom] ∨ probe_lt ow1.sst.rom d := by
      intro d hd
      rcases I3 d hd with h | h
      · left; exact List.mem_append_left _ h
      · by_cases hdr : d = ow1.sst.rom
        · left; rw [hdr]; simp
        · rcases probe_trichotomy (hval _ hd).1 (hval _ P.mem).1 hdr with e | e
          · exact absurd ⟨h, e⟩ (hbetween d hd)
          · right; exact e
    have J1 : ∀ d ∈ L ++ [ow1.sst.rom], d ∈ devs := by
      intro d hd
      rcases List.mem_append.1 hd with h | h
      · exact I1 d h
      · have : d = ow1.sst.rom := by simpa using h
        rw [this]; exact P.mem
    obtain ⟨r1, r2, r3⟩ := ih (L ++ [ow1.sst.rom]) ow1 lz1 ow1.sst.rom s1 p1 p2 P.mem p3 p4
      (walk_resume P) (hval _ P.mem).1.1 J1 J2 J3 J4 (by simp; omega)
    have hunf : next_calls H mode (m + 1 + 1) (some ow) buf s =
        ((true, ow1.sst.rom) :: (next_calls H mode (m + 1) (some ow1) ow1.sst.rom s1).1,
          (next_calls H mode (m + 1) (some ow1) ow1.sst.rom s1).2) := by
      rw [next_calls, hcall]
    rw [hunf]
    simp only [List.map_cons, List.take_succ_cons, r1]
    refine ⟨by simp [List.replicate_succ], ?_, ?_⟩
    · have := r2
      rwa [List.append_assoc, List.singleton_append] at this
    · have := r3
      rwa [List.append_assoc, List.singleton_append] at this

theorem sst_zero_wf : rom_wf sst_zero.rom := by
  refine ⟨rfl, fun b hb => ?_⟩
  have : b = 0 := by simpa [sst_zero] using hb
  omega

/-- C2: on a platform that behaves as a wired-AND bus carrying `N >= 1`
distinct devices with valid ROM codes (reset reports presence, the eight
command bits are consumed, each pair of reads shows the AND of the surviving
devices' address bits and of their complements, each direction bit written
drops the devices that differ), the first `N` calls of `mgos_onewire_next` from
a cleared cursor all return true, the addresses they return are the `N`
devices, each once, in ascending probe order (0 before 1 at the first bit that
differs, byte 0 bit 0 first), and the call after them returns false. -/
theorem search_enumerates (H : Hal σ) (ow : mgos_onewire) (devs : List (List Nat))
    (view : σ → SimBus) (mode : Int) (rom : List Nat) (s : σ)
    (hbus : WiredAnd H ow devs view) (hN : 1 ≤ devs.length) (hnd : devs.Nodup)
    (hval : ∀ d ∈ devs, rom_valid d) (hrom : rom.length = 8) :
    (next_calls H mode (devs.length + 1) (mgos_onewire_search_clean (some ow)) rom s).1.map
        Prod.fst = List.replicate devs.length true ++ [false] ∧
      (((next_calls H mode (devs.length + 1) (mgos_onewire_search_clean (some ow)) rom
        s).1.take devs.length).map Prod.snd).Perm devs ∧
      (((next_calls H mode (devs.length + 1) (mgos_onewire_search_clean (some ow)) rom
        s).1.take devs.length).map Prod.snd).Pairwise probe_lt := by
  obtain ⟨m, hm⟩ : ∃ m, devs.length = m + 1 := ⟨devs.length - 1, by omega⟩
  have hne : ∃ d, d ∈ devs := by
    cases devs with
    | nil => simp at hN
    | cons d _ => exact ⟨d, List.mem_cons_self _ _⟩
  obtain ⟨ow1, lz, s1, hcall, p1, p2, p3, p4, P⟩ := next_on_bus H ow devs view hbus hne hval
    { ow with sst := sst_zero } rfl rfl rfl sst_zero_wf rom hrom mode s
  have hfirst := walk_first P
  have I3 : ∀ d ∈ devs, d ∈ [ow1.sst.rom] ∨ probe_lt ow1.sst.rom d := by
    intro d hd
    by_cases hdr : d = ow1.sst.rom
    · left; rw [hdr]; simp
    · rcases probe_trichotomy (hval _ hd).1 (hval _ P.mem).1 hdr with e | e
      · exact absurd e (hfirst d hd)
      · right; exact e
  obtain ⟨r1, r2, r3⟩ := enumerate_rest H ow devs view hbus hnd hval mode m [ow1.sst.rom] ow1 lz
    ow1.sst.rom s1 p1 p2 P.mem p3 p4 (walk_resume P) (hval _ P.mem).1.1
    (fun d hd => by rw [List.mem_singleton.1 hd]; exact P.mem)
    (fun d hd => Or.inl (List.mem_singleton.1 hd)) I3 (List.pairwise_singleton _ _)
    (by simp; omega)
  have hunf : next_calls H mode (m + 1 + 1) (mgos_onewire_search_clean (some ow)) rom s =
      ((true, ow1.sst.rom) :: (next_calls H mode (m + 1) (some ow1) ow1.sst.rom s1).1,
        (next_calls H mode (m + 1) (some ow1) ow1.sst.rom s1).2) := by
    rw [next_calls, mgos_onewire_search_clean, hcall]
  rw [hm, hunf]
  simp only [List.map_cons, List.take_succ_cons, r1]
  exact ⟨by simp [List.replicate_succ], r2, r3⟩

/-! ## The simulated line is a wired-AND bus -/

theorem sim_wait (devs : List (List Nat)) (ow : mgos_onewire) (n : Nat) (l : SimLine)
    (hlow : l.low = none) (hex : ¬ (l.sample = true ∧ l.presence = true)) :
    (onewire_wait (simHal devs) ow (n + 3) l).1 = true ∧
      (onewire_wait (simHal devs) ow (n + 3) l).2.low = none := by
  obtain ⟨bus, low, sample, presence⟩ := l
  simp only at hlow hex
  subst hlow
  cases sample <;> cases presence <;> simp [onewire_wait, simHal] at hex ⊢

theorem sim_release_low (devs : List (List Nat)) (l : SimLine) :
    (l.release devs).low = none ∧
      ¬ ((l.release devs).sample = true ∧ (l.release devs).presence = true) := by
  obtain ⟨bus, low, sample, presence⟩ := l
  cases low with
  | none => simp [SimLine.release]
  | some t =>
    simp only [SimLine.release]
    split
    · simp
    · split
      · simp
      · split <;> simp

theorem sim_read_bit (devs : List (List Nat)) (ow : mgos_onewire) (l : SimLine) :
    (mgos_onewire_read_bit (simHal devs) (some ow) l).1 = l.bus.read.1 ∧
      (mgos_onewire_read_bit (simHal devs) (some ow) l).2.bus = l.bus.read.2 := by
  by_cases hp : ow.pin_in = ow.pin_out <;>
    simp [mgos_onewire_read_bit, onewire_prepare_input, onewire_prepare_output, hp, simHal,
      SimLine.release]

theorem sim_write_bit (devs : List (List Nat)) (ow : mgos_onewire) (bit : Int) (l : SimLine) :
    (mgos_onewire_write_bit (simHal devs) (some ow) bit l).bus =
      SimBus.write (decide (bit ≠ 0)) l.bus := by
  by_cases hp : ow.pin_in = ow.pin_out <;> by_cases hb : bit = 0 <;>
    simp [mgos_onewire_write_bit, onewire_prepare_input, onewire_prepare_output, hp, hb, simHal,
      SimLine.release]

theorem sim_reset (devs : List (List Nat)) (ow : mgos_onewire) (l : SimLine) :
    (mgos_onewire_reset (simHal devs) (some ow) l).1 = true ∧
      (mgos_onewire_reset (simHal devs) (some ow) l).2.bus = SimBus.reset devs := by
  have hrel := sim_release_low devs l
  have hw := sim_wait devs ow 122 (l.release devs) hrel.1 hrel.2
  have hprep : onewire_prepare_input (simHal devs) ow l = l.release devs := by
    by_cases hp : ow.pin_in = ow.pin_out <;> simp [onewire_prepare_input, hp, simHal]
  simp only [mgos_onewire_reset, hprep]
  rw [if_neg (by rw [hw.1]; decide)]
  generalize (onewire_wait (simHal devs) ow 125 (l.release devs)).2 = l1 at hw ⊢
  obtain ⟨bus, low, sample, presence⟩ := l1
  have hl : low = none := hw.2
  subst hl
  by_cases hp : ow.pin_in = ow.pin_out <;>
    simp [onewire_prepare_input, onewire_prepare_output, hp, simHal, SimLine.release]

theorem sim_wired (devs : List (List Nat)) (ow : mgos_onewire) :
    WiredAnd (simHal devs) ow devs (fun l => l.bus) where
  reset_presence := sim_reset devs ow
  read_and := sim_read_bit devs ow
  write_drop := fun l bit => sim_write_bit devs ow bit l

/-! ## A walk cut short by a bus error -/

theorem search_loop_split (H : Hal σ) (n : Nat) :
    ∀ (k : Nat) (ow : mgos_onewire) (v : search_vars) (s : σ),
      at_pos v k → k + n < 64 →
      (search_loop H n ow v s).2.1.id_bit_number = k + n + 1 →
      at_pos (search_loop H n ow v s).2.1 (k + n) ∧
        ∀ m, search_loop H (n + m) ow v s =
          search_loop H m (search_loop H n ow v s).1 (search_loop H n ow v s).2.1
            (search_loop H n ow v s).2.2 := by
  induction n with
  | zero => intro k ow v s hpos _ _; exact ⟨hpos, fun m => by simp [search_loop]⟩
  | succ n ih =>
    intro k ow v s hpos hk hid
    rcases search_body_cases H ow v s with ⟨-, -, hb⟩ | ⟨-, hb⟩
    · rw [search_loop, hb] at hid
      simp only at hid
      rw [hpos.1] at hid
      omega
    · obtain ⟨a1, a2, -⟩ := search_advance_pos ow v (mgos_onewire_read_bit H (some ow) s).1
        (mgos_onewire_read_bit H (some ow) (mgos_onewire_read_bit H (some ow) s).2).1 k hpos
        (by omega)
      have hlt := a2.2 (by omega)
      have hstep : ∀ j, search_loop H (j + 1) ow v s =
          search_loop H j (search_store ow v (mgos_onewire_read_bit H (some ow) s).1
              (mgos_onewire_read_bit H (some ow) (mgos_onewire_read_bit H (some ow) s).2).1)
            (search_advance ow v (mgos_onewire_read_bit H (some ow) s).1
              (mgos_onewire_read_bit H (some ow) (mgos_onewire_read_bit H (some ow) s).2).1)
            (mgos_onewire_write_bit H (some ow)
              (if search_dir ow v (mgos_onewire_read_bit H (some ow) s).1
                (mgos_onewire_read_bit H (some ow)
                  (mgos_onewire_read_bit H (some ow) s).2).1 then 1 else 0)
              (mgos_onewire_read_bit H (some ow)
                (mgos_onewire_read_bit H (some ow) s).2).2) := by
        intro j
        rw [search_loop, hb]
        simp only
        rw [if_pos hlt]
      rw [hstep n] at hid ⊢
      obtain ⟨i1, i2⟩ := ih (k + 1) _ _ _ a1 (by omega) (by rw [hid]; omega)
      refine ⟨by rw [show k + (n + 1) = k + 1 + n by omega]; exact i1, fun m => ?_⟩
      rw [show n + 1 + m = (n + m) + 1 by omega, hstep (n + m)]
      exact i2 m

theorem search_loop_break (H : Hal σ) (n : Nat) (ow : mgos_onewire) (v : search_vars) (s : σ)
    (h1 : (mgos_onewire_read_bit H (some ow) s).1 = true)
    (h2 : (mgos_onewire_read_bit H (some ow) (mgos_onewire_read_bit H (some ow) s).2).1 = true) :
    search_loop H (n + 1) ow v s =
      (ow, v, (mgos_onewire_read_bit H (some ow) (mgos_onewire_read_bit H (some ow) s).2).2) := by
  rcases search_body_cases H ow v s with ⟨-, -, hb⟩ | ⟨hn, -⟩
  · rw [search_loop, hb]
  · exact absurd ⟨h1, h2⟩ hn

/-- C8: with the exhausted flag clear and a reset that reports presence, when
the first `p - 1` address positions are walked without both bits reading 1 and
at position `p` (1..64) both bits read 1, `mgos_onewire_next` returns false,
the platform state is the one right after that pair of reads (no direction bit
is written at or after position `p`), the caller buffer is unchanged, and the
cursor has `last_device`, `last_discrepancy` and `last_family_discrepancy` 0. -/
theorem next_bus_error (H : Hal σ) (ow : mgos_onewire) (rom : List Nat) (mode : Int) (s : σ)
    (p : Nat) (hld : ow.sst.last_device = 0)
    (hr : (mgos_onewire_reset H (some ow) s).1 = true) (hp1 : 1 ≤ p) (hp2 : p ≤ 64)
    (hrun : (search_upto H { ow with sst := { ow.sst with search_mode := mode } } s
      (p - 1)).2.1.id_bit_number = p)
    (h11 : (mgos_onewire_read_bit H (some ow)
        (search_upto H { ow with sst := { ow.sst with search_mode := mode } } s
          (p - 1)).2.2).1 = true ∧
      (mgos_onewire_read_bit H (some ow) (mgos_onewire_read_bit H (some ow)
        (search_upto H { ow with sst := { ow.sst with search_mode := mode } } s
          (p - 1)).2.2).2).1 = true) :
    (mgos_onewire_next H (some ow) rom mode s).1 = false ∧
      (mgos_onewire_next H (some ow) rom mode s).2.2.1 = rom ∧
      (mgos_onewire_next H (some ow) rom mode s).2.2.2 =
        (mgos_onewire_read_bit H (some ow) (mgos_onewire_read_bit H (some ow)
          (search_upto H { ow with sst := { ow.sst with search_mode := mode } } s
            (p - 1)).2.2).2).2 ∧
      ∃ ow1, (mgos_onewire_next H (some ow) rom mode s).2.1 = some ow1 ∧
        ow1.sst.last_device = 0 ∧ ow1.sst.last_discrepancy = 0 ∧
        ow1.sst.last_family_discrepancy = 0 := by
  generalize hm : ({ ow with sst := { ow.sst with search_mode := mode } } : mgos_onewire)
    = owm at *
  have hi : owm.pin_in = ow.pin_in := by rw [← hm]
  have ho : owm.pin_out = ow.pin_out := by rw [← hm]
  have hldm : owm.sst.last_device = 0 := by rw [← hm]; exact hld
  have hrm : (mgos_onewire_reset H (some owm) s).1 = true := by
    rw [reset_pins H ow owm hi ho]; exact hr
  obtain ⟨-, hsplit⟩ := search_loop_split H (p - 1) 0 owm search_init
    (mgos_onewire_write H (some owm) (search_command owm)
      (mgos_onewire_reset H (some owm) s).2)
    (by simp [at_pos, search_init]) (by omega) (by
      have := hrun
      simp only [search_upto] at this
      rw [this]; omega)
  have hwalk : search_walk H owm (mgos_onewire_reset H (some owm) s).2 =
      search_loop H (64 - p + 1) (search_upto H owm s (p - 1)).1
        (search_upto H owm s (p - 1)).2.1 (search_upto H owm s (p - 1)).2.2 := by
    have := hsplit (64 - p + 1)
    rw [show p - 1 + (64 - p + 1) = 64 by omega] at this
    exact this
  obtain ⟨f1, f2, -, -, -⟩ := search_loop_fields H (p - 1) owm search_init
    (mgos_onewire_write H (some owm) (search_command owm)
      (mgos_onewire_reset H (some owm) s).2)
  have hpin1 : (search_upto H owm s (p - 1)).1.pin_in = ow.pin_in := f1.trans hi
  have hpin2 : (search_upto H owm s (p - 1)).1.pin_out = ow.pin_out := f2.trans ho
  have hrb : ∀ t, mgos_onewire_read_bit H (some (search_upto H owm s (p - 1)).1) t =
      mgos_onewire_read_bit H (some ow) t := read_bit_pins H ow _ hpin1 hpin2
  rw [search_loop_break H (64 - p) _ _ _ (by rw [hrb]; exact h11.1)
    (by rw [hrb, hrb]; exact h11.2), hrb, hrb] at hwalk
  have hsearch := onewire_search_walked H owm rom s hldm hrm
  rw [hwalk] at hsearch
  simp only at hsearch
  rw [if_pos (by rw [hrun]; omega), search_finish_false] at hsearch
  simp only [mgos_onewire_next]
  rw [hm, hsearch]
  exact ⟨rfl, rfl, rfl, _, rfl, rfl, rfl, rfl⟩

set_option maxRecDepth 100000 in
/-- Witness for C8: a line whose third address position reads 1 and 1. -/
theorem next_bus_error_witness :
    (mgos_onewire_next traceHal (some demo_handle) [1, 2, 3, 4, 5, 6, 7, 8] 0 glitch_line).1
        = false ∧
      (mgos_onewire_next traceHal (some demo_handle) [1, 2, 3, 4, 5, 6, 7, 8] 0
        glitch_line).2.2.1 = [1, 2, 3, 4, 5, 6, 7, 8] :=
  ⟨(next_bus_error traceHal demo_handle [1, 2, 3, 4, 5, 6, 7, 8] 0 glitch_line 3 rfl
      (by decide) (by decide) (by decide) (by decide) (by decide)).1,
    (next_bus_error traceHal demo_handle [1, 2, 3, 4, 5, 6, 7, 8] 0 glitch_line 3 rfl
      (by decide) (by decide) (by decide) (by decide) (by decide)).2.1⟩

/-! ## Family-targeted search -/

theorem byte0_of_bits {a : List Nat} {f : Nat} (ha : rom_wf a) (hf : f < 256)
    (h : ∀ i, i < 8 → rom_bit a i = f.testBit i) : a.getD 0 0 = f := by
  apply Nat.eq_of_testBit_eq
  intro m
  by_cases hm : m < 8
  · have := h m hm
    unfold rom_bit at this
    rw [show m / 8 = 0 by omega, show m % 8 = m by omega] at this
    exact this
  · have p : (256 : Nat) ≤ 2 ^ m :=
      le_trans (by decide : (256 : Nat) ≤ 2 ^ 8) (Nat.pow_le_pow_right (by decide) (by omega))
    rw [Nat.testBit_lt_two_pow (lt_of_lt_of_le (getD_lt_of_forall ha.2 0) p),
      Nat.testBit_lt_two_pow (lt_of_lt_of_le hf p)]

theorem target_rom_wf {f : Nat} (hf : f < 256) : rom_wf (sst_zero.rom.set 0 f) := by
  refine ⟨rfl, fun b hb => ?_⟩
  have : b = f ∨ b = 0 := by simpa [sst_zero] using hb
  rcases this with h | h <;> omega

theorem target_rom_bit (f i : Nat) (hi : i < 8) :
    rom_bit (sst_zero.rom.set 0 f) i = f.testBit i := by
  unfold rom_bit
  rw [show i / 8 = 0 by omega, show i % 8 = i by omega]
  rfl

/-- C4: `mgos_onewire_target_setup(ow, F)` leaves the cursor zero-filled except
address byte 0 = `F` and `last_discrepancy` = 64; and on a wired-AND bus whose
devices have valid ROM codes, one of them with family byte `F`, the call of
`mgos_onewire_next` that follows returns true with the address of a device on
the bus whose byte 0 is `F`. -/
theorem target_setup_finds_family (H : Hal σ) (ow : mgos_onewire) (devs : List (List Nat))
    (view : σ → SimBus) (mode : Int) (rom : List Nat) (s : σ) (family_code : Nat)
    (hbus : WiredAnd H ow devs view) (hval : ∀ d ∈ devs, rom_valid d) (hrom : rom.length = 8)
    (hcode : family_code < 256) (hfam : ∃ d, d ∈ devs ∧ d.getD 0 0 = family_code) :
    mgos_onewire_target_setup (some ow) family_code =
        some { ow with sst :=
          { search_mode := 0, last_device := 0, last_discrepancy := 64,
            last_family_discrepancy := 0, rom := [family_code, 0, 0, 0, 0, 0, 0, 0],
            crc8 := 0 } } ∧
      (mgos_onewire_next H (mgos_onewire_target_setup (some ow) family_code) rom mode s).1
        = true ∧
      (mgos_onewire_next H (mgos_onewire_target_setup (some ow) family_code) rom mode
        s).2.2.1 ∈ devs ∧
      (mgos_onewire_next H (mgos_onewire_target_setup (some ow) family_code) rom mode
        s).2.2.1.getD 0 0 = family_code := by
  obtain ⟨e, he, hef⟩ := hfam
  obtain ⟨ow1, lz, s1, hcall, -, -, -, -, P⟩ := next_on_bus H ow devs view hbus ⟨e, he⟩ hval
    { ow with sst := { sst_zero with rom := sst_zero.rom.set 0 family_code,
                                     last_discrepancy := 64 } }
    rfl rfl rfl (target_rom_wf hcode) rom hrom mode s
  have hset : mgos_onewire_target_setup (some ow) family_code =
      some { ow with sst := { sst_zero with rom := sst_zero.rom.set 0 family_code,
                                            last_discrepancy := 64 } } := rfl
  rw [hset, hcall]
  refine ⟨rfl, rfl, P.mem, ?_⟩
  have hebit : ∀ i, i < 8 → rom_bit e i = family_code.testBit i := by
    intro i hi
    unfold rom_bit
    rw [show i / 8 = 0 by omega, show i % 8 = i by omega, hef]
  have hag : ∀ j, j ≤ 8 → ∀ i, i < j → rom_bit ow1.sst.rom i = family_code.testBit i := by
    intro j
    induction j with
    | zero => intro _ i hi; omega
    | succ j ih =>
      intro hj i hi
      by_cases hij : i = j
      · subst hij
        by_cases hf : Fork devs ow1.sst.rom i
        · have := P.rule i (Nat.zero_le _) (by omega) hf
          rw [if_pos (by simp only; omega), target_rom_bit _ _ (by omega)] at this
          exact this
        · by_contra hne
          refine hf ⟨e, he, fun m hm => ?_, fun h => hne ?_⟩
          · rw [hebit m (by omega), ih (by omega) m hm]
          · rw [← h, hebit i (by omega)]
      · exact ih (by omega) i (by omega)
  exact byte0_of_bits (hval _ P.mem).1 hcode (hag 8 (le_refl _))

/-! ## The exhausted flag -/

theorem demo_devs_valid : ∀ d ∈ [rom_a, rom_b, rom_c], rom_valid d := by
  intro d hd
  simp only [List.mem_cons, List.mem_singleton, List.not_mem_nil, or_false] at hd
  rcases hd with rfl | rfl | rfl <;>
    exact ⟨⟨rfl, by decide⟩, by decide, by decide⟩

theorem rom_a_valid : ∀ d ∈ [rom_a], rom_valid d := fun d hd => by
  rw [List.mem_singleton.1 hd]
  exact demo_devs_valid rom_a (List.mem_cons_self _ _)

set_option maxRecDepth 1000000 in
/-- C5 refuted on a bus with the single device `rom_a`: the first call returns
the device and sets the exhausted flag, the call after it returns not-found but
leaves the flag clear, and the call after that returns the device again. -/
theorem exhausted_flag_cleared_by_next_call :
    (next_calls (simHal [rom_a]) 0 1 (some demo_handle) [0, 0, 0, 0, 0, 0, 0, 0]
        (sim_line [rom_a])).2.1.map (fun o => o.sst.last_device) = some 1 ∧
      (next_calls (simHal [rom_a]) 0 2 (some demo_handle) [0, 0, 0, 0, 0, 0, 0, 0]
        (sim_line [rom_a])).1 = [(true, rom_a), (false, rom_a)] ∧
      (next_calls (simHal [rom_a]) 0 2 (some demo_handle) [0, 0, 0, 0, 0, 0, 0, 0]
        (sim_line [rom_a])).2.1.map (fun o => o.sst.last_device) = some 0 ∧
      (next_calls (simHal [rom_a]) 0 3 (some demo_handle) [0, 0, 0, 0, 0, 0, 0, 0]
        (sim_line [rom_a])).1 = [(true, rom_a), (false, rom_a), (true, rom_a)] := by
  decide

/-- C5 as amended: a call of `mgos_onewire_next` on a cursor whose exhausted
flag is set returns not-found and leaves `last_device`, `last_discrepancy` and
`last_family_discrepancy` 0, so the flag does not stay set; on a wired-AND bus
with the single valid device `d` the first call from a cleared cursor returns
`d` and sets the flag, the second returns not-found and leaves the flag clear. -/
theorem exhausted_next_clears (H : Hal σ) (ow : mgos_onewire) (d : List Nat)
    (view : σ → SimBus) (mode : Int) (rom : List Nat) (s : σ)
    (hbus : WiredAnd H ow [d] view) (hval : rom_valid d) (hrom : rom.length = 8) :
    (∀ (c : mgos_onewire) (buf : List Nat) (t : σ), c.sst.last_device ≠ 0 →
        (mgos_onewire_next H (some c) buf mode t).1 = false ∧
        ∃ c1, (mgos_onewire_next H (some c) buf mode t).2.1 = some c1 ∧
          c1.sst.last_device = 0 ∧ c1.sst.last_discrepancy = 0 ∧
          c1.sst.last_family_discrepancy = 0) ∧
      (mgos_onewire_next H (mgos_onewire_search_clean (some ow)) rom mode s).1 = true ∧
      (mgos_onewire_next H (mgos_onewire_search_clean (some ow)) rom mode s).2.2.1 = d ∧
      (mgos_onewire_next H (mgos_onewire_search_clean (some ow)) rom mode s).2.1.map
        (fun o => o.sst.last_device) = some 1 ∧
      (next_calls H mode 2 (mgos_onewire_search_clean (some ow)) rom s).1 =
        [(true, d), (false, d)] ∧
      (next_calls H mode 2 (mgos_onewire_search_clean (some ow)) rom s).2.1.map
        (fun o => o.sst.last_device) = some 0 := by
  have hgen : ∀ (c : mgos_onewire) (buf : List Nat) (t : σ), c.sst.last_device ≠ 0 →
      mgos_onewire_next H (some c) buf mode t =
        (false, some (clear_flags { c with sst := { c.sst with search_mode := mode } }),
          buf, t) := by
    intro c buf t hc
    simp only [mgos_onewire_next]
    rw [onewire_search_exhausted H _ buf t (by simpa using hc)]
  have hvals : ∀ e ∈ [d], rom_valid e := fun e he => by
    rw [List.mem_singleton.1 he]; exact hval
  obtain ⟨ow1, lz, s1, hcall, -, -, -, p4, P⟩ := next_on_bus H ow [d] view hbus
    ⟨d, List.mem_singleton_self d⟩ hvals { ow with sst := sst_zero } rfl rfl rfl
    sst_zero_wf rom hrom mode s
  have hd : ow1.sst.rom = d := List.mem_singleton.1 P.mem
  have hlz : lz = 0 := by
    by_contra hne
    obtain ⟨e, he, hlt⟩ := resume_pos_greater (walk_resume P) (by omega)
    rw [List.mem_singleton.1 he, hd] at hlt
    exact probe_lt_irrefl _ hlt
  rw [if_pos hlz] at p4
  have hclean : mgos_onewire_search_clean (some ow) = some { ow with sst := sst_zero } := rfl
  have hsecond := hgen ow1 ow1.sst.rom s1 (by rw [p4]; decide)
  rw [hd] at hsecond hcall
  refine ⟨fun c buf t hc => ?_, ?_, ?_, ?_, ?_, ?_⟩
  · rw [hgen c buf t hc]
    exact ⟨rfl, _, rfl, rfl, rfl, rfl⟩
  · rw [hclean, hcall]
  · rw [hclean, hcall]
  · rw [hclean, hcall]; simp [p4]
  · simp only [next_calls, hclean, hcall, hsecond]
  · simp only [next_calls, hclean, hcall, hsecond]
    rfl

/-! ## Instances on the simulated line -/

/-- Witness for C2: three devices on the simulated line. -/
theorem search_enumerates_witness :
    (1 ≤ [rom_a, rom_b, rom_c].length ∧ [rom_a, rom_b, rom_c].Nodup) ∧
      (next_calls (simHal [rom_a, rom_b, rom_c]) 0 4
          (mgos_onewire_search_clean (some demo_handle)) [0, 0, 0, 0, 0, 0, 0, 0]
          (sim_line [rom_a, rom_b, rom_c])).1.map Prod.fst = [true, true, true, false] ∧
      (((next_calls (simHal [rom_a, rom_b, rom_c]) 0 4
          (mgos_onewire_search_clean (some demo_handle)) [0, 0, 0, 0, 0, 0, 0, 0]
          (sim_line [rom_a, rom_b, rom_c])).1.take 3).map Prod.snd).Perm
        [rom_a, rom_b, rom_c] ∧
      (((next_calls (simHal [rom_a, rom_b, rom_c]) 0 4
          (mgos_onewire_search_clean (some demo_handle)) [0, 0, 0, 0, 0, 0, 0, 0]
          (sim_line [rom_a, rom_b, rom_c])).1.take 3).map Prod.snd).Pairwise probe_lt :=
  ⟨⟨by decide, by decide⟩,
    search_enumerates (simHal [rom_a, rom_b, rom_c]) demo_handle [rom_a, rom_b, rom_c]
      (fun l => l.bus) 0 [0, 0, 0, 0, 0, 0, 0, 0] (sim_line [rom_a, rom_b, rom_c])
      (sim_wired _ _) (by decide) (by decide) demo_devs_valid rfl⟩

/-- Witness for C3: the first call on the simulated line with one device. -/
theorem next_publishes_only_valid_witness :
    ((mgos_onewire_next (simHal [rom_a]) (some demo_handle) [0, 0, 0, 0, 0, 0, 0, 0] 0
        (sim_line [rom_a])).1 = true →
      ∃ ow1, (mgos_onewire_next (simHal [rom_a]) (some demo_handle) [0, 0, 0, 0, 0, 0, 0, 0] 0
          (sim_line [rom_a])).2.1 = some ow1 ∧
        (mgos_onewire_next (simHal [rom_a]) (some demo_handle) [0, 0, 0, 0, 0, 0, 0, 0] 0
          (sim_line [rom_a])).2.2.1 = ow1.sst.rom ∧
        ow1.sst.rom.getD 0 0 ≠ 0 ∧
        ow1.sst.rom.getD 7 0 = mgos_onewire_crc8 ow1.sst.rom 7) ∧
    ((mgos_onewire_next (simHal [rom_a]) (some demo_handle) [0, 0, 0, 0, 0, 0, 0, 0] 0
        (sim_line [rom_a])).1 = false →
      (mgos_onewire_next (simHal [rom_a]) (some demo_handle) [0, 0, 0, 0, 0, 0, 0, 0] 0
        (sim_line [rom_a])).2.2.1 = [0, 0, 0, 0, 0, 0, 0, 0]) :=
  next_publishes_only_valid (simHal [rom_a]) demo_handle [0, 0, 0, 0, 0, 0, 0, 0] 0
    (sim_line [rom_a]) rfl rfl

/-- Witness for C4: family 0x28 among three devices on the simulated line. -/
theorem target_setup_finds_family_witness :
    (∃ d, d ∈ [rom_a, rom_b, rom_c] ∧ d.getD 0 0 = 0x28) ∧
      (mgos_onewire_next (simHal [rom_a, rom_b, rom_c])
        (mgos_onewire_target_setup (some demo_handle) 0x28) [0, 0, 0, 0, 0, 0, 0, 0] 0
        (sim_line [rom_a, rom_b, rom_c])).1 = true ∧
      (mgos_onewire_next (simHal [rom_a, rom_b, rom_c])
        (mgos_onewire_target_setup (some demo_handle) 0x28) [0, 0, 0, 0, 0, 0, 0, 0] 0
        (sim_line [rom_a, rom_b, rom_c])).2.2.1.getD 0 0 = 0x28 :=
  ⟨⟨rom_a, List.mem_cons_self _ _, rfl⟩,
    (target_setup_finds_family (simHal [rom_a, rom_b, rom_c]) demo_handle
      [rom_a, rom_b, rom_c] (fun l => l.bus) 0 [0, 0, 0, 0, 0, 0, 0, 0]
      (sim_line [rom_a, rom_b, rom_c]) 0x28 (sim_wired _ _) demo_devs_valid rfl (by decide)
      ⟨rom_a, List.mem_cons_self _ _, rfl⟩).2.1,
    (target_setup_finds_family (simHal [rom_a, rom_b, rom_c]) demo_handle
      [rom_a, rom_b, rom_c] (fun l => l.bus) 0 [0, 0, 0, 0, 0, 0, 0, 0]
      (sim_line [rom_a, rom_b, rom_c]) 0x28 (sim_wired _ _) demo_devs_valid rfl (by decide)
      ⟨rom_a, List.mem_cons_self _ _, rfl⟩).2.2.2⟩

/-- Witness for C5 as amended: one device on the simulated line. -/
theorem exhausted_next_clears_witness :
    (next_calls (simHal [rom_a]) 0 2 (mgos_onewire_search_clean (some demo_handle))
        [0, 0, 0, 0, 0, 0, 0, 0] (sim_line [rom_a])).1 = [(true, rom_a), (false, rom_a)] ∧
      (next_calls (simHal [rom_a]) 0 2 (mgos_onewire_search_clean (some demo_handle))
        [0, 0, 0, 0, 0, 0, 0, 0] (sim_line [rom_a])).2.1.map
          (fun o => o.sst.last_device) = some 0 :=
  (exhausted_next_clears (simHal [rom_a]) demo_handle rom_a (fun l => l.bus) 0
    [0, 0, 0, 0, 0, 0, 0, 0] (sim_line [rom_a]) (sim_wired _ _)
    (rom_a_valid rom_a (List.mem_singleton_self _)) rfl).2.2.2.2

/-- Witness for C9 on the ROM code `rom_a`. -/
theorem rom_check_single_bit_witness :
    rom_check rom_a = true ∧
      ∀ k, k < 56 →
        mgos_onewire_crc8 (flip_bit rom_a k) 7 ≠ rom_a.getD 7 0 ∧
        (flip_bit rom_a k).getD 7 0 = rom_a.getD 7 0 ∧
        rom_check (flip_bit rom_a k) = false :=
  rom_check_single_bit rom_a rfl (by decide) (by decide) (by decide)

/-! ## The iteration bounds of the loops are never the reason a loop stops -/

theorem search_loop_fuel (H : Hal σ) (n : Nat) :
    ∀ (k : Nat) (ow : mgos_onewire) (v : search_vars) (s : σ),
      at_pos v k → k < 64 → 64 ≤ k + n →
      search_loop H n ow v s = search_loop H (64 - k) ow v s := by
  induction n with
  | zero => intro k ow v s _ hk hn; omega
  | succ n ih =>
    intro k ow v s hpos hk hn
    obtain ⟨j, hj⟩ : ∃ j, 64 - k = j + 1 := ⟨63 - k, by omega⟩
    rw [hj]
    rcases search_body_cases H ow v s with ⟨-, -, hb⟩ | ⟨-, hb⟩
    · rw [search_loop, search_loop, hb]
    · obtain ⟨a1, a2, -⟩ := search_advance_pos ow v (mgos_onewire_read_bit H (some ow) s).1
        (mgos_onewire_read_bit H (some ow) (mgos_onewire_read_bit H (some ow) s).2).1 k hpos hk
      rw [search_loop, search_loop, hb]
      simp only
      by_cases hlt : k + 1 < 64
      · rw [if_pos (a2.2 hlt), if_pos (a2.2 hlt), ih (k + 1) _ _ _ a1 hlt (by omega),
          show j = 64 - (k + 1) by omega]
      · rw [if_neg (fun h => hlt (a2.1 h)), if_neg (fun h => hlt (a2.1 h))]

theorem search_walk_fuel (H : Hal σ) (ow : mgos_onewire) (s : σ) (extra : Nat) :
    search_loop H (64 + extra) ow search_init s = search_loop H 64 ow search_init s :=
  search_loop_fuel H (64 + extra) 0 ow search_init s (by simp [at_pos, search_init])
    (by omega) (by omega)

theorem write_loop_done (H : Hal σ) (ow : Option mgos_onewire) (data fuel : Nat) (s : σ) :
    write_loop H ow data fuel 0 s = s := by
  unfold write_loop
  simp

theorem read_loop_done (H : Hal σ) (ow : Option mgos_onewire) (fuel res : Nat) (s : σ) :
    read_loop H ow fuel 0 res s = (res, s) := by
  unfold read_loop
  simp

theorem write_loop_fuel (H : Hal σ) (ow : Option mgos_onewire) (data : Nat) (s : σ)
    (extra : Nat) :
    write_loop H ow data (8 + extra) 1 s = write_loop H ow data 8 1 s := by
  rw [show 8 + extra = extra + 1 + 1 + 1 + 1 + 1 + 1 + 1 + 1 by omega]
  simp [write_loop, Nat.shiftLeft_eq, write_loop_done]

theorem read_loop_fuel (H : Hal σ) (ow : Option mgos_onewire) (s : σ) (extra : Nat) :
    read_loop H ow (8 + extra) 1 0 s = read_loop H ow 8 1 0 s := by
  rw [show 8 + extra = extra + 1 + 1 + 1 + 1 + 1 + 1 + 1 + 1 by omega]
  simp [read_loop, Nat.shiftLeft_eq, read_loop_done]

/-! ## Byte framing -/

theorem mask_test (i data : Nat) : (2 ^ i &&& data ≠ 0) ↔ data.testBit i = true := by
  rw [Nat.land_comm, Nat.and_two_pow]
  cases h : data.testBit i <;> simp

theorem bit_arg (i data : Nat) :
    (if 2 ^ i &&& data ≠ 0 then (1 : Int) else 0) = if data.testBit i = true then 1 else 0 := by
  by_cases h : data.testBit i = true
  · rw [if_pos h, if_pos ((mask_test i data).2 h)]
  · rw [if_neg h, if_neg (fun c => h ((mask_test i data).1 c))]

theorem write_as_bits (H : Hal σ) (ow : Option mgos_onewire) (data : Nat) (s : σ) :
    mgos_onewire_write H ow data s = write_bits H ow (byte_bits data) s := by
  rw [write_byte_bits]
  have h0 := bit_arg 0 data; have h1 := bit_arg 1 data; have h2 := bit_arg 2 data
  have h3 := bit_arg 3 data; have h4 := bit_arg 4 data; have h5 := bit_arg 5 data
  have h6 := bit_arg 6 data; have h7 := bit_arg 7 data
  simp only [Nat.reducePow] at h0 h1 h2 h3 h4 h5 h6 h7
  rw [h0, h1, h2, h3, h4, h5, h6, h7]
  rfl

theorem read_loop_sum (H : Hal σ) (ow : Option mgos_onewire) (n : Nat) :
    ∀ (i res : Nat) (s : σ), i + n = 8 → res < 2 ^ i →
      read_loop H ow n (if i < 8 then 2 ^ i else 0) res s =
        (res + bits_sum i (read_bits H ow n s).1, (read_bits H ow n s).2) := by
  induction n with
  | zero =>
    intro i res s hi _
    rw [if_neg (by omega), read_loop_done]
    rfl
  | succ n ih =>
    intro i res s hi hres
    have hi8 : i < 8 := by omega
    have hpos : (2 : Nat) ^ i ≠ 0 := by positivity
    have hnext : (2 ^ i <<< 1) % 256 = if i + 1 < 8 then 2 ^ (i + 1) else 0 := by
      have : i = 0 ∨ i = 1 ∨ i = 2 ∨ i = 3 ∨ i = 4 ∨ i = 5 ∨ i = 6 ∨ i = 7 := by omega
      rcases this with h | h | h | h | h | h | h | h <;> subst h <;> rfl
    rw [if_pos hi8, read_loop, if_neg hpos]
    simp only [hnext, read_bits]
    cases hb : (mgos_onewire_read_bit H ow s).1
    · simp only [Bool.false_eq_true, if_false]
      rw [ih (i + 1) res _ (by omega) (lt_trans hres (Nat.pow_lt_pow_right (by decide)
        (by omega)))]
      simp [bits_sum]
    · simp only [if_true]
      have hor : res ||| 2 ^ i = 2 ^ i + res := by
        have := Nat.mul_add_lt_is_or hres 1
        rw [Nat.mul_one] at this
        rw [this, Nat.lor_comm]
      have hlt : res ||| 2 ^ i < 2 ^ (i + 1) := by
        rw [hor, Nat.pow_succ]; omega
      rw [ih (i + 1) _ _ (by omega) hlt, hor]
      simp only [bits_sum, if_true, Prod.mk.injEq, and_true]
      omega

theorem read_as_bits (H : Hal σ) (ow : Option mgos_onewire) (s : σ) :
    mgos_onewire_read H ow s = (bits_value (read_bits H ow 8 s).1, (read_bits H ow 8 s).2) := by
  have := read_loop_sum H ow 8 0 0 s rfl (by decide)
  simpa [mgos_onewire_read, bits_value] using this

theorem read_bits_length (H : Hal σ) (ow : Option mgos_onewire) (n : Nat) :
    ∀ s, (read_bits H ow n s).1.length = n := by
  induction n with
  | zero => intro s; rfl
  | succ n ih => intro s; simp [read_bits, ih]

set_option maxRecDepth 100000 in
theorem bits_value_testBit : ∀ b, b < 256 → bits_value ((List.range 8).map b.testBit) = b := by
  decide

theorem write_bytes_loop_fold (H : Hal σ) (ow : Option mgos_onewire) (buf : List Nat)
    (n : Nat) : ∀ (i : Nat) (s : σ),
      write_bytes_loop H ow buf n i s =
        ((List.range n).map (fun j => i + j)).foldl
          (fun t j => mgos_onewire_write H ow (buf.getD j 0) t) s := by
  induction n with
  | zero => intro i s; rfl
  | succ n ih =>
    intro i s
    rw [write_bytes_loop, ih, List.range_succ_eq_map]
    simp only [List.map_cons, List.map_map, List.foldl_cons, Nat.add_zero]
    congr 1
    apply List.map_congr_left
    intro j _
    simp only [Function.comp, Nat.succ_eq_add_one]
    omega

theorem read_bytes_loop_fold (H : Hal σ) (ow : Option mgos_onewire) (n : Nat) :
    ∀ (i : Nat) (buf : List Nat) (s : σ),
      read_bytes_loop H ow n i buf s =
        ((List.range n).map (fun j => i + j)).foldl
          (fun (t : List Nat × σ) j =>
            (t.1.set j (mgos_onewire_read H ow t.2).1, (mgos_onewire_read H ow t.2).2))
          (buf, s) := by
  induction n with
  | zero => intro i buf s; rfl
  | succ n ih =>
    intro i buf s
    rw [read_bytes_loop, ih, List.range_succ_eq_map]
    simp only [List.map_cons, List.map_map, List.foldl_cons, Nat.add_zero]
    congr 1
    apply List.map_congr_left
    intro j _
    simp only [Function.comp, Nat.succ_eq_add_one]
    omega

/-- C11: for every platform and byte `b`, `mgos_onewire_write` is exactly the
eight `mgos_onewire_write_bit` calls carrying bits 0..7 of `b` in that order,
and its loop stops because the mask wraps to 0, not because of the iteration
bound; `mgos_onewire_read` is exactly eight `mgos_onewire_read_bit` calls and
returns the sum of `sample_i * 2^i`, so that samples equal to the bits of a
byte `b` read back as `b`; `mgos_onewire_write_bytes` and
`mgos_onewire_read_bytes` of length `len` are the byte operations for the
indices 0, 1, ..., `len - 1` in that order. -/
theorem byte_framing (H : Hal σ) (ow : Option mgos_onewire) (b extra : Nat)
    (buf : List Nat) (len : Int) (s : σ) :
    (mgos_onewire_write H ow b s = write_bits H ow (byte_bits b) s ∧
        byte_bits b = [if b.testBit 0 then 1 else 0, if b.testBit 1 then 1 else 0,
          if b.testBit 2 then 1 else 0, if b.testBit 3 then 1 else 0,
          if b.testBit 4 then 1 else 0, if b.testBit 5 then 1 else 0,
          if b.testBit 6 then 1 else 0, if b.testBit 7 then 1 else 0]) ∧
      (write_loop H ow b (8 + extra) 1 s = mgos_onewire_write H ow b s ∧
        write_loop H ow b extra ((128 <<< 1) % 256) s = s) ∧
      (mgos_onewire_read H ow s =
          (bits_value (read_bits H ow 8 s).1, (read_bits H ow 8 s).2) ∧
        (read_bits H ow 8 s).1.length = 8 ∧
        read_loop H ow (8 + extra) 1 0 s = mgos_onewire_read H ow s) ∧
      (b < 256 → (read_bits H ow 8 s).1 = (List.range 8).map b.testBit →
        (mgos_onewire_read H ow s).1 = b) ∧
      mgos_onewire_write_bytes H ow buf len s =
        (List.range len.toNat).foldl
          (fun t j => mgos_onewire_write H ow (buf.getD j 0) t) s ∧
      mgos_onewire_read_bytes H ow buf len s =
        (List.range len.toNat).foldl
          (fun (t : List Nat × σ) j =>
            (t.1.set j (mgos_onewire_read H ow t.2).1, (mgos_onewire_read H ow t.2).2))
          (buf, s) := by
  refine ⟨⟨write_as_bits H ow b s, rfl⟩, ⟨write_loop_fuel H ow b s extra,
    write_loop_done H ow b extra s⟩, ⟨read_as_bits H ow s, read_bits_length H ow 8 s,
    read_loop_fuel H ow s extra⟩, ?_, ?_, ?_⟩
  · intro hb hs
    rw [read_as_bits, hs]
    exact bits_value_testBit b hb
  · have := write_bytes_loop_fold H ow buf len.toNat 0 s
    simpa [mgos_onewire_write_bytes] using this
  · have := read_bytes_loop_fold H ow len.toNat 0 buf s
    simpa [mgos_onewire_read_bytes] using this

set_option maxRecDepth 100000 in
/-- Witness for C11: the samples of `echo_line` are the bits of 0xA5. -/
theorem byte_framing_witness :
    (read_bits traceHal (some demo_handle) 8 echo_line).1 =
        (List.range 8).map (Nat.testBit 0xA5) ∧
      (mgos_onewire_read traceHal (some demo_handle) echo_line).1 = 0xA5 :=
  ⟨by decide,
    (byte_framing traceHal (some demo_handle) 0xA5 0 [] 0 echo_line).2.2.2.1 (by decide)
      (by decide)⟩

/-! ## Select and skip -/

theorem write_bits_append (H : Hal σ) (ow : Option mgos_onewire) (a b : List Int) (s : σ) :
    write_bits H ow (a ++ b) s = write_bits H ow b (write_bits H ow a s) := by
  simp [write_bits, List.foldl_append]

theorem byte_bits_length (b : Nat) : (byte_bits b).length = 8 := by
  simp [byte_bits]

theorem write_bit_no_read (ow : mgos_onewire) (bit : Int) (l : Line) :
    reads_in (mgos_onewire_write_bit traceHal (some ow) bit l).trace = reads_in l.trace := by
  by_cases hp : ow.pin_in = ow.pin_out <;>
    simp [mgos_onewire_write_bit, onewire_prepare_output, hp, traceHal, reads_in]

theorem write_bits_no_read (ow : mgos_onewire) (bits : List Int) :
    ∀ l : Line, reads_in (write_bits traceHal (some ow) bits l).trace = reads_in l.trace := by
  induction bits with
  | nil => intro l; rfl
  | cons b bs ih =>
    intro l
    simp only [write_bits, List.foldl_cons] at ih ⊢
    rw [ih, write_bit_no_read]

/-- C12: for every platform, non-NULL handle and ROM buffer,
`mgos_onewire_select` is exactly 72 `mgos_onewire_write_bit` calls and nothing
else: the bits of 0x55 (1,0,1,0,1,0,1,0, bit 0 first) followed by the bits of
`rom[0]`, ..., `rom[7]` in that order, each bit 0 first; `mgos_onewire_skip` is
exactly the eight calls for 0xCC (0,0,1,1,0,0,1,1).  Both return only the
platform state: the handle and its search cursor are not written.  On the
recording platform no pin read is added to the trace. -/
theorem select_skip_bits (H : Hal σ) (ow : mgos_onewire) (rom : List Nat) (s : σ)
    (l : Line) :
    mgos_onewire_select H (some ow) rom s = write_bits H (some ow) (select_bits rom) s ∧
      (select_bits rom).length = 72 ∧
      select_bits rom = [1, 0, 1, 0, 1, 0, 1, 0] ++ byte_bits (rom.getD 0 0) ++
        byte_bits (rom.getD 1 0) ++ byte_bits (rom.getD 2 0) ++ byte_bits (rom.getD 3 0) ++
        byte_bits (rom.getD 4 0) ++ byte_bits (rom.getD 5 0) ++ byte_bits (rom.getD 6 0) ++
        byte_bits (rom.getD 7 0) ∧
      mgos_onewire_skip H (some ow) s = write_bits H (some ow) [0, 0, 1, 1, 0, 0, 1, 1] s ∧
      reads_in (mgos_onewire_select traceHal (some ow) rom l).trace = reads_in l.trace ∧
      reads_in (mgos_onewire_skip traceHal (some ow) l).trace = reads_in l.trace := by
  have hsel : ∀ (K : Hal σ) (t : σ), mgos_onewire_select K (some ow) rom t =
      write_bits K (some ow) (select_bits rom) t := by
    intro K t
    simp only [mgos_onewire_select, write_bytes_loop, write_as_bits, select_bits,
      write_bits_append]
  have hsel1 : mgos_onewire_select traceHal (some ow) rom l =
      write_bits traceHal (some ow) (select_bits rom) l := by
    simp only [mgos_onewire_select, write_bytes_loop, write_as_bits, select_bits,
      write_bits_append]
  refine ⟨hsel H s, ?_, rfl, ?_, ?_, ?_⟩
  · simp only [select_bits, List.length_append, byte_bits_length]
  · simp only [mgos_onewire_skip, write_as_bits]
    rfl
  · rw [hsel1, write_bits_no_read]
  · simp only [mgos_onewire_skip, write_as_bits, write_bits_no_read]

/-! ## A search from a cursor with `last_discrepancy` 0 ignores the stored address -/

theorem search_loop_wf (H : Hal σ) (n : Nat) :
    ∀ (k : Nat) (ow : mgos_onewire) (v : search_vars) (s : σ),
      at_pos v k → k < 64 → rom_wf ow.sst.rom →
      rom_wf (search_loop H n ow v s).1.sst.rom := by
  induction n with
  | zero => intro k ow v s _ _ h; exact h
  | succ n ih =>
    intro k ow v s hpos hk hwf
    rcases search_body_cases H ow v s with ⟨-, -, hb⟩ | ⟨-, hb⟩
    · rw [search_loop, hb]; exact hwf
    · obtain ⟨a1, a2, -⟩ := search_advance_pos ow v (mgos_onewire_read_bit H (some ow) s).1
        (mgos_onewire_read_bit H (some ow) (mgos_onewire_read_bit H (some ow) s).2).1 k hpos hk
      obtain ⟨w1, -⟩ := search_store_rom ow v (mgos_onewire_read_bit H (some ow) s).1
        (mgos_onewire_read_bit H (some ow) (mgos_onewire_read_bit H (some ow) s).2).1 k hpos
        hk hwf
      rw [search_loop, hb]
      simp only
      split
      · rename_i hlt
        exact ih (k + 1) _ _ _ a1 (a2.1 hlt) w1
      · exact w1

theorem onewire_search_wf (H : Hal σ) (ow : mgos_onewire) (buf : List Nat) (s : σ)
    (hwf : rom_wf ow.sst.rom) : rom_wf (onewire_search H ow buf s).2.1.sst.rom := by
  have hloop : ∀ t, rom_wf (search_walk H ow t).1.sst.rom := fun t =>
    search_loop_wf H 64 0 ow search_init _ (by simp [at_pos, search_init]) (by omega) hwf
  by_cases h : ow.sst.last_device = 0
  · cases hr : (mgos_onewire_reset H (some ow) s).1
    · rw [onewire_search_no_presence H ow buf s h hr]; exact hwf
    · rw [onewire_search_walked H ow buf s h hr]
      simp only
      split
      · rw [search_finish_false]; exact hloop _
      · rcases search_finish_cases (search_commit
          (search_walk H ow (mgos_onewire_reset H (some ow) s).2).1
          (search_walk H ow (mgos_onewire_reset H (some ow) s).2).2.1) true buf
          with ⟨hf, -, -⟩ | ⟨hf, -⟩
        · rw [hf]; exact hloop _
        · rw [hf]; exact hloop _
  · rw [onewire_search_exhausted H ow buf s h]; exact hwf

theorem search_dir_fresh (a b : mgos_onewire) (v : search_vars) (x y : Bool)
    (ha : a.sst.last_discrepancy = 0) (hb : b.sst.last_discrepancy = 0) :
    search_dir a v x y = search_dir b v x y := by
  have h1 : ¬ ((v.id_bit_number : Int) < 0) := by omega
  simp only [search_dir, ha, hb, if_neg h1]

theorem search_loop_fresh (H : Hal σ) (n : Nat) :
    ∀ (k : Nat) (a b : mgos_onewire) (v : search_vars) (s : σ),
      at_pos v k → k + n = 64 →
      a.pin_in = b.pin_in → a.pin_out = b.pin_out →
      a.sst.last_discrepancy = 0 → b.sst.last_discrepancy = 0 →
      a.sst.last_family_discrepancy = b.sst.last_family_discrepancy →
      rom_wf a.sst.rom → rom_wf b.sst.rom → agree_below a.sst.rom b.sst.rom k →
      (search_loop H n a v s).2 = (search_loop H n b v s).2 ∧
        (search_loop H n a v s).1.sst.last_family_discrepancy =
          (search_loop H n b v s).1.sst.last_family_discrepancy ∧
        (¬ (search_loop H n a v s).2.1.id_bit_number < 65 →
          (search_loop H n a v s).1.sst.rom = (search_loop H n b v s).1.sst.rom) := by
  induction n with
  | zero =>
    intro k a b v s _ hk _ _ _ _ hl wa wb hag
    have : k = 64 := by omega
    subst this
    exact ⟨rfl, hl, fun _ => rom_ext wa wb hag⟩
  | succ n ih =>
    intro k a b v s hpos hk hi ho ha hb hl wa wb hag
    have hk64 : k < 64 := by omega
    have hrb : ∀ t, mgos_onewire_read_bit H (some a) t = mgos_onewire_read_bit H (some b) t :=
      read_bit_pins H b a hi ho
    have hwb : ∀ bit t, mgos_onewire_write_bit H (some a) bit t =
        mgos_onewire_write_bit H (some b) bit t := fun bit t => write_bit_pins H b a hi ho bit t
    have hba := search_body_cases H a v s
    have hbb := search_body_cases H b v s
    simp only [hrb] at hba
    simp only at hbb
    generalize hx : (mgos_onewire_read_bit H (some b) s).1 = x at *
    generalize hy : (mgos_onewire_read_bit H (some b)
      (mgos_onewire_read_bit H (some b) s).2).1 = y at *
    have hdir : search_dir a v x y = search_dir b v x y :=
      search_dir_fresh a b v x y ha hb
    have hzero : search_zero a v x y = search_zero b v x y := by
      simp only [search_zero, hdir]
    have hadv : search_advance a v x y = search_advance b v x y := by
      simp only [search_advance, hzero]
    rcases hba with ⟨c1, c2, ea⟩ | ⟨hn, ea⟩
    · rcases hbb with ⟨-, -, eb⟩ | ⟨hn, -⟩
      · rw [search_loop, search_loop, ea, eb]
        refine ⟨rfl, hl, fun h => ?_⟩
        simp only at h
        rw [hpos.1] at h
        omega
      · exact absurd ⟨c1, c2⟩ hn
    · rcases hbb with ⟨c1, c2, -⟩ | ⟨-, eb⟩
      · exact absurd ⟨c1, c2⟩ hn
      · obtain ⟨a1, a2, -⟩ := search_advance_pos b v x y k hpos hk64
        obtain ⟨wa1, ba1⟩ := search_store_rom a v x y k hpos hk64 wa
        obtain ⟨wb1, bb1⟩ := search_store_rom b v x y k hpos hk64 wb
        obtain ⟨-, fa1, fa2, fa3, -, -⟩ := search_store_fields a v x y
        obtain ⟨-, fb1, fb2, fb3, -, -⟩ := search_store_fields b v x y
        have hag1 : agree_below (search_store a v x y).sst.rom (search_store b v x y).sst.rom
            (k + 1) := by
          intro j hj
          rw [ba1 j, bb1 j, hdir]
          by_cases hjk : j = k
          · rw [if_pos hjk, if_pos hjk]
          · rw [if_neg hjk, if_neg hjk]; exact hag j (by omega)
        have hl1 : (search_store a v x y).sst.last_family_discrepancy =
            (search_store b v x y).sst.last_family_discrepancy := by
          simp only [search_store, hzero, hl]
        rw [search_loop, search_loop, ea, eb, hadv, hdir, hwb]
        simp only
        by_cases hlt : k + 1 < 64
        · simp only [a2.2 hlt, ↓reduceIte]
          exact ih (k + 1) _ _ _ _ a1 (by omega) (fa1.trans (hi.trans fb1.symm))
            (fa2.trans (ho.trans fb2.symm)) (fa3.trans ha) (fb3.trans hb) hl1 wa1 wb1 hag1
        · simp only [show ¬ (search_advance b v x y).rom_byte_number < 8 from
            fun h => hlt (a2.1 h), ↓reduceIte]
          have hk63 : k + 1 = 64 := by omega
          refine ⟨trivial, hl1, fun _ => rom_ext wa1 wb1 ?_⟩
          rw [← hk63]; exact hag1

theorem write_pins (H : Hal σ) (ow ow1 : mgos_onewire) (hi : ow1.pin_in = ow.pin_in)
    (ho : ow1.pin_out = ow.pin_out) (data : Nat) (s : σ) :
    mgos_onewire_write H (some ow1) data s = mgos_onewire_write H (some ow) data s := by
  simp only [write_byte_bits, write_bit_pins H ow ow1 hi ho]

theorem onewire_search_fresh (H : Hal σ) (a b : mgos_onewire) (buf : List Nat) (s : σ)
    (hi : a.pin_in = b.pin_in) (ho : a.pin_out = b.pin_out)
    (hm : a.sst.search_mode = b.sst.search_mode)
    (hda : a.sst.last_device = 0) (hdb : b.sst.last_device = 0)
    (ha : a.sst.last_discrepancy = 0) (hb : b.sst.last_discrepancy = 0)
    (hl : a.sst.last_family_discrepancy = b.sst.last_family_discrepancy)
    (wa : rom_wf a.sst.rom) (wb : rom_wf b.sst.rom) :
    (onewire_search H a buf s).1 = (onewire_search H b buf s).1 ∧
      (onewire_search H a buf s).2.2 = (onewire_search H b buf s).2.2 ∧
      (onewire_search H a buf s).2.1.sst.last_discrepancy =
        (onewire_search H b buf s).2.1.sst.last_discrepancy ∧
      (onewire_search H a buf s).2.1.sst.last_family_discrepancy =
        (onewire_search H b buf s).2.1.sst.last_family_discrepancy ∧
      (onewire_search H a buf s).2.1.sst.last_device =
        (onewire_search H b buf s).2.1.sst.last_device := by
  have hreset : mgos_onewire_reset H (some a) s = mgos_onewire_reset H (some b) s :=
    reset_pins H b a hi ho s
  cases hr : (mgos_onewire_reset H (some b) s).1
  · rw [onewire_search_no_presence H a buf s hda (by rw [hreset]; exact hr),
      onewire_search_no_presence H b buf s hdb hr, hreset]
    exact ⟨rfl, rfl, rfl, rfl, rfl⟩
  · rw [onewire_search_walked H a buf s hda (by rw [hreset]; exact hr),
      onewire_search_walked H b buf s hdb hr, hreset]
    have hcmd : search_command a = search_command b := by simp only [search_command, hm]
    have hwalk : ∀ t, (search_walk H a t).2 = (search_walk H b t).2 ∧
        (search_walk H a t).1.sst.last_family_discrepancy =
          (search_walk H b t).1.sst.last_family_discrepancy ∧
        (¬ (search_walk H a t).2.1.id_bit_number < 65 →
          (search_walk H a t).1.sst.rom = (search_walk H b t).1.sst.rom) := by
      intro t
      simp only [search_walk, hcmd, write_pins H b a hi ho]
      exact search_loop_fresh H 64 0 a b search_init _ (by simp [at_pos, search_init]) rfl
        hi ho ha hb hl wa wb (fun j hj => absurd hj (by omega))
    have hfa := search_loop_fields H 64 a search_init
      (mgos_onewire_write H (some a) (search_command a) (mgos_onewire_reset H (some b) s).2)
    have hfb := search_loop_fields H 64 b search_init
      (mgos_onewire_write H (some b) (search_command b) (mgos_onewire_reset H (some b) s).2)
    obtain ⟨w1, w2, w3⟩ := hwalk (mgos_onewire_reset H (some b) s).2
    simp only [search_walk] at w1 w2 w3 ⊢
    generalize search_loop H 64 a search_init
      (mgos_onewire_write H (some a) (search_command a) (mgos_onewire_reset H (some b) s).2)
      = la at *
    generalize search_loop H 64 b search_init
      (mgos_onewire_write H (some b) (search_command b) (mgos_onewire_reset H (some b) s).2)
      = lb at *
    obtain ⟨oa, va, ta⟩ := la
    obtain ⟨ob, vb, tb⟩ := lb
    simp only [Prod.mk.injEq] at w1
    obtain ⟨rfl, rfl⟩ := w1
    simp only at w2 w3 hfa hfb ⊢
    by_cases hlt : va.id_bit_number < 65
    · simp only [hlt, ↓reduceIte, search_finish_false]
      exact ⟨trivial, trivial, rfl, rfl, rfl⟩
    · simp only [hlt, ↓reduceIte]
      have hrom : oa.sst.rom = ob.sst.rom := w3 hlt
      have hdev : oa.sst.last_device = ob.sst.last_device := by
        rw [hfa.2.2.2.1, hfb.2.2.2.1, hda, hdb]
      rcases search_finish_cases (search_commit oa va) true buf with ⟨fa, -, ca⟩ | ⟨fa, ca⟩
      · have cb : rom_check (search_commit ob va).sst.rom = true := by
          have : (search_commit ob va).sst.rom = (search_commit oa va).sst.rom := hrom.symm
          rw [this]; exact ca
        have fb : search_finish (search_commit ob va) true buf =
            (true, search_commit ob va, copy_rom (search_commit ob va).sst.rom buf) := by
          simp only [search_finish, cb, Bool.and_self, if_true]
        rw [fa, fb]
        refine ⟨rfl, ?_, rfl, w2, ?_⟩
        · show (copy_rom oa.sst.rom buf, ta) = (copy_rom ob.sst.rom buf, ta)
          rw [hrom]
        · show (if va.last_zero = 0 then 1 else oa.sst.last_device) =
            (if va.last_zero = 0 then 1 else ob.sst.last_device)
          rw [hdev]
      · have cb : rom_check (search_commit ob va).sst.rom = false := by
          have : (search_commit ob va).sst.rom = (search_commit oa va).sst.rom := hrom.symm
          rw [this]
          rcases ca with h | h
          · cases h
          · exact h
        have fb : search_finish (search_commit ob va) true buf =
            (false, clear_flags (search_commit ob va), buf) := by
          simp only [search_finish, cb, Bool.and_false, Bool.false_eq_true, if_false]
        rw [fa, fb]
        exact ⟨rfl, rfl, rfl, rfl, rfl⟩

theorem onewire_search_pins (H : Hal σ) (ow : mgos_onewire) (buf : List Nat) (s : σ) :
    (onewire_search H ow buf s).2.1.pin_in = ow.pin_in ∧
      (onewire_search H ow buf s).2.1.pin_out = ow.pin_out := by
  have hloop : ∀ t, (search_walk H ow t).1.pin_in = ow.pin_in ∧
      (search_walk H ow t).1.pin_out = ow.pin_out := fun t =>
    ⟨(search_loop_fields H 64 ow search_init _).1, (search_loop_fields H 64 ow search_init _).2.1⟩
  by_cases h : ow.sst.last_device = 0
  · cases hr : (mgos_onewire_reset H (some ow) s).1
    · rw [onewire_search_no_presence H ow buf s h hr]; exact ⟨rfl, rfl⟩
    · rw [onewire_search_walked H ow buf s h hr]
      simp only
      split
      · rw [search_finish_false]; exact hloop _
      · rcases search_finish_cases (search_commit
          (search_walk H ow (mgos_onewire_reset H (some ow) s).2).1
          (search_walk H ow (mgos_onewire_reset H (some ow) s).2).2.1) true buf
          with ⟨hf, -, -⟩ | ⟨hf, -⟩
        · rw [hf]; exact hloop _
        · rw [hf]; exact hloop _
  · rw [onewire_search_exhausted H ow buf s h]; exact ⟨rfl, rfl⟩

theorem next_failed_cursor (H : Hal σ) (c : mgos_onewire) (rom : List Nat) (mode : Int) (s : σ)
    (hwf : rom_wf c.sst.rom) (hfail : (mgos_onewire_next H (some c) rom mode s).1 = false) :
    ∃ c1, (mgos_onewire_next H (some c) rom mode s).2.1 = some c1 ∧
      c1.pin_in = c.pin_in ∧ c1.pin_out = c.pin_out ∧ c1.sst.last_device = 0 ∧
      c1.sst.last_discrepancy = 0 ∧ c1.sst.last_family_discrepancy = 0 ∧
      rom_wf c1.sst.rom := by
  simp only [mgos_onewire_next] at hfail ⊢
  refine ⟨_, rfl, ?_, ?_, ?_⟩
  · exact (onewire_search_pins H _ rom s).1
  · exact (onewire_search_pins H _ rom s).2
  · rcases onewire_search_cases H { c with sst := { c.sst with search_mode := mode } } rom s
      with ⟨h1, -⟩ | ⟨-, -, h3, h4, h5⟩
    · rw [h1] at hfail; cases hfail
    · exact ⟨h3, h4, h5, onewire_search_wf H _ rom s hwf⟩

/-- C13: let a call of `mgos_onewire_next` on a cursor with an 8-byte address
return false, on any platform.  Then for every platform, state, caller buffer
and mode, the following call on the cursor it left behind and the same call on
that cursor cleared by `mgos_onewire_search_clean` give the same return value,
the same caller buffer, the same final platform state (hence the same bus
operations) and the same `last_discrepancy`, `last_family_discrepancy` and
`last_device`. -/
theorem retry_restarts {τ : Type} (H : Hal σ) (K : Hal τ) (c : mgos_onewire)
    (rom0 rom : List Nat) (mode0 mode : Int) (s : σ) (t : τ) (hwf : rom_wf c.sst.rom)
    (hfail : (mgos_onewire_next H (some c) rom0 mode0 s).1 = false) :
    (mgos_onewire_next K (mgos_onewire_next H (some c) rom0 mode0 s).2.1 rom mode t).1 =
        (mgos_onewire_next K
          (mgos_onewire_search_clean (mgos_onewire_next H (some c) rom0 mode0 s).2.1)
          rom mode t).1 ∧
      (mgos_onewire_next K (mgos_onewire_next H (some c) rom0 mode0 s).2.1 rom mode t).2.2 =
        (mgos_onewire_next K
          (mgos_onewire_search_clean (mgos_onewire_next H (some c) rom0 mode0 s).2.1)
          rom mode t).2.2 ∧
      (mgos_onewire_next K (mgos_onewire_next H (some c) rom0 mode0 s).2.1 rom mode t).2.1.map
          (fun o => (o.sst.last_discrepancy, o.sst.last_family_discrepancy,
            o.sst.last_device)) =
        (mgos_onewire_next K
          (mgos_onewire_search_clean (mgos_onewire_next H (some c) rom0 mode0 s).2.1)
          rom mode t).2.1.map
          (fun o => (o.sst.last_discrepancy, o.sst.last_family_discrepancy,
            o.sst.last_device)) := by
  obtain ⟨c1, hc1, -, -, d1, d2, d3, w1⟩ := next_failed_cursor H c rom0 mode0 s hwf hfail
  rw [hc1]
  simp only [mgos_onewire_search_clean, mgos_onewire_next, Option.map_some']
  obtain ⟨e1, e2, e3, e4, e5⟩ := onewire_search_fresh K
    { c1 with sst := { c1.sst with search_mode := mode } }
    { c1 with sst := { sst_zero with search_mode := mode } } rom t rfl rfl rfl d1 rfl d2 rfl
    d3 w1 sst_zero_wf
  refine ⟨e1, e2, ?_⟩
  rw [e3, e4, e5]

set_option maxRecDepth 1000000 in
/-- Witness for C13: the call on `glitch_line` fails and leaves the address
bytes 2, 0, ..., 0 behind; the retry on a simulated line with one device
behaves as from a cleared cursor. -/
theorem retry_restarts_witness :
    ((mgos_onewire_next traceHal (some demo_handle) [1, 2, 3, 4, 5, 6, 7, 8] 0
        glitch_line).1 = false ∧
      (mgos_onewire_next traceHal (some demo_handle) [1, 2, 3, 4, 5, 6, 7, 8] 0
        glitch_line).2.1.map (fun o => o.sst.rom) = some [2, 0, 0, 0, 0, 0, 0, 0]) ∧
      (mgos_onewire_next (simHal [rom_a])
        (mgos_onewire_next traceHal (some demo_handle) [1, 2, 3, 4, 5, 6, 7, 8] 0
          glitch_line).2.1 [0, 0, 0, 0, 0, 0, 0, 0] 0 (sim_line [rom_a])).1 =
      (mgos_onewire_next (simHal [rom_a])
        (mgos_onewire_search_clean (mgos_onewire_next traceHal (some demo_handle)
          [1, 2, 3, 4, 5, 6, 7, 8] 0 glitch_line).2.1)
        [0, 0, 0, 0, 0, 0, 0, 0] 0 (sim_line [rom_a])).1 :=
  ⟨⟨by decide, by decide⟩,
    (retry_restarts traceHal (simHal [rom_a]) demo_handle [1, 2, 3, 4, 5, 6, 7, 8]
      [0, 0, 0, 0, 0, 0, 0, 0] 0 0 glitch_line (sim_line [rom_a]) sst_zero_wf
      (by decide)).1⟩

/-! ## Soundness of the search on the simulated bus -/

/-- C14: on a wired-AND bus with at least one device, all devices with valid
ROM codes and none of family `F`, the call of `mgos_onewire_next` that follows
`mgos_onewire_target_setup(ow, F)` still returns true, and the address it
returns is that of a device on the bus, whose family byte differs from `F`. -/
theorem target_setup_other_family (H : Hal σ) (ow : mgos_onewire) (devs : List (List Nat))
    (view : σ → SimBus) (mode : Int) (rom : List Nat) (s : σ) (family_code : Nat)
    (hbus : WiredAnd H ow devs view) (hne : ∃ d, d ∈ devs) (hval : ∀ d ∈ devs, rom_valid d)
    (hrom : rom.length = 8) (hcode : family_code < 256)
    (hnone : ∀ d ∈ devs, d.getD 0 0 ≠ family_code) :
    (mgos_onewire_next H (mgos_onewire_target_setup (some ow) family_code) rom mode s).1
        = true ∧
      (mgos_onewire_next H (mgos_onewire_target_setup (some ow) family_code) rom mode
        s).2.2.1 ∈ devs ∧
      (mgos_onewire_next H (mgos_onewire_target_setup (some ow) family_code) rom mode
        s).2.2.1.getD 0 0 ≠ family_code := by
  obtain ⟨ow1, lz, s1, hcall, -, -, -, -, P⟩ := next_on_bus H ow devs view hbus hne hval
    { ow with sst := { sst_zero with rom := sst_zero.rom.set 0 family_code,
                                     last_discrepancy := 64 } }
    rfl rfl rfl (target_rom_wf hcode) rom hrom mode s
  have hset : mgos_onewire_target_setup (some ow) family_code =
      some { ow with sst := { sst_zero with rom := sst_zero.rom.set 0 family_code,
                                            last_discrepancy := 64 } } := rfl
  rw [hset, hcall]
  exact ⟨rfl, P.mem, hnone _ P.mem⟩

/-- Witness for C14: family 0x11 is carried by none of the three devices. -/
theorem target_setup_other_family_witness :
    (∀ d ∈ [rom_a, rom_b, rom_c], d.getD 0 0 ≠ 0x11) ∧
      (mgos_onewire_next (simHal [rom_a, rom_b, rom_c])
        (mgos_onewire_target_setup (some demo_handle) 0x11) [0, 0, 0, 0, 0, 0, 0, 0] 0
        (sim_line [rom_a, rom_b, rom_c])).1 = true ∧
      (mgos_onewire_next (simHal [rom_a, rom_b, rom_c])
        (mgos_onewire_target_setup (some demo_handle) 0x11) [0, 0, 0, 0, 0, 0, 0, 0] 0
        (sim_line [rom_a, rom_b, rom_c])).2.2.1 ∈ [rom_a, rom_b, rom_c] :=
  ⟨by decide,
    (target_setup_other_family (simHal [rom_a, rom_b, rom_c]) demo_handle
      [rom_a, rom_b, rom_c] (fun l => l.bus) 0 [0, 0, 0, 0, 0, 0, 0, 0]
      (sim_line [rom_a, rom_b, rom_c]) 0x11 (sim_wired _ _) ⟨rom_a, List.mem_cons_self _ _⟩
      demo_devs_valid rfl (by decide) (by decide)).1,
    (target_setup_other_family (simHal [rom_a, rom_b, rom_c]) demo_handle
      [rom_a, rom_b, rom_c] (fun l => l.bus) 0 [0, 0, 0, 0, 0, 0, 0, 0]
      (sim_line [rom_a, rom_b, rom_c]) 0x11 (sim_wired _ _) ⟨rom_a, List.mem_cons_self _ _⟩
      demo_devs_valid rfl (by decide) (by decide)).2.1⟩

theorem walk_never_breaks (H : Hal σ) (ow : mgos_onewire) (s : σ)
    (h65 : (search_loop H 64 ow search_init s).2.1.id_bit_number = 65) :
    ∀ n, n < 64 →
      (search_loop H n ow search_init s).2.1.id_bit_number = n + 1 ∧
      ¬ ((mgos_onewire_read_bit H (some ow) (search_loop H n ow search_init s).2.2).1 = true ∧
        (mgos_onewire_read_bit H (some ow) (mgos_onewire_read_bit H (some ow)
          (search_loop H n ow search_init s).2.2).2).1 = true) := by
  have hpos0 : at_pos search_init 0 := by simp [at_pos, search_init]
  have hstep : ∀ n, n < 64 → (search_loop H n ow search_init s).2.1.id_bit_number = n + 1 →
      ¬ ((mgos_onewire_read_bit H (some ow) (search_loop H n ow search_init s).2.2).1 = true ∧
        (mgos_onewire_read_bit H (some ow) (mgos_onewire_read_bit H (some ow)
          (search_loop H n ow search_init s).2.2).2).1 = true) ∧
      (n + 1 < 64 → (search_loop H (n + 1) ow search_init s).2.1.id_bit_number = n + 2) := by
    intro n hn hid
    obtain ⟨hp, hsplit⟩ := search_loop_split H n 0 ow search_init s hpos0 (by omega)
      (by rw [hid]; omega)
    obtain ⟨f1, f2, -, -, -⟩ := search_loop_fields H n ow search_init s
    have hrb : ∀ t, mgos_onewire_read_bit H (some (search_loop H n ow search_init s).1) t =
        mgos_onewire_read_bit H (some ow) t := read_bit_pins H ow _ f1 f2
    have hnb : ¬ ((mgos_onewire_read_bit H (some ow)
          (search_loop H n ow search_init s).2.2).1 = true ∧
        (mgos_onewire_read_bit H (some ow) (mgos_onewire_read_bit H (some ow)
          (search_loop H n ow search_init s).2.2).2).1 = true) := by
      rintro ⟨c1, c2⟩
      have h := hsplit (63 - n + 1)
      rw [show n + (63 - n + 1) = 64 by omega,
        search_loop_break H (63 - n) _ _ _ (by rw [hrb]; exact c1)
          (by rw [hrb, hrb]; exact c2)] at h
      rw [h] at h65
      simp only at h65
      omega
    refine ⟨hnb, fun hn1 => ?_⟩
    rw [hsplit 1]
    rcases search_body_cases H (search_loop H n ow search_init s).1
      (search_loop H n ow search_init s).2.1 (search_loop H n ow search_init s).2.2
      with ⟨c1, c2, -⟩ | ⟨-, hb⟩
    · rw [hrb] at c1
      rw [hrb, hrb] at c2
      exact absurd ⟨c1, c2⟩ hnb
    · obtain ⟨a1, -, -⟩ := search_advance_pos (search_loop H n ow search_init s).1
        (search_loop H n ow search_init s).2.1
        (mgos_onewire_read_bit H (some (search_loop H n ow search_init s).1)
          (search_loop H n ow search_init s).2.2).1
        (mgos_onewire_read_bit H (some (search_loop H n ow search_init s).1)
          (mgos_onewire_read_bit H (some (search_loop H n ow search_init s).1)
            (search_loop H n ow search_init s).2.2).2).1 (0 + n) hp (by omega)
      rw [search_loop, hb]
      simp only
      split
      · simp only [search_loop]
        rw [a1.1]; omega
      · rw [a1.1]; omega
  intro n
  induction n with
  | zero => intro h0; exact ⟨rfl, (hstep 0 h0 rfl).1⟩
  | succ n ih =>
    intro hn
    have hprev := ih (by omega)
    have hid := (hstep n (by omega) hprev.1).2 hn
    exact ⟨hid, (hstep (n + 1) hn hid).1⟩

/-- C20: on a wired-AND bus carrying a non-empty set of devices (8-byte ROM
codes, not necessarily with a valid CRC), for every starting cursor with the
exhausted flag clear (any address bytes, any `last_discrepancy`) and every
mode: at none of the 64 positions of the walk do both complementary bits read
1, and when `mgos_onewire_next` returns true the caller buffer holds exactly
the address of a device on the bus. -/
theorem search_sound (H : Hal σ) (ow : mgos_onewire) (devs : List (List Nat))
    (view : σ → SimBus) (mode : Int) (rom : List Nat) (s : σ)
    (hbus : WiredAnd H ow devs view) (hne : ∃ d, d ∈ devs) (hdev : ∀ d ∈ devs, rom_wf d)
    (hld : ow.sst.last_device = 0) (hwf : rom_wf ow.sst.rom) (hrom : rom.length = 8) :
    (∀ n, n < 64 →
      ¬ ((mgos_onewire_read_bit H (some ow)
          (search_upto H { ow with sst := { ow.sst with search_mode := mode } } s n).2.2).1
            = true ∧
        (mgos_onewire_read_bit H (some ow) (mgos_onewire_read_bit H (some ow)
          (search_upto H { ow with sst := { ow.sst with search_mode := mode } } s
            n).2.2).2).1 = true)) ∧
      (search_upto H { ow with sst := { ow.sst with search_mode := mode } } s
        64).2.1.id_bit_number = 65 ∧
      ((mgos_onewire_next H (some ow) rom mode s).1 = true →
        (mgos_onewire_next H (some ow) rom mode s).2.2.1 ∈ devs) := by
  generalize hm : ({ ow with sst := { ow.sst with search_mode := mode } } : mgos_onewire)
    = owm at *
  have hi : owm.pin_in = ow.pin_in := by rw [← hm]
  have ho : owm.pin_out = ow.pin_out := by rw [← hm]
  have hldm : owm.sst.last_device = 0 := by rw [← hm]; exact hld
  have hwfm : rom_wf owm.sst.rom := by rw [← hm]; exact hwf
  have hbus1 : WiredAnd H owm devs view := hbus.of_pins hi ho
  obtain ⟨hr, hrv⟩ := hbus1.reset_presence s
  have hcmd := command_consumed H owm devs view hbus1 (search_command owm) _ hrv
  obtain ⟨hid, P⟩ := search_loop_walk H ow devs view hbus hdev 64 0 owm
    search_init _ devs (by omega) (by simp [at_pos, search_init]) (by simp [search_init])
    hi ho hwfm hcmd (fun d => by simp [agree_below]) hne
  have hnb := walk_never_breaks H owm _ hid
  refine ⟨fun n hn => ?_, hid, fun htrue => ?_⟩
  · have := (hnb n hn).2
    simp only [read_bit_pins H ow owm hi ho] at this
    exact this
  · simp only [mgos_onewire_next, hm] at htrue ⊢
    have hsearch := onewire_search_walked H owm rom s hldm hr
    simp only [search_walk] at hsearch
    rw [if_neg (by rw [hid]; decide)] at hsearch
    rcases search_finish_cases (search_commit
        (search_loop H 64 owm search_init (mgos_onewire_write H (some owm)
          (search_command owm) (mgos_onewire_reset H (some owm) s).2)).1
        (search_loop H 64 owm search_init (mgos_onewire_write H (some owm)
          (search_command owm) (mgos_onewire_reset H (some owm) s).2)).2.1) true rom
      with ⟨hf, -, -⟩ | ⟨hf, -⟩
    · rw [hf] at hsearch
      rw [hsearch]
      simp only
      have hlen : (search_commit
          (search_loop H 64 owm search_init (mgos_onewire_write H (some owm)
            (search_command owm) (mgos_onewire_reset H (some owm) s).2)).1
          (search_loop H 64 owm search_init (mgos_onewire_write H (some owm)
            (search_command owm) (mgos_onewire_reset H (some owm) s).2)).2.1).sst.rom.length
          = 8 := (hdev _ P.mem).1
      rw [copy_rom_eq hlen hrom]
      exact P.mem
    · rw [hf] at hsearch
      rw [hsearch] at htrue
      cases htrue

set_option maxRecDepth 1000000 in
/-- Witness for C20: a call from a cursor with stored address 2, 0, ..., 0 and
`last_discrepancy` 17, in conditional mode, on the simulated line with three
devices. -/
theorem search_sound_witness :
    (mgos_onewire_next (simHal [rom_a, rom_b, rom_c])
        (some { demo_handle with sst := { sst_zero with rom := [2, 0, 0, 0, 0, 0, 0, 0],
                                                        last_discrepancy := 17 } })
        [0, 0, 0, 0, 0, 0, 0, 0] 1 (sim_line [rom_a, rom_b, rom_c])).1 = true ∧
      (mgos_onewire_next (simHal [rom_a, rom_b, rom_c])
        (some { demo_handle with sst := { sst_zero with rom := [2, 0, 0, 0, 0, 0, 0, 0],
                                                        last_discrepancy := 17 } })
        [0, 0, 0, 0, 0, 0, 0, 0] 1 (sim_line [rom_a, rom_b, rom_c])).2.2.1 ∈
          [rom_a, rom_b, rom_c] :=
  ⟨by decide,
    (search_sound (simHal [rom_a, rom_b, rom_c])
      { demo_handle with sst := { sst_zero with rom := [2, 0, 0, 0, 0, 0, 0, 0],
                                                last_discrepancy := 17 } }
      [rom_a, rom_b, rom_c] (fun l => l.bus) 1 [0, 0, 0, 0, 0, 0, 0, 0]
      (sim_line [rom_a, rom_b, rom_c]) (sim_wired _ _) ⟨rom_a, List.mem_cons_self _ _⟩
      (fun d hd => (demo_devs_valid d hd).1) rfl ⟨rfl, by decide⟩ rfl).2.2 (by decide)⟩

/-! ## Timing of a write slot -/

/-- C15 refuted on the recording platform: a write slot for bit 1 sleeps 65
microseconds in total (10 low, 55 after release), a slot for bit 0 sleeps 70
(65 low, 5 after release). -/
theorem write_slot_totals_differ :
    slept (mgos_onewire_write_bit traceHal (some demo_handle) 1 idle_line).trace = 65 ∧
      slept (mgos_onewire_write_bit traceHal (some demo_handle) 0 idle_line).trace = 70 ∧
      slept (mgos_onewire_write_bit traceHal (some demo_handle) 1 idle_line).trace ≠
        slept (mgos_onewire_write_bit traceHal (some demo_handle) 0 idle_line).trace := by
  decide

/-- C15 as amended: in `mgos_onewire_write_bit` the low pulse lasts 10
microseconds for a non-zero bit and 65 for bit 0, the delay after the release
55 and 5, so a slot sleeps 65 microseconds for a 1 and 70 for a 0; every
non-zero value of the `int` argument is treated as 1. -/
theorem write_slot_timing (H : Hal σ) (ow : mgos_onewire) (bit : Int) (s : σ) (l : Line) :
    (bit ≠ 0 → mgos_onewire_write_bit H (some ow) bit s =
        mgos_onewire_write_bit H (some ow) 1 s) ∧
      (mgos_onewire_write_bit traceHal (some ow) bit l).trace =
        [Op.usleep (if bit ≠ 0 then 55 else 5), Op.ints_enable, Op.gpio_write ow.pin_out true,
          Op.usleep (if bit ≠ 0 then 10 else 65), Op.gpio_write ow.pin_out false] ++
        (if ow.pin_in = ow.pin_out then [Op.gpio_set_mode ow.pin_out] else []) ++
        [Op.ints_disable] ++ l.trace ∧
      slept (mgos_onewire_write_bit traceHal (some ow) bit l).trace =
        slept l.trace + (if bit ≠ 0 then 65 else 70) := by
  refine ⟨fun hb => ?_, ?_, ?_⟩
  · simp [mgos_onewire_write_bit, hb]
  · by_cases hp : ow.pin_in = ow.pin_out <;>
      simp [mgos_onewire_write_bit, onewire_prepare_output, hp, traceHal]
  · by_cases hp : ow.pin_in = ow.pin_out <;> by_cases hb : bit = 0 <;>
      simp [mgos_onewire_write_bit, onewire_prepare_output, hp, hb, traceHal, slept] <;> omega

/-- Witness for C15 as amended: the argument 5 is treated as 1. -/
theorem write_slot_timing_witness :
    (5 : Int) ≠ 0 ∧
      mgos_onewire_write_bit traceHal (some demo_handle) 5 idle_line =
        mgos_onewire_write_bit traceHal (some demo_handle) 1 idle_line :=
  ⟨by decide, (write_slot_timing traceHal demo_handle 5 idle_line idle_line).1 (by decide)⟩

/-! ## The idle wait of the reset -/

theorem wait_trace (ow : mgos_onewire) (n : Nat) :
    ∀ l : Line, ∃ vs : List Bool,
      vs.length ≤ n ∧ (1 ≤ n → 1 ≤ vs.length) ∧
      (onewire_wait traceHal ow n l).2.trace = poll_trace ow.pin_in vs l.trace ∧
      (∀ v ∈ vs.dropLast, v = false) ∧
      ((onewire_wait traceHal ow n l).1 = true ↔
        (vs.getLast? = some true ∧ vs.length < n)) := by
  induction n with
  | zero =>
    intro l
    exact ⟨[], le_refl _, fun h => absurd h (by omega), rfl, fun v hv => by simp at hv,
      by simp [onewire_wait]⟩
  | succ n ih =>
    intro l
    cases hv : l.level (Op.usleep 2 :: l.trace)
    · obtain ⟨vs, h1, h2, h3, h4, h5⟩ := ih
        { trace := Op.gpio_read ow.pin_in false :: Op.usleep 2 :: l.trace, level := l.level }
      have hw : onewire_wait traceHal ow (n + 1) l = onewire_wait traceHal ow n
          { trace := Op.gpio_read ow.pin_in false :: Op.usleep 2 :: l.trace,
            level := l.level } := by
        simp [onewire_wait, traceHal, hv]
      refine ⟨false :: vs, by simp; omega, fun _ => by simp, ?_, ?_, ?_⟩
      · rw [hw, h3]; rfl
      · intro v hv1
        cases vs with
        | nil => simp at hv1
        | cons a as =>
          rw [List.dropLast_cons₂] at hv1
          rcases List.mem_cons.1 hv1 with h | h
          · exact h
          · exact h4 v h
      · rw [hw, h5]
        cases vs with
        | nil => simp
        | cons a as => simp [List.getLast?_cons_cons]
    · refine ⟨[true], by simp, fun _ => by simp, ?_, fun v hv1 => by simp at hv1, ?_⟩
      · simp [onewire_wait, traceHal, hv, poll_trace]
      · simp [onewire_wait, traceHal, hv]
        omega

set_option maxRecDepth 1000000 in
/-- C16 refuted on a line that reads low for 124 samples and high at the 125th:
the idle wait of the reset takes 125 samples, the last one reads high, and yet
the reset returns false right after it, without driving the line low. -/
theorem reset_fails_on_last_sample_high :
    reads_in (mgos_onewire_reset traceHal (some demo_handle) late_line).2.trace = 125 ∧
      (mgos_onewire_reset traceHal (some demo_handle) late_line).2.trace.head? =
        some (Op.gpio_read 4 true) ∧
      (mgos_onewire_reset traceHal (some demo_handle) late_line).1 = false ∧
      Op.gpio_write 5 false ∉
        (mgos_onewire_reset traceHal (some demo_handle) late_line).2.trace := by
  decide

theorem reset_proceeds (ow : mgos_onewire) (l : Line)
    (h : (onewire_wait traceHal ow 125 (onewire_prepare_input traceHal ow l)).1 = true) :
    Op.gpio_write ow.pin_out false ∈ (mgos_onewire_reset traceHal (some ow) l).2.trace := by
  simp only [mgos_onewire_reset, h]
  by_cases hp : ow.pin_in = ow.pin_out <;>
    simp [onewire_prepare_input, onewire_prepare_output, hp, traceHal]

/-- C16 as amended: the idle wait at the start of `mgos_onewire_reset` takes
between 1 and 125 samples, each after a 2 microsecond delay, all low except
possibly the last; it succeeds exactly when the last sample reads high and is
one of the first 124, and then the reset goes on to drive the line low; when it
fails (also when only the 125th sample reads high) the reset returns false and
its trace holds the pin preparation and the samples only. -/
theorem idle_wait_bound (ow : mgos_onewire) (l : Line) :
    ∃ vs : List Bool,
      1 ≤ vs.length ∧ vs.length ≤ 125 ∧
      (onewire_wait traceHal ow 125 (onewire_prepare_input traceHal ow l)).2.trace =
        poll_trace ow.pin_in vs
          ((if ow.pin_in = ow.pin_out then Op.gpio_setup_input ow.pin_in
            else Op.gpio_write ow.pin_out true) :: l.trace) ∧
      (∀ v ∈ vs.dropLast, v = false) ∧
      ((onewire_wait traceHal ow 125 (onewire_prepare_input traceHal ow l)).1 = true ↔
        (vs.getLast? = some true ∧ vs.length ≤ 124)) ∧
      ((onewire_wait traceHal ow 125 (onewire_prepare_input traceHal ow l)).1 = false →
        (mgos_onewire_reset traceHal (some ow) l).1 = false ∧
        (mgos_onewire_reset traceHal (some ow) l).2.trace =
          poll_trace ow.pin_in vs
            ((if ow.pin_in = ow.pin_out then Op.gpio_setup_input ow.pin_in
              else Op.gpio_write ow.pin_out true) :: l.trace)) ∧
      ((onewire_wait traceHal ow 125 (onewire_prepare_input traceHal ow l)).1 = true →
        Op.gpio_write ow.pin_out false ∈
          (mgos_onewire_reset traceHal (some ow) l).2.trace) := by
  obtain ⟨vs, h1, h2, h3, h4, h5⟩ := wait_trace ow 125 (onewire_prepare_input traceHal ow l)
  have hprep : (onewire_prepare_input traceHal ow l).trace =
      (if ow.pin_in = ow.pin_out then Op.gpio_setup_input ow.pin_in
        else Op.gpio_write ow.pin_out true) :: l.trace := by
    by_cases hp : ow.pin_in = ow.pin_out <;> simp [onewire_prepare_input, hp, traceHal]
  rw [hprep] at h3
  refine ⟨vs, h2 (by omega), h1, h3, h4, ?_, fun hf => ?_, reset_proceeds ow l⟩
  · rw [h5]
    constructor
    · rintro ⟨a, b⟩; exact ⟨a, by omega⟩
    · rintro ⟨a, b⟩; exact ⟨a, by omega⟩
  · rw [reset_false_of_wait traceHal ow l hf]
    exact ⟨rfl, h3⟩

/-- Witness for C16 as amended: on the idle line the first sample reads high
and the reset goes on to drive the line low. -/
theorem idle_wait_bound_witness :
    (onewire_wait traceHal demo_handle 125
        (onewire_prepare_input traceHal demo_handle idle_line)).1 = true ∧
      Op.gpio_write demo_handle.pin_out false ∈
        (mgos_onewire_reset traceHal (some demo_handle) idle_line).2.trace :=
  ⟨by decide, (idle_wait_bound demo_handle idle_line).elim
    (fun _ h => h.2.2.2.2.2.2 (by decide))⟩

/-! ## Interrupt masking -/

theorem poll_trace_ops (pin : Int) (vs : List Bool) :
    ∀ tr : List Op, ∃ seg : List Op,
      poll_trace pin vs tr = seg.reverse ++ tr ∧ ∀ pre, idle_poll pre = true →
        idle_poll (pre ++ seg) = true := by
  induction vs with
  | nil => intro tr; exact ⟨[], rfl, fun pre h => by simpa using h⟩
  | cons v vs ih =>
    intro tr
    obtain ⟨seg, h1, h2⟩ := ih (Op.gpio_read pin v :: Op.usleep 2 :: tr)
    refine ⟨Op.usleep 2 :: Op.gpio_read pin v :: seg, ?_, fun pre hpre => ?_⟩
    · rw [poll_trace, h1]; simp
    · have hpre2 : idle_poll (pre ++ [Op.usleep 2, Op.gpio_read pin v]) = true := by
        clear h1 h2 ih
        induction pre with
        | nil => rfl
        | cons a as iha =>
          cases a with
          | gpio_write p lv => cases lv <;> simp_all [idle_poll]
          | _ => simp_all [idle_poll]
      have := h2 _ hpre2
      simpa using this

theorem read_bit_scoped (ow : mgos_onewire) (l : Line) :
    ∃ seg : List Op,
      (mgos_onewire_read_bit traceHal (some ow) l).2.trace = seg.reverse ++ l.trace ∧
      ints_scoped false seg = true := by
  by_cases hp : ow.pin_in = ow.pin_out
  · refine ⟨[Op.ints_disable, Op.gpio_set_mode ow.pin_out, Op.gpio_write ow.pin_out false,
      Op.usleep 3, Op.gpio_setup_input ow.pin_in, Op.usleep 10,
      Op.gpio_read ow.pin_in (mgos_onewire_read_bit traceHal (some ow) l).1,
      Op.ints_enable, Op.usleep 52], ?_, rfl⟩
    simp [mgos_onewire_read_bit, onewire_prepare_input, onewire_prepare_output, hp, traceHal]
  · refine ⟨[Op.ints_disable, Op.gpio_write ow.pin_out false,
      Op.usleep 3, Op.gpio_write ow.pin_out true, Op.usleep 10,
      Op.gpio_read ow.pin_in (mgos_onewire_read_bit traceHal (some ow) l).1,
      Op.ints_enable, Op.usleep 52], ?_, rfl⟩
    simp [mgos_onewire_read_bit, onewire_prepare_input, onewire_prepare_output, hp, traceHal]

theorem write_bit_scoped (ow : mgos_onewire) (bit : Int) (l : Line) :
    ∃ seg : List Op,
      (mgos_onewire_write_bit traceHal (some ow) bit l).trace = seg.reverse ++ l.trace ∧
      ints_scoped false seg = true := by
  by_cases hp : ow.pin_in = ow.pin_out
  · refine ⟨[Op.ints_disable, Op.gpio_set_mode ow.pin_out, Op.gpio_write ow.pin_out false,
      Op.usleep (if bit ≠ 0 then 10 else 65), Op.gpio_write ow.pin_out true,
      Op.ints_enable, Op.usleep (if bit ≠ 0 then 55 else 5)], ?_, rfl⟩
    simp [mgos_onewire_write_bit, onewire_prepare_output, hp, traceHal]
  · refine ⟨[Op.ints_disable, Op.gpio_write ow.pin_out false,
      Op.usleep (if bit ≠ 0 then 10 else 65), Op.gpio_write ow.pin_out true,
      Op.ints_enable, Op.usleep (if bit ≠ 0 then 55 else 5)], ?_, rfl⟩
    simp [mgos_onewire_write_bit, onewire_prepare_output, hp, traceHal]

theorem reset_scoped (ow : mgos_onewire) (l : Line) :
    ∃ poll pulse : List Op,
      (mgos_onewire_reset traceHal (some ow) l).2.trace = (poll ++ pulse).reverse ++ l.trace ∧
      idle_poll poll = true ∧ ints_scoped false pulse = true ∧
      ((onewire_wait traceHal ow 125 (onewire_prepare_input traceHal ow l)).1 = false →
        pulse = []) := by
  obtain ⟨vs, -, -, h3, -, -⟩ := wait_trace ow 125 (onewire_prepare_input traceHal ow l)
  obtain ⟨seg, g1, g2⟩ := poll_trace_ops ow.pin_in vs (onewire_prepare_input traceHal ow l).trace
  rw [g1] at h3
  have hprep : ∃ op, (onewire_prepare_input traceHal ow l).trace = op :: l.trace ∧
      idle_poll [op] = true := by
    by_cases hp : ow.pin_in = ow.pin_out
    · exact ⟨Op.gpio_setup_input ow.pin_in, by simp [onewire_prepare_input, hp, traceHal], rfl⟩
    · exact ⟨Op.gpio_write ow.pin_out true, by simp [onewire_prepare_input, hp, traceHal], rfl⟩
  obtain ⟨op, hop, hidle⟩ := hprep
  rw [hop] at h3
  have hpoll := g2 [op] hidle
  cases hw : (onewire_wait traceHal ow 125 (onewire_prepare_input traceHal ow l)).1
  · refine ⟨[op] ++ seg, [], ?_, hpoll, rfl, fun _ => rfl⟩
    rw [reset_false_of_wait traceHal ow l hw]
    simp only [h3]
    simp
  · simp only [mgos_onewire_reset, hw]
    generalize (onewire_wait traceHal ow 125 (onewire_prepare_input traceHal ow l)).2 = w
      at h3 ⊢
    by_cases hp : ow.pin_in = ow.pin_out
    · refine ⟨[op] ++ seg, [Op.ints_disable, Op.gpio_set_mode ow.pin_out,
        Op.gpio_write ow.pin_out false, Op.ints_enable, Op.usleep 480, Op.ints_disable,
        Op.gpio_setup_input ow.pin_in, Op.usleep 70,
        Op.gpio_read ow.pin_in (w.level (Op.usleep 70 :: Op.gpio_setup_input ow.pin_in ::
          Op.ints_disable :: Op.usleep 480 :: Op.ints_enable ::
          Op.gpio_write ow.pin_out false :: Op.gpio_set_mode ow.pin_out ::
          Op.ints_disable :: w.trace)),
        Op.ints_enable, Op.usleep 410], ?_, hpoll, rfl, fun h => by cases h⟩
      simp [onewire_prepare_input, onewire_prepare_output, hp, traceHal, h3]
    · refine ⟨[op] ++ seg, [Op.ints_disable,
        Op.gpio_write ow.pin_out false, Op.ints_enable, Op.usleep 480, Op.ints_disable,
        Op.gpio_write ow.pin_out true, Op.usleep 70,
        Op.gpio_read ow.pin_in (w.level (Op.usleep 70 :: Op.gpio_write ow.pin_out true ::
          Op.ints_disable :: Op.usleep 480 :: Op.ints_enable ::
          Op.gpio_write ow.pin_out false :: Op.ints_disable :: w.trace)),
        Op.ints_enable, Op.usleep 410], ?_, hpoll, rfl, fun h => by cases h⟩
      simp [onewire_prepare_input, onewire_prepare_output, hp, traceHal, h3]

/-- C19: on the recording platform, for every line and handle, the calls made
by `mgos_onewire_read_bit` and by `mgos_onewire_write_bit` keep interrupt
masking scoped: disable and enable alternate starting with a disable, every
write of LOW and every pin read lies between a disable and its enable, and the
function returns unmasked.  The calls made by `mgos_onewire_reset` are the pin
preparation and the idle polls, which neither mask nor write LOW, followed by a
pulse part that is scoped in the same way (its presence sample included) and is
empty when the idle wait timed out, so that the early return leaves interrupts
enabled as well. -/
theorem ints_masking_scoped (ow : mgos_onewire) (bit : Int) (l : Line) :
    (∃ seg : List Op,
        (mgos_onewire_read_bit traceHal (some ow) l).2.trace = seg.reverse ++ l.trace ∧
        ints_scoped false seg = true) ∧
      (∃ seg : List Op,
        (mgos_onewire_write_bit traceHal (some ow) bit l).trace = seg.reverse ++ l.trace ∧
        ints_scoped false seg = true) ∧
      (∃ poll pulse : List Op,
        (mgos_onewire_reset traceHal (some ow) l).2.trace =
          (poll ++ pulse).reverse ++ l.trace ∧
        idle_poll poll = true ∧ ints_scoped false pulse = true ∧
        (pulse = [] ∨
          (onewire_wait traceHal ow 125 (onewire_prepare_input traceHal ow l)).1 = true)) := by
  refine ⟨read_bit_scoped ow l, write_bit_scoped ow bit l, ?_⟩
  obtain ⟨poll, pulse, h1, h2, h3, h4⟩ := reset_scoped ow l
  refine ⟨poll, pulse, h1, h2, h3, ?_⟩
  cases hw : (onewire_wait traceHal ow 125 (onewire_prepare_input traceHal ow l)).1
  · exact Or.inl (h4 hw)
  · exact Or.inr rfl

/-! ## The resume point is the last fork where 0 was written -/

theorem zero_entry (ow : mgos_onewire) (v : search_vars) (x y : Bool)
    (h : ¬ (x = true ∧ y = true)) :
    search_zero ow v x y = true ↔ (x, y, search_dir ow v x y) = (false, false, false) := by
  cases x <;> cases y <;> simp [search_zero, search_dir] at h ⊢

theorem search_loop_trail (H : Hal σ) (n : Nat) :
    ∀ (k : Nat) (ow : mgos_onewire) (v : search_vars) (s : σ),
      at_pos v k → k + n = 64 →
      (search_loop H n ow v s).2.1.id_bit_number =
        k + 1 + (search_trail H n ow v s).length ∧
      (search_trail H n ow v s).length ≤ n ∧
      (((search_loop H n ow v s).2.1.last_zero = v.last_zero ∧
          ∀ e ∈ search_trail H n ow v s, e ≠ (false, false, false)) ∨
        ∃ i, i < (search_trail H n ow v s).length ∧
          (search_loop H n ow v s).2.1.last_zero = k + i + 1 ∧
          (search_trail H n ow v s)[i]? = some (false, false, false) ∧
          ∀ j, i < j → j < (search_trail H n ow v s).length →
            (search_trail H n ow v s)[j]? ≠ some (false, false, false)) := by
  induction n with
  | zero =>
    intro k ow v s hpos _
    exact ⟨by simp [search_loop, search_trail, hpos.1], le_refl _,
      Or.inl ⟨rfl, fun e he => by simp [search_trail] at he⟩⟩
  | succ n ih =>
    intro k ow v s hpos hk
    rcases search_body_cases H ow v s with ⟨-, -, hb⟩ | ⟨hnb, hb⟩
    · simp only [search_loop, search_trail, hb]
      exact ⟨by simp [hpos.1], by simp,
        Or.inl ⟨trivial, fun e he => by simp at he⟩⟩
    · generalize hx : (mgos_onewire_read_bit H (some ow) s).1 = x at *
      generalize hy : (mgos_onewire_read_bit H (some ow)
        (mgos_onewire_read_bit H (some ow) s).2).1 = y at *
      obtain ⟨a1, a2, a3⟩ := search_advance_pos ow v x y k hpos (by omega)
      have hz := zero_entry ow v x y hnb
      simp only [search_loop, search_trail, hb, hx, hy]
      by_cases hlt : k + 1 < 64
      · simp only [a2.2 hlt, ↓reduceIte]
        obtain ⟨i1, i2, i3⟩ := ih (k + 1) (search_store ow v x y) (search_advance ow v x y)
          (mgos_onewire_write_bit H (some ow) (if search_dir ow v x y = true then 1 else 0)
            (mgos_onewire_read_bit H (some ow) (mgos_onewire_read_bit H (some ow) s).2).2)
          a1 (by omega)
        generalize search_loop H n (search_store ow v x y) (search_advance ow v x y)
          (mgos_onewire_write_bit H (some ow) (if search_dir ow v x y = true then 1 else 0)
            (mgos_onewire_read_bit H (some ow) (mgos_onewire_read_bit H (some ow) s).2).2)
          = out at *
        generalize search_trail H n (search_store ow v x y) (search_advance ow v x y)
          (mgos_onewire_write_bit H (some ow) (if search_dir ow v x y = true then 1 else 0)
            (mgos_onewire_read_bit H (some ow) (mgos_onewire_read_bit H (some ow) s).2).2)
          = t at *
        refine ⟨by rw [i1]; simp; omega, by simp; omega, ?_⟩
        rcases i3 with ⟨l1, l2⟩ | ⟨i, l1, l2, l3, l4⟩
        · cases hzz : search_zero ow v x y
          · left
            refine ⟨by rw [l1, a3, hzz]; rfl, fun e he => ?_⟩
            rcases List.mem_cons.1 he with h | h
            · rw [h]; intro hc; rw [← hz, hzz] at hc; cases hc
            · exact l2 e h
          · right
            refine ⟨0, by simp, by rw [l1, a3, hzz]; rfl, ?_, fun j hj1 hj2 => ?_⟩
            · simp only [List.getElem?_cons_zero]
              rw [hz.1 hzz]
            · obtain ⟨j', rfl⟩ : ∃ j', j = j' + 1 := ⟨j - 1, by omega⟩
              simp only [List.getElem?_cons_succ]
              intro hc
              exact l2 _ (List.getElem?_mem hc) rfl
        · right
          refine ⟨i + 1, by simp; omega, by rw [l2]; omega, by simpa using l3,
            fun j hj1 hj2 => ?_⟩
          obtain ⟨j', rfl⟩ : ∃ j', j = j' + 1 := ⟨j - 1, by omega⟩
          simp only [List.getElem?_cons_succ]
          exact l4 j' (by omega) (by simpa using hj2)
      · simp only [show ¬ (search_advance ow v x y).rom_byte_number < 8 from
          fun h => hlt (a2.1 h), ↓reduceIte]
        refine ⟨by rw [a1.1]; simp, by simp, ?_⟩
        cases hzz : search_zero ow v x y
        · left
          refine ⟨by rw [a3, hzz]; rfl, fun e he => ?_⟩
          have : e = (x, y, search_dir ow v x y) := by simpa using he
          rw [this]; intro hc; rw [← hz, hzz] at hc; cases hc
        · right
          refine ⟨0, by simp, by rw [a3, hzz]; rfl, ?_, fun j hj1 hj2 => ?_⟩
          · simp only [List.getElem?_cons_zero]
            rw [hz.1 hzz]
          · simp at hj2; omega

theorem search_true_walked (H : Hal σ) (ow : mgos_onewire) (buf : List Nat) (s : σ)
    (htrue : (onewire_search H ow buf s).1 = true) :
    ow.sst.last_device = 0 ∧
      ¬ (search_walk H ow (mgos_onewire_reset H (some ow) s).2).2.1.id_bit_number < 65 ∧
      (onewire_search H ow buf s).2.1 =
        search_commit (search_walk H ow (mgos_onewire_reset H (some ow) s).2).1
          (search_walk H ow (mgos_onewire_reset H (some ow) s).2).2.1 := by
  by_cases h : ow.sst.last_device = 0
  · cases hr : (mgos_onewire_reset H (some ow) s).1
    · rw [onewire_search_no_presence H ow buf s h hr] at htrue
      cases htrue
    · rw [onewire_search_walked H ow buf s h hr] at htrue ⊢
      by_cases hlt : (search_walk H ow (mgos_onewire_reset H (some ow) s).2).2.1.id_bit_number
          < 65
      · rw [if_pos hlt, search_finish_false] at htrue
        cases htrue
      · refine ⟨h, hlt, ?_⟩
        rw [if_neg hlt] at htrue ⊢
        rcases search_finish_cases (search_commit
            (search_walk H ow (mgos_onewire_reset H (some ow) s).2).1
            (search_walk H ow (mgos_onewire_reset H (some ow) s).2).2.1) true buf
          with ⟨hf, -, -⟩ | ⟨hf, -⟩
        · rw [hf]
        · rw [hf] at htrue
          cases htrue
  · rw [onewire_search_exhausted H ow buf s h] at htrue
    cases htrue

/-- C17: for every platform, cursor and mode, when `mgos_onewire_next` returns
true the walk covered all 64 positions and `last_discrepancy` afterwards is the
highest position `p` in 1..64 whose record is (0, 0, 0), both bits read 0 and
direction 0 written, whether chosen afresh or replayed from the stored address,
or 0 when no position has that record; and `last_device` is set afterwards
exactly when that value is 0. -/
theorem resume_point (H : Hal σ) (ow : mgos_onewire) (rom : List Nat) (mode : Int) (s : σ)
    (htrue : (mgos_onewire_next H (some ow) rom mode s).1 = true) :
    ∃ ow1, (mgos_onewire_next H (some ow) rom mode s).2.1 = some ow1 ∧
      (walk_trail H { ow with sst := { ow.sst with search_mode := mode } } s).length = 64 ∧
      ((ow1.sst.last_discrepancy = 0 ∧
          ∀ e ∈ walk_trail H { ow with sst := { ow.sst with search_mode := mode } } s,
            e ≠ (false, false, false)) ∨
        ∃ p : Nat, 1 ≤ p ∧ p ≤ 64 ∧ ow1.sst.last_discrepancy = (p : Int) ∧
          (walk_trail H { ow with sst := { ow.sst with search_mode := mode } } s)[p - 1]? =
            some (false, false, false) ∧
          ∀ q, p < q → q ≤ 64 →
            (walk_trail H { ow with sst := { ow.sst with search_mode := mode } } s)[q - 1]? ≠
              some (false, false, false)) ∧
      (ow1.sst.last_device ≠ 0 ↔ ow1.sst.last_discrepancy = 0) := by
  simp only [mgos_onewire_next] at htrue ⊢
  generalize hm : ({ ow with sst := { ow.sst with search_mode := mode } } : mgos_onewire)
    = owm at *
  obtain ⟨hld, hid, hres⟩ := search_true_walked H owm rom s htrue
  obtain ⟨t1, t2, t3⟩ := search_loop_trail H 64 0 owm search_init
    (mgos_onewire_write H (some owm) (search_command owm)
      (mgos_onewire_reset H (some owm) s).2) (by simp [at_pos, search_init]) rfl
  obtain ⟨-, -, -, f4, -⟩ := search_loop_fields H 64 owm search_init
    (mgos_onewire_write H (some owm) (search_command owm)
      (mgos_onewire_reset H (some owm) s).2)
  simp only [search_walk] at hid hres
  simp only [walk_trail]
  generalize search_loop H 64 owm search_init
    (mgos_onewire_write H (some owm) (search_command owm)
      (mgos_onewire_reset H (some owm) s).2) = out at *
  generalize search_trail H 64 owm search_init
    (mgos_onewire_write H (some owm) (search_command owm)
      (mgos_onewire_reset H (some owm) s).2) = t at *
  have hlen : t.length = 64 := by omega
  refine ⟨_, rfl, hlen, ?_, ?_⟩
  · rw [hres]
    rcases t3 with ⟨l1, l2⟩ | ⟨i, l1, l2, l3, l4⟩
    · left
      refine ⟨?_, l2⟩
      show ((out.2.1.last_zero : Nat) : Int) = 0
      rw [l1]; rfl
    · right
      refine ⟨i + 1, by omega, by omega, ?_, by simpa using l3, fun q hq1 hq2 => ?_⟩
      · show ((out.2.1.last_zero : Nat) : Int) = ((i + 1 : Nat) : Int)
        rw [l2]; simp
      · obtain ⟨q', rfl⟩ : ∃ q', q = q' + 1 := ⟨q - 1, by omega⟩
        simp only [Nat.add_sub_cancel]
        exact l4 q' (by omega) (by omega)
  · rw [hres]
    show (if out.2.1.last_zero = 0 then (1 : Int) else out.1.sst.last_device) ≠ 0 ↔
      ((out.2.1.last_zero : Nat) : Int) = 0
    rw [f4, hld]
    by_cases hz : out.2.1.last_zero = 0
    · simp [hz]
    · simp [hz]

set_option maxRecDepth 1000000 in
/-- Witness for C17: the first call on the simulated line with three devices. -/
theorem resume_point_witness :
    (mgos_onewire_next (simHal [rom_a, rom_b, rom_c]) (some demo_handle)
        [0, 0, 0, 0, 0, 0, 0, 0] 0 (sim_line [rom_a, rom_b, rom_c])).1 = true ∧
      ∃ ow1, (mgos_onewire_next (simHal [rom_a, rom_b, rom_c]) (some demo_handle)
          [0, 0, 0, 0, 0, 0, 0, 0] 0 (sim_line [rom_a, rom_b, rom_c])).2.1 = some ow1 ∧
        (ow1.sst.last_device ≠ 0 ↔ ow1.sst.last_discrepancy = 0) :=
  ⟨by decide,
    (resume_point (simHal [rom_a, rom_b, rom_c]) demo_handle [0, 0, 0, 0, 0, 0, 0, 0] 0
      (sim_line [rom_a, rom_b, rom_c]) (by decide)).elim
      (fun ow1 h => ⟨ow1, h.1, h.2.2.2⟩)⟩

/-! ## The cursor invariant -/

theorem search_store_lfd (ow : mgos_onewire) (v : search_vars) (x y : Bool)
    (h : 0 ≤ ow.sst.last_family_discrepancy ∧ ow.sst.last_family_discrepancy ≤ 8) :
    0 ≤ (search_store ow v x y).sst.last_family_discrepancy ∧
      (search_store ow v x y).sst.last_family_discrepancy ≤ 8 := by
  simp only [search_store]
  split
  · rename_i hc
    constructor <;> omega
  · exact h

theorem search_loop_lfd (H : Hal σ) (n : Nat) :
    ∀ (ow : mgos_onewire) (v : search_vars) (s : σ),
      (0 ≤ ow.sst.last_family_discrepancy ∧ ow.sst.last_family_discrepancy ≤ 8) →
      0 ≤ (search_loop H n ow v s).1.sst.last_family_discrepancy ∧
        (search_loop H n ow v s).1.sst.last_family_discrepancy ≤ 8 := by
  induction n with
  | zero => intro ow v s h; exact h
  | succ n ih =>
    intro ow v s h
    rcases search_body_cases H ow v s with ⟨-, -, hb⟩ | ⟨-, hb⟩
    · rw [search_loop, hb]; exact h
    · rw [search_loop, hb]
      simp only
      split
      · exact ih _ _ _ (search_store_lfd ow v _ _ h)
      · exact search_store_lfd ow v _ _ h

/-- C18: the cursor invariant (`last_discrepancy` in 0..64,
`last_family_discrepancy` in 0..8, `last_device` 0 or 1 and set only with
`last_discrepancy` 0) holds for the zero-initialised cursor and for the cursor
left by `mgos_onewire_search_clean` and by `mgos_onewire_target_setup` with any
family code, and is preserved by `mgos_onewire_next` on every platform, in
every mode, whether the call succeeds or fails. -/
theorem cursor_invariant (H : Hal σ) (ow : mgos_onewire) (rom : List Nat) (mode : Int)
    (s : σ) (family_code : Nat) :
    cursor_inv sst_zero ∧
      (∃ o, mgos_onewire_search_clean (some ow) = some o ∧ cursor_inv o.sst) ∧
      (∃ o, mgos_onewire_target_setup (some ow) family_code = some o ∧ cursor_inv o.sst) ∧
      (cursor_inv ow.sst →
        ∃ o, (mgos_onewire_next H (some ow) rom mode s).2.1 = some o ∧ cursor_inv o.sst) := by
  have h0 : cursor_inv sst_zero := by
    simp [cursor_inv, sst_zero]
  refine ⟨h0, ⟨_, rfl, h0⟩, ⟨_, rfl, by simp [cursor_inv, sst_zero]⟩, fun hinv => ?_⟩
  refine ⟨_, rfl, ?_⟩
  simp only [mgos_onewire_next]
  generalize hm : ({ ow with sst := { ow.sst with search_mode := mode } } : mgos_onewire)
    = owm at *
  have hlfd : 0 ≤ owm.sst.last_family_discrepancy ∧ owm.sst.last_family_discrepancy ≤ 8 := by
    rw [← hm]; exact ⟨hinv.2.2.1, hinv.2.2.2.1⟩
  cases hres : (onewire_search H owm rom s).1
  · rcases onewire_search_cases H owm rom s with ⟨h1, -⟩ | ⟨-, -, h3, h4, h5⟩
    · rw [hres] at h1; cases h1
    · simp [cursor_inv, h3, h4, h5]
  · obtain ⟨hld, hid, hcur⟩ := search_true_walked H owm rom s hres
    obtain ⟨t1, t2, t3⟩ := search_loop_trail H 64 0 owm search_init
      (mgos_onewire_write H (some owm) (search_command owm)
        (mgos_onewire_reset H (some owm) s).2) (by simp [at_pos, search_init]) rfl
    obtain ⟨-, -, -, f4, -⟩ := search_loop_fields H 64 owm search_init
      (mgos_onewire_write H (some owm) (search_command owm)
        (mgos_onewire_reset H (some owm) s).2)
    have hl := search_loop_lfd H 64 owm search_init
      (mgos_onewire_write H (some owm) (search_command owm)
        (mgos_onewire_reset H (some owm) s).2) hlfd
    rw [hcur]
    simp only [search_walk] at hid ⊢
    generalize search_loop H 64 owm search_init
      (mgos_onewire_write H (some owm) (search_command owm)
        (mgos_onewire_reset H (some owm) s).2) = out at *
    have hlz : out.2.1.last_zero ≤ 64 := by
      rcases t3 with ⟨l1, -⟩ | ⟨i, l1, l2, -, -⟩
      · rw [l1]; simp [search_init]
      · omega
    simp only [cursor_inv, search_commit, f4, hld]
    refine ⟨by omega, by omega, hl.1, hl.2, ?_, ?_⟩
    · by_cases hz : out.2.1.last_zero = 0 <;> simp [hz]
    · by_cases hz : out.2.1.last_zero = 0 <;> simp [hz]

/-- Witness for C18: the cursor left by `mgos_onewire_target_setup` satisfies
the invariant, and so does the one left by the call that follows. -/
theorem cursor_invariant_witness :
    ∃ o, (mgos_onewire_next (simHal [rom_a, rom_b, rom_c])
        (some { demo_handle with sst := { sst_zero with last_discrepancy := 64 } })
        [0, 0, 0, 0, 0, 0, 0, 0] 0 (sim_line [rom_a, rom_b, rom_c])).2.1 = some o ∧
      cursor_inv o.sst :=
  (cursor_invariant (simHal [rom_a, rom_b, rom_c])
    { demo_handle with sst := { sst_zero with last_discrepancy := 64 } }
    [0, 0, 0, 0, 0, 0, 0, 0] 0 (sim_line [rom_a, rom_b, rom_c]) 0).2.2.2
    (by simp [cursor_inv, sst_zero])

end Onewire
